import Mathlib

/-!
Verification development for the planar-graph engine of `lipton_tarjan`
(rotation-system planar graphs: construction, subgraph extraction, random
generation and traversal).

Arrays of the Python source are modelled as Lean lists, `numpy.int32`
values as `Int` (with `-1` sentinels kept explicit), `numpy.float32`
vertex costs as exact rationals, and the process-wide random source as
explicit parameters (choice functions, cost draws, permutations).
-/

namespace PlanSep

/-! ### List helpers

`getN`, `setN` model `numpy` array reads and writes at integer indices
(`getN` takes an explicit default for out-of-range reads, which never
happen on the executions covered by the theorems below). -/

def getN (l : List α) (i : ℕ) (d : α) : α :=
  match l, i with
  | [], _ => d
  | a :: _, 0 => a
  | _ :: t, i + 1 => getN t i d

def setN (l : List α) (i : ℕ) (x : α) : List α :=
  match l, i with
  | [], _ => []
  | _ :: t, 0 => x :: t
  | a :: t, i + 1 => a :: setN t i x

@[simp] theorem getN_nil (i : ℕ) (d : α) : getN ([] : List α) i d = d := rfl

@[simp] theorem getN_cons_zero (a : α) (t : List α) (d : α) : getN (a :: t) 0 d = a := rfl

@[simp] theorem getN_cons_succ (a : α) (t : List α) (i : ℕ) (d : α) :
    getN (a :: t) (i + 1) d = getN t i d := rfl

@[simp] theorem setN_nil (i : ℕ) (x : α) : setN ([] : List α) i x = [] := rfl

@[simp] theorem setN_cons_zero (a : α) (t : List α) (x : α) : setN (a :: t) 0 x = x :: t := rfl

@[simp] theorem setN_cons_succ (a : α) (t : List α) (i : ℕ) (x : α) :
    setN (a :: t) (i + 1) x = a :: setN t i x := rfl

@[simp] theorem length_setN (l : List α) (i : ℕ) (x : α) : (setN l i x).length = l.length := by
  induction l generalizing i with
  | nil => rfl
  | cons a t ih => cases i with
    | zero => rfl
    | succ j => simpa using ih j

theorem getN_setN_eq (l : List α) (i : ℕ) (x d : α) (h : i < l.length) :
    getN (setN l i x) i d = x := by
  induction l generalizing i with
  | nil => simp at h
  | cons a t ih => cases i with
    | zero => rfl
    | succ j => simpa using ih j (by simpa using h)

theorem getN_setN_ne (l : List α) (i j : ℕ) (x d : α) (h : j ≠ i) :
    getN (setN l i x) j d = getN l j d := by
  induction l generalizing i j with
  | nil => rfl
  | cons a t ih =>
    cases i with
    | zero => cases j with
      | zero => exact absurd rfl h
      | succ k => rfl
    | succ i0 => cases j with
      | zero => rfl
      | succ k => simpa using ih i0 k (by omega)

theorem getN_eq_of_lt_length (l : List α) (i : ℕ) (d d2 : α) (h : i < l.length) :
    getN l i d = getN l i d2 := by
  induction l generalizing i with
  | nil => simp at h
  | cons a t ih => cases i with
    | zero => rfl
    | succ j => simpa using ih j (by simpa using h)

theorem getN_append_left (l m : List α) (i : ℕ) (d : α) (h : i < l.length) :
    getN (l ++ m) i d = getN l i d := by
  induction l generalizing i with
  | nil => simp at h
  | cons a t ih => cases i with
    | zero => rfl
    | succ j => simpa using ih j (by simpa using h)

theorem getN_append_right (l m : List α) (i : ℕ) (d : α) (h : l.length ≤ i) :
    getN (l ++ m) i d = getN m (i - l.length) d := by
  induction l generalizing i with
  | nil => simp
  | cons a t ih => cases i with
    | zero => simp at h
    | succ j => simpa using ih j (by simpa using h)

@[simp] theorem getN_replicate (n i : ℕ) (x d : α) (h : i < n) :
    getN (List.replicate n x) i d = x := by
  induction n generalizing i with
  | zero => omega
  | succ m ih => cases i with
    | zero => rfl
    | succ j => simpa using ih j (by omega)

theorem getN_mem (l : List α) (i : ℕ) (d : α) (h : i < l.length) : getN l i d ∈ l := by
  induction l generalizing i with
  | nil => simp at h
  | cons a t ih => cases i with
    | zero => simp
    | succ j => exact List.mem_cons_of_mem a (ih j (by simpa using h))

theorem getN_map (f : α → β) (l : List α) (i : ℕ) (d : α) (h : i < l.length) :
    getN (l.map f) i (f d) = f (getN l i d) := by
  induction l generalizing i with
  | nil => simp at h
  | cons a t ih => cases i with
    | zero => rfl
    | succ j => simpa using ih j (by simpa using h)

theorem getN_range (n i : ℕ) (d : ℕ) (h : i < n) : getN (List.range n) i d = i := by
  induction n with
  | zero => omega
  | succ m ih =>
    rcases Nat.lt_or_ge i m with hlt | hge
    · rw [List.range_succ, getN_append_left _ _ _ _ (by simpa using hlt)]
      exact ih hlt
    · have : i = m := by omega
      subst this
      rw [List.range_succ, getN_append_right _ _ _ _ (by simp)]
      simp

/-! ### EdgeStore

Modelled from the spec: the file `planar_graph_edges.py` (class
`PlanarGraphEdges`) is not part of the provided sources; per spec §4.1 the
store keeps, per edge, its two endpoints and, per (edge, endpoint) pair, the
next and previous edge in that endpoint's cyclic incidence order.
`set_next_edge`/`set_previous_edge` keep the symmetric guarantee of §4.1:
setting `next` for `(edge, vertex)` also establishes the reverse `previous`
link of the target edge at `vertex`, and symmetrically.  A freshly appended
edge is wired as its own next/previous at both endpoints (§4.1). -/

structure Edge where
  vertex1 : ℕ
  vertex2 : ℕ
  next1 : ℕ
  next2 : ℕ
  prev1 : ℕ
  prev2 : ℕ
deriving Repr, DecidableEq

def edgeDefault : Edge := ⟨0, 0, 0, 0, 0, 0⟩

def Edge.getNext (e : Edge) (v : ℕ) : ℕ := if v = e.vertex1 then e.next1 else e.next2

def Edge.getPrev (e : Edge) (v : ℕ) : ℕ := if v = e.vertex1 then e.prev1 else e.prev2

def Edge.setNext (e : Edge) (v n : ℕ) : Edge :=
  if v = e.vertex1 then { e with next1 := n } else { e with next2 := n }

def Edge.setPrev (e : Edge) (v p : ℕ) : Edge :=
  if v = e.vertex1 then { e with prev1 := p } else { e with prev2 := p }

def Edge.opposite (e : Edge) (v : ℕ) : ℕ := if v = e.vertex1 then e.vertex2 else e.vertex1

/-- An edge store is the list of its edge records; the edge index is the
position in the list and `size` is the length. -/
abbrev EdgeStore := List Edge

/-- Modelled from the spec: `PlanarGraphEdges.append` (§4.1) adds a new edge
at the next free slot, wired as its own next/previous at both endpoints. -/
def appendEdge (es : EdgeStore) (v1 v2 : ℕ) : EdgeStore :=
  es ++ [⟨v1, v2, es.length, es.length, es.length, es.length⟩]

def modifyEdge (es : EdgeStore) (i : ℕ) (f : Edge → Edge) : EdgeStore :=
  setN es i (f (getN es i edgeDefault))

/-- Modelled from the spec: `PlanarGraphEdges.set_next_edge` (§4.1), with the
symmetric reverse-`previous` link. -/
def setNextEdge (es : EdgeStore) (e v n : ℕ) : EdgeStore :=
  modifyEdge (modifyEdge es e (fun ed => ed.setNext v n)) n (fun ed => ed.setPrev v e)

/-- Modelled from the spec: `PlanarGraphEdges.set_previous_edge` (§4.1), with
the symmetric reverse-`next` link. -/
def setPrevEdge (es : EdgeStore) (e v p : ℕ) : EdgeStore :=
  modifyEdge (modifyEdge es e (fun ed => ed.setPrev v p)) p (fun ed => ed.setNext v e)

/-- Modelled from the spec: `PlanarGraphEdges.get_next_edge_index` (§4.1). -/
def getNextAt (es : EdgeStore) (e v : ℕ) : ℕ := (getN es e edgeDefault).getNext v

/-- Modelled from the spec: `PlanarGraphEdges.get_opposite_vertex` (§4.1). -/
def oppositeAt (es : EdgeStore) (e v : ℕ) : ℕ := (getN es e edgeDefault).opposite v

def endpoint1 (es : EdgeStore) (e : ℕ) : ℕ := (getN es e edgeDefault).vertex1

def endpoint2 (es : EdgeStore) (e : ℕ) : ℕ := (getN es e edgeDefault).vertex2

/-- `e` is an edge index of the store with `v` among its endpoints. -/
def incidentIdx (es : EdgeStore) (e v : ℕ) : Prop :=
  e < es.length ∧ (endpoint1 es e = v ∨ endpoint2 es e = v)

instance (es : EdgeStore) (e v : ℕ) : Decidable (incidentIdx es e v) := by
  unfold incidentIdx; infer_instance

/-! Frame lemmas for the store mutators: endpoints are never changed, and a
link write touches exactly the named (edge, side-of-vertex) slot. -/

@[simp] theorem Edge.setNext_vertex1 (e : Edge) (v n : ℕ) : (e.setNext v n).vertex1 = e.vertex1 := by
  unfold Edge.setNext; split <;> rfl

@[simp] theorem Edge.setNext_vertex2 (e : Edge) (v n : ℕ) : (e.setNext v n).vertex2 = e.vertex2 := by
  unfold Edge.setNext; split <;> rfl

@[simp] theorem Edge.setPrev_vertex1 (e : Edge) (v p : ℕ) : (e.setPrev v p).vertex1 = e.vertex1 := by
  unfold Edge.setPrev; split <;> rfl

@[simp] theorem Edge.setPrev_vertex2 (e : Edge) (v p : ℕ) : (e.setPrev v p).vertex2 = e.vertex2 := by
  unfold Edge.setPrev; split <;> rfl

@[simp] theorem Edge.setPrev_getNext (e : Edge) (v p u : ℕ) :
    (e.setPrev v p).getNext u = e.getNext u := by
  unfold Edge.setPrev Edge.getNext; split <;> rfl

/-- Reading `next` after `setNext` on the same record: the read changes
exactly when both accesses resolve to the same side. -/
theorem Edge.setNext_getNext (e : Edge) (v n u : ℕ) :
    (e.setNext v n).getNext u =
      if (u = e.vertex1 ↔ v = e.vertex1) then n else e.getNext u := by
  unfold Edge.setNext Edge.getNext
  by_cases hv : v = e.vertex1 <;> by_cases hu : u = e.vertex1 <;> simp [hv, hu]

@[simp] theorem length_modifyEdge (es : EdgeStore) (i : ℕ) (f : Edge → Edge) :
    (modifyEdge es i f).length = es.length := by
  unfold modifyEdge; simp

@[simp] theorem length_setNextEdge (es : EdgeStore) (e v n : ℕ) :
    (setNextEdge es e v n).length = es.length := by
  unfold setNextEdge; simp

@[simp] theorem length_setPrevEdge (es : EdgeStore) (e v p : ℕ) :
    (setPrevEdge es e v p).length = es.length := by
  unfold setPrevEdge; simp

@[simp] theorem length_appendEdge (es : EdgeStore) (v1 v2 : ℕ) :
    (appendEdge es v1 v2).length = es.length + 1 := by
  unfold appendEdge; simp

theorem getN_modifyEdge_eq (es : EdgeStore) (i : ℕ) (f : Edge → Edge) (h : i < es.length) :
    getN (modifyEdge es i f) i edgeDefault = f (getN es i edgeDefault) := by
  unfold modifyEdge; exact getN_setN_eq _ _ _ _ h

theorem getN_modifyEdge_ne (es : EdgeStore) (i j : ℕ) (f : Edge → Edge) (h : j ≠ i) :
    getN (modifyEdge es i f) j edgeDefault = getN es j edgeDefault := by
  unfold modifyEdge; exact getN_setN_ne _ _ _ _ _ h

theorem setN_of_le (l : List α) (i : ℕ) (x : α) (h : l.length ≤ i) : setN l i x = l := by
  induction l generalizing i with
  | nil => rfl
  | cons a t ih => cases i with
    | zero => simp at h
    | succ k => simpa using ih k (by simpa using h)

/-- Reading any record after `modifyEdge`: equal index gives the modified
record (or the untouched list when the index is out of range). -/
theorem getN_modifyEdge (es : EdgeStore) (i j : ℕ) (f : Edge → Edge) :
    getN (modifyEdge es i f) j edgeDefault =
      if j = i ∧ i < es.length then f (getN es i edgeDefault) else getN es j edgeDefault := by
  by_cases hj : j = i
  · subst hj
    by_cases hlen : j < es.length
    · simp only [hlen, and_true, if_pos rfl]
      exact getN_modifyEdge_eq _ _ _ hlen
    · simp only [hlen, and_false, if_false]
      unfold modifyEdge
      rw [setN_of_le _ _ _ (by omega)]
  · simp only [hj, false_and, if_false]
    exact getN_modifyEdge_ne _ _ _ _ hj

theorem vertexFields_modifyEdge (es : EdgeStore) (i j : ℕ) (f : Edge → Edge)
    (h1 : ∀ ed, (f ed).vertex1 = ed.vertex1) (h2 : ∀ ed, (f ed).vertex2 = ed.vertex2) :
    (getN (modifyEdge es i f) j edgeDefault).vertex1 = (getN es j edgeDefault).vertex1 ∧
    (getN (modifyEdge es i f) j edgeDefault).vertex2 = (getN es j edgeDefault).vertex2 := by
  rw [getN_modifyEdge]
  split
  · next h => rw [h1, h2, h.1]; exact ⟨rfl, rfl⟩
  · exact ⟨rfl, rfl⟩

theorem endpoints_setNextEdge (es : EdgeStore) (e v n j : ℕ) :
    endpoint1 (setNextEdge es e v n) j = endpoint1 es j ∧
    endpoint2 (setNextEdge es e v n) j = endpoint2 es j := by
  unfold endpoint1 endpoint2 setNextEdge
  have ha := vertexFields_modifyEdge (modifyEdge es e fun ed => ed.setNext v n) n j
      (fun ed => ed.setPrev v e) (by simp) (by simp)
  have hb := vertexFields_modifyEdge es e j (fun ed => ed.setNext v n) (by simp) (by simp)
  exact ⟨ha.1.trans hb.1, ha.2.trans hb.2⟩

theorem endpoints_setPrevEdge (es : EdgeStore) (e v p j : ℕ) :
    endpoint1 (setPrevEdge es e v p) j = endpoint1 es j ∧
    endpoint2 (setPrevEdge es e v p) j = endpoint2 es j := by
  unfold endpoint1 endpoint2 setPrevEdge
  have ha := vertexFields_modifyEdge (modifyEdge es e fun ed => ed.setPrev v p) p j
      (fun ed => ed.setNext v e) (by simp) (by simp)
  have hb := vertexFields_modifyEdge es e j (fun ed => ed.setPrev v p) (by simp) (by simp)
  exact ⟨ha.1.trans hb.1, ha.2.trans hb.2⟩

theorem oppositeAt_setPrevEdge (es : EdgeStore) (e v p q u : ℕ) :
    oppositeAt (setPrevEdge es e v p) q u = oppositeAt es q u := by
  unfold oppositeAt Edge.opposite
  have h1 := endpoints_setPrevEdge es e v p q
  unfold endpoint1 endpoint2 at h1
  rw [h1.1, h1.2]

theorem incidentIdx_setPrevEdge (es : EdgeStore) (e v p q u : ℕ) :
    incidentIdx (setPrevEdge es e v p) q u ↔ incidentIdx es q u := by
  unfold incidentIdx
  rw [(endpoints_setPrevEdge es e v p q).1, (endpoints_setPrevEdge es e v p q).2,
     length_setPrevEdge]

/-- The `next` slots after `set_previous_edge`: exactly the slot of the
predecessor edge `p` on the side of `v` is redirected to `e`. -/
theorem getNext_modifyEdge_setPrev (es : EdgeStore) (i j v p u : ℕ) :
    (getN (modifyEdge es i (fun ed => ed.setPrev v p)) j edgeDefault).getNext u =
      (getN es j edgeDefault).getNext u := by
  rw [getN_modifyEdge]
  split
  · next h => rw [h.1, Edge.setPrev_getNext]
  · rfl

theorem vertex1_modifyEdge_setPrev (es : EdgeStore) (i j v p : ℕ) :
    (getN (modifyEdge es i (fun ed => ed.setPrev v p)) j edgeDefault).vertex1 =
      (getN es j edgeDefault).vertex1 := by
  rw [getN_modifyEdge]
  split
  · next h => rw [h.1, Edge.setPrev_vertex1]
  · rfl

theorem vertex1_modifyEdge_setNext (es : EdgeStore) (i j v n : ℕ) :
    (getN (modifyEdge es i (fun ed => ed.setNext v n)) j edgeDefault).vertex1 =
      (getN es j edgeDefault).vertex1 := by
  rw [getN_modifyEdge]
  split
  · next h => rw [h.1, Edge.setNext_vertex1]
  · rfl

theorem getNextAt_setPrevEdge (es : EdgeStore) (e v p q u : ℕ) (hp : p < es.length) :
    getNextAt (setPrevEdge es e v p) q u =
      if q = p ∧ (u = endpoint1 es p ↔ v = endpoint1 es p) then e else getNextAt es q u := by
  unfold getNextAt setPrevEdge endpoint1
  rw [getN_modifyEdge]
  split
  · next h =>
    rw [Edge.setNext_getNext, vertex1_modifyEdge_setPrev, getNext_modifyEdge_setPrev, h.1]
    by_cases hs : u = (getN es p edgeDefault).vertex1 ↔ v = (getN es p edgeDefault).vertex1
    · rw [if_pos hs, if_pos ⟨rfl, hs⟩]
    · rw [if_neg hs, if_neg (by intro hc; exact hs hc.2)]
  · next h =>
    rw [getNext_modifyEdge_setPrev]
    rw [if_neg]
    intro hc
    exact h ⟨hc.1, by simpa using hp⟩

/-- The `next` slots after `set_next_edge`: exactly the slot of `e` on the
side of `v` is redirected to `n`. -/
theorem getNextAt_setNextEdge (es : EdgeStore) (e v n q u : ℕ) (he : e < es.length) :
    getNextAt (setNextEdge es e v n) q u =
      if q = e ∧ (u = endpoint1 es e ↔ v = endpoint1 es e) then n else getNextAt es q u := by
  unfold getNextAt setNextEdge endpoint1
  rw [getNext_modifyEdge_setPrev, getN_modifyEdge]
  split
  · next h =>
    rw [Edge.setNext_getNext, h.1]
    by_cases hs : u = (getN es e edgeDefault).vertex1 ↔ v = (getN es e edgeDefault).vertex1
    · rw [if_pos hs, if_pos ⟨rfl, hs⟩]
    · rw [if_neg hs, if_neg (by intro hc; exact hs hc.2)]
  · next h =>
    rw [if_neg]
    intro hc
    exact h ⟨hc.1, he⟩

theorem endpoints_appendEdge (es : EdgeStore) (v1 v2 j : ℕ) (h : j < es.length) :
    endpoint1 (appendEdge es v1 v2) j = endpoint1 es j ∧
    endpoint2 (appendEdge es v1 v2) j = endpoint2 es j := by
  unfold endpoint1 endpoint2 appendEdge
  rw [getN_append_left _ _ _ _ h]
  exact ⟨rfl, rfl⟩

theorem getN_appendEdge_last (es : EdgeStore) (v1 v2 : ℕ) :
    getN (appendEdge es v1 v2) es.length edgeDefault =
      ⟨v1, v2, es.length, es.length, es.length, es.length⟩ := by
  unfold appendEdge
  rw [getN_append_right _ _ _ _ (le_refl _)]
  simp

theorem getNextAt_appendEdge (es : EdgeStore) (v1 v2 q u : ℕ) (h : q < es.length) :
    getNextAt (appendEdge es v1 v2) q u = getNextAt es q u := by
  unfold getNextAt appendEdge
  rw [getN_append_left _ _ _ _ h]

/-! ### PlanarGraph

Modelled from the spec: `planar_graph.py` (class `PlanarGraph`) is not part
of the provided sources; per spec §3 a planar graph owns a vertex-cost
array, an example-incident-edge array (`-1` marking isolated vertices) and
an edge store, and `get_incident_edge_indices` enumerates a vertex's
incident edges by following `next` from the example edge until it returns
to it (§3, §4.5).  The enumeration is modelled with explicit fuel
`edges_count`, enough for every well-formed rotation. -/

structure PlanarGraph where
  vertex_costs : List ℚ
  incident_edge_example_indices : List ℤ
  edges : EdgeStore
deriving Repr, DecidableEq

def PlanarGraph.size (g : PlanarGraph) : ℕ := g.vertex_costs.length

def PlanarGraph.edges_count (g : PlanarGraph) : ℕ := g.edges.length

def exampleAt (g : PlanarGraph) (v : ℕ) : ℤ := getN g.incident_edge_example_indices v (-1)

def walkAux (es : EdgeStore) (v start : ℕ) : ℕ → ℕ → List ℕ
  | 0, _ => []
  | fuel + 1, cur =>
    cur :: (if getNextAt es cur v = start then [] else walkAux es v start fuel (getNextAt es cur v))

/-- Modelled from the spec: `PlanarGraph.get_incident_edge_indices` — yield
the example edge, then follow `next` at `v` until the example edge
reappears (empty for example index `-1`). -/
def PlanarGraph.incList (g : PlanarGraph) (v : ℕ) : List ℕ :=
  match exampleAt g v with
  | Int.negSucc _ => []
  | Int.ofNat start => walkAux g.edges v start g.edges.length start

/-- Number of store edges having `v` as an endpoint. -/
def degreeE (es : EdgeStore) (v : ℕ) : ℕ :=
  ((List.range es.length).filter (fun e => decide (incidentIdx es e v))).length

def PlanarGraph.degree (g : PlanarGraph) (v : ℕ) : ℕ := degreeE g.edges v

/-- `getNextAt` successors follow the list `l` cyclically at `v`. -/
def chainNext (es : EdgeStore) (v : ℕ) (l : List ℕ) : Prop :=
  ∀ i < l.length, getNextAt es (getN l i 0) v = getN l ((i + 1) % l.length) 0

instance (es : EdgeStore) (v : ℕ) (l : List ℕ) : Decidable (chainNext es v l) := by
  unfold chainNext; infer_instance

/-- `l` is a duplicate-free cyclic list of exactly the edges incident to `v`. -/
def IsRotList (es : EdgeStore) (v : ℕ) (l : List ℕ) : Prop :=
  l.Nodup ∧ (∀ e ∈ l, incidentIdx es e v) ∧
    (∀ e < es.length, incidentIdx es e v → e ∈ l) ∧ chainNext es v l

instance (es : EdgeStore) (v : ℕ) (l : List ℕ) : Decidable (IsRotList es v l) := by
  unfold IsRotList; infer_instance

/-- The incidence enumeration of `v` is a valid rotation: duplicate-free,
covering exactly the incident edges, cyclically chained, and empty exactly
when the example index is `-1`. -/
def RotOk (g : PlanarGraph) (v : ℕ) : Prop :=
  IsRotList g.edges v (g.incList v) ∧ (exampleAt g v = -1 ↔ g.incList v = [])

instance (g : PlanarGraph) (v : ℕ) : Decidable (RotOk g v) := by
  unfold RotOk; infer_instance

/-- Well-formed rotation-system graph (spec §3): arrays of matching length,
simple in-range edges, and one valid rotation cycle per vertex. -/
def WF (g : PlanarGraph) : Prop :=
  g.incident_edge_example_indices.length = g.size ∧
  (∀ e < g.edges.length,
      endpoint1 g.edges e < g.size ∧ endpoint2 g.edges e < g.size ∧
      endpoint1 g.edges e ≠ endpoint2 g.edges e) ∧
  (∀ v < g.size, RotOk g v)

instance (g : PlanarGraph) : Decidable (WF g) := by
  unfold WF; infer_instance

theorem getN_eq_getElem (l : List α) (i : ℕ) (d : α) (h : i < l.length) :
    getN l i d = l[i] := by
  induction l generalizing i with
  | nil => simp at h
  | cons a t ih => cases i with
    | zero => rfl
    | succ j => simpa using ih j (by simpa using h)

theorem getN_ne_of_nodup (l : List α) (hnd : l.Nodup) (i j : ℕ) (d : α)
    (hi : i < l.length) (hj : j < l.length) (hij : i ≠ j) : getN l i d ≠ getN l j d := by
  rw [getN_eq_getElem _ _ _ hi, getN_eq_getElem _ _ _ hj]
  intro hc
  exact hij (List.Nodup.getElem_inj_iff hnd |>.mp hc)

theorem length_le_of_nodup_lt (l : List ℕ) (n : ℕ) (hnd : l.Nodup) (hmem : ∀ x ∈ l, x < n) :
    l.length ≤ n := by
  have hsub : l.toFinset ⊆ Finset.range n := by
    intro x hx
    simp only [Finset.mem_range]
    exact hmem x (List.mem_toFinset.mp hx)
  have := Finset.card_le_card hsub
  rwa [List.toFinset_card_of_nodup hnd, Finset.card_range] at this

/-- The fueled incidence walk along a cyclically chained duplicate-free list
reproduces the suffix of the list from any position. -/
theorem walkAux_drop (es : EdgeStore) (v : ℕ) (l : List ℕ) (hnd : l.Nodup)
    (hch : chainNext es v l) :
    ∀ fuel i, i < l.length → l.length - i ≤ fuel →
      walkAux es v (getN l 0 0) fuel (getN l i 0) = l.drop i := by
  intro fuel
  induction fuel with
  | zero => intro i hi hf; omega
  | succ f ih =>
    intro i hi hf
    rw [walkAux]
    rw [hch i hi]
    by_cases hlast : i + 1 = l.length
    · have hmod : (i + 1) % l.length = 0 := by rw [hlast]; exact Nat.mod_self _
      rw [hmod, if_pos rfl]
      have : l.drop i = [l[i]] := by
        have h1 : l.drop i = l[i] :: l.drop (i + 1) := List.drop_eq_getElem_cons hi
        rw [h1, hlast, List.drop_length]
      rw [this, getN_eq_getElem _ _ _ hi]
    · have hi1 : i + 1 < l.length := by omega
      have hmod : (i + 1) % l.length = i + 1 := Nat.mod_eq_of_lt hi1
      rw [hmod, if_neg (getN_ne_of_nodup l hnd (i+1) 0 0 hi1 (by omega) (by omega))]
      rw [ih (i+1) hi1 (by omega)]
      rw [getN_eq_getElem _ _ _ hi]
      exact (List.drop_eq_getElem_cons hi).symm

/-- If the links of a nonempty duplicate-free list are cyclically wired at
`v` and the example index points at its head, the incidence enumeration is
exactly that list. -/
theorem incList_eq_of_wired (g : PlanarGraph) (v : ℕ) (l : List ℕ) (hne : l ≠ [])
    (hnd : l.Nodup) (hch : chainNext g.edges v l) (hmem : ∀ x ∈ l, x < g.edges.length)
    (hhead : exampleAt g v = Int.ofNat (getN l 0 0)) :
    g.incList v = l := by
  unfold PlanarGraph.incList
  rw [hhead]
  have hlen : 0 < l.length := List.length_pos.mpr hne
  have hfuel : l.length ≤ g.edges.length := length_le_of_nodup_lt l _ hnd hmem
  have := walkAux_drop g.edges v l hnd hch g.edges.length 0 hlen (by omega)
  simpa using this

theorem incList_walk (g : PlanarGraph) (v : ℕ) (s : ℕ)
    (hex : exampleAt g v = Int.ofNat s) :
    g.incList v = walkAux g.edges v s g.edges.length s := by
  unfold PlanarGraph.incList
  rw [hex]

theorem incList_head (g : PlanarGraph) (v : ℕ) (s : ℕ)
    (hex : exampleAt g v = Int.ofNat s) (hne : g.incList v ≠ []) :
    getN (g.incList v) 0 0 = s := by
  rw [incList_walk g v s hex] at hne ⊢
  cases hfuel : g.edges.length with
  | zero => rw [hfuel] at hne; simp [walkAux] at hne
  | succ f => rw [walkAux]; rfl

theorem length_eq_degree (es : EdgeStore) (v : ℕ) (l : List ℕ) (h : IsRotList es v l) :
    l.length = degreeE es v := by
  obtain ⟨hnd, hinc, hcov, _⟩ := h
  unfold degreeE
  have hperm : l.Perm ((List.range es.length).filter (fun e => decide (incidentIdx es e v))) := by
    have hnd2 : ((List.range es.length).filter
        (fun e => decide (incidentIdx es e v))).Nodup :=
      List.Nodup.filter _ (List.nodup_range _)
    rw [List.perm_ext_iff_of_nodup hnd hnd2]
    intro a
    simp only [List.mem_filter, List.mem_range, decide_eq_true_eq]
    constructor
    · intro ha
      exact ⟨(hinc a ha).1, hinc a ha⟩
    · intro ⟨ha, hb⟩
      exact hcov a ha hb
  exact hperm.length_eq

def stepTo (es : EdgeStore) (v e : ℕ) : ℕ := getNextAt es e v

theorem iterate_stepTo (es : EdgeStore) (v : ℕ) (l : List ℕ) (hne : l ≠ [])
    (hch : chainNext es v l) :
    ∀ k, (stepTo es v)^[k] (getN l 0 0) = getN l (k % l.length) 0 := by
  have hlen : 0 < l.length := List.length_pos.mpr hne
  intro k
  induction k with
  | zero => simp [Nat.mod_eq_of_lt hlen]
  | succ n ih =>
    rw [Function.iterate_succ_apply', ih]
    unfold stepTo
    rw [hch (n % l.length) (Nat.mod_lt _ hlen)]
    congr 1
    conv_rhs => rw [Nat.add_mod]
    rcases Nat.lt_or_ge 1 l.length with h1 | h1
    · rw [Nat.mod_eq_of_lt h1]
    · have : l.length = 1 := by omega
      simp [this]

/-- C1's property as a predicate: from every vertex's example edge, the
`next`-walk returns to the start after exactly `degree` steps, visiting only
edges incident to the vertex, with no earlier return. -/
def rotationInvariant (g : PlanarGraph) : Prop :=
  ∀ v < g.size, 0 ≤ exampleAt g v →
    ((stepTo g.edges v)^[g.degree v] (exampleAt g v).toNat = (exampleAt g v).toNat ∧
     (∀ k < g.degree v, 0 < k →
       (stepTo g.edges v)^[k] (exampleAt g v).toNat ≠ (exampleAt g v).toNat) ∧
     (∀ k < g.degree v,
       incidentIdx g.edges ((stepTo g.edges v)^[k] (exampleAt g v).toNat) v))

instance (g : PlanarGraph) : Decidable (rotationInvariant g) := by
  unfold rotationInvariant; infer_instance

/-- Every well-formed graph satisfies the rotation-walk invariant. -/
theorem rotationInvariant_of_WF (g : PlanarGraph) (hwf : WF g) : rotationInvariant g := by
  intro v hv hpos
  set s : ℕ := (exampleAt g v).toNat with hs_def
  have hs : exampleAt g v = Int.ofNat s := by
    rw [hs_def]
    exact (Int.toNat_of_nonneg hpos).symm
  obtain ⟨hrot, hiff⟩ := hwf.2.2 v hv
  have hne : g.incList v ≠ [] := by
    intro hc
    have := hiff.mpr hc
    omega
  have hhead := incList_head g v s hs hne
  have hdeg : (g.incList v).length = g.degree v := length_eq_degree _ _ _ hrot
  have hiter := iterate_stepTo g.edges v (g.incList v) hne hrot.2.2.2
  have hlen : 0 < (g.incList v).length := List.length_pos.mpr hne
  refine ⟨?_, ?_, ?_⟩
  · rw [← hhead, hiter, ← hdeg, Nat.mod_self, hhead]
  · intro k hk hk0
    rw [← hhead, hiter]
    rw [← hdeg] at hk
    rw [Nat.mod_eq_of_lt hk]
    exact getN_ne_of_nodup _ hrot.1 k 0 0 hk hlen (by omega)
  · intro k hk
    rw [← hhead, hiter]
    refine hrot.2.1 _ ?_
    exact getN_mem _ _ _ (Nat.mod_lt _ hlen)

/-! ### Mask compaction maps

Embedding of the two index-compaction loops of `construct_subgraph`
(`planar_graph_constructor.py` lines 106-125): scan a boolean mask and
assign increasing dense indices to the true positions, `-1` elsewhere. -/

def buildMapAux (bs : List Bool) (c : ℕ) : List ℤ :=
  match bs with
  | [] => []
  | b :: rest => (if b then (c : ℤ) else -1) :: buildMapAux rest (if b then c + 1 else c)

def buildMapB (bs : List Bool) : List ℤ := buildMapAux bs 0

@[simp] theorem length_buildMapAux (bs : List Bool) (c : ℕ) :
    (buildMapAux bs c).length = bs.length := by
  induction bs generalizing c with
  | nil => rfl
  | cons b rest ih => simp [buildMapAux, ih]

@[simp] theorem length_buildMapB (bs : List Bool) : (buildMapB bs).length = bs.length :=
  length_buildMapAux bs 0

theorem getN_buildMapAux (bs : List Bool) (c i : ℕ) (hi : i < bs.length) :
    getN (buildMapAux bs c) i (-1) =
      if getN bs i false then Int.ofNat (c + (bs.take i).count true) else -1 := by
  induction bs generalizing c i with
  | nil => simp at hi
  | cons b rest ih =>
    cases i with
    | zero => cases b <;> simp [buildMapAux]
    | succ j =>
      rw [buildMapAux, getN_cons_succ, ih _ j (by simpa using hi), getN_cons_succ]
      by_cases hr : getN rest j false
      · rw [if_pos hr, if_pos hr]
        congr 1
        cases b <;> simp [List.count_cons] <;> omega
      · rw [if_neg hr, if_neg hr]

theorem getN_buildMapB (bs : List Bool) (i : ℕ) (hi : i < bs.length) :
    getN (buildMapB bs) i (-1) =
      if getN bs i false then Int.ofNat ((bs.take i).count true) else -1 := by
  rw [buildMapB, getN_buildMapAux bs 0 i hi]
  simp

theorem count_take_lt (bs : List Bool) (i : ℕ) (hi : i < bs.length)
    (hb : getN bs i false = true) : (bs.take i).count true < bs.count true := by
  induction bs generalizing i with
  | nil => simp at hi
  | cons b rest ih =>
    cases i with
    | zero =>
      simp only [getN_cons_zero] at hb
      subst hb
      simp only [List.take_zero, List.count_nil, List.count_cons_self]
      omega
    | succ j =>
      have := ih j (by simpa using hi) (by simpa using hb)
      cases b <;> simp [List.count_cons] <;> omega

theorem count_take_mono (bs : List Bool) (i j : ℕ) (hij : i ≤ j) :
    (bs.take i).count true ≤ (bs.take j).count true := by
  induction bs generalizing i j with
  | nil => simp
  | cons b rest ih =>
    cases i with
    | zero => simp
    | succ i0 =>
      cases j with
      | zero => omega
      | succ j0 =>
        have := ih i0 j0 (by omega)
        cases b <;> simp [List.count_cons] <;> omega

theorem count_take_strict (bs : List Bool) (i j : ℕ) (hij : i < j) (hj : j ≤ bs.length)
    (hb : getN bs i false = true) : (bs.take i).count true < (bs.take j).count true := by
  induction bs generalizing i j with
  | nil => simp at hj; omega
  | cons b rest ih =>
    cases i with
    | zero =>
      simp only [getN_cons_zero] at hb
      subst hb
      cases j with
      | zero => omega
      | succ j0 =>
        simp only [List.take_zero, List.count_nil, List.take_succ_cons, List.count_cons_self]
        omega
    | succ i0 =>
      cases j with
      | zero => omega
      | succ j0 =>
        have := ih i0 j0 (by omega) (by simpa using hj) (by simpa using hb)
        cases b <;> simp [List.count_cons] <;> omega

/-- The non-`-1` entries of an integer list, in order. -/
def keptVals (m : List ℤ) : List ℤ := m.filter (fun x => decide (¬ x = -1))

/-- The non-`-1` values of a compaction map, in order, are exactly
`c, c+1, …, c + trues - 1`. -/
theorem keptVals_buildMapAux (bs : List Bool) (c : ℕ) :
    keptVals (buildMapAux bs c) = (List.range' c (bs.count true)).map Int.ofNat := by
  induction bs generalizing c with
  | nil => rfl
  | cons b rest ih =>
    cases b with
    | false =>
      show keptVals ((-1) :: buildMapAux rest c) = _
      unfold keptVals
      rw [List.filter_cons_of_neg (by simp)]
      simp only [List.count_cons, if_neg (by simp : ¬ (false = true)), Nat.add_zero]
      exact ih c
    | true =>
      show keptVals (Int.ofNat c :: buildMapAux rest (c + 1)) = _
      unfold keptVals
      rw [List.filter_cons_of_pos (by simp)]
      simp only [List.count_cons_self]
      rw [List.range'_succ]
      simp only [List.map_cons]
      rw [← keptVals]
      rw [ih (c + 1)]

theorem keptVals_buildMapB (bs : List Bool) :
    keptVals (buildMapB bs) = (List.range (bs.count true)).map Int.ofNat := by
  rw [buildMapB, keptVals_buildMapAux, List.range_eq_range']

/-! ### construct_subgraph

Embedding of `construct_subgraph` (`planar_graph_constructor.py`
lines 80-166). -/

/-- The edge-survival test of the second loop (lines 117-125): both mapped
endpoints survive the vertex mask and the edge mask keeps the edge. -/
def keepEdge (g : PlanarGraph) (vmask emask : List Bool) (e : ℕ) : Bool :=
  getN vmask (endpoint1 g.edges e) false && getN vmask (endpoint2 g.edges e) false &&
    getN emask e false

def edgeKeepList (g : PlanarGraph) (vmask emask : List Bool) : List Bool :=
  (List.range g.edges.length).map (keepEdge g vmask emask)

/-- `numpy` boolean-mask selection `xs[mask]`. -/
def maskFilter (xs : List α) (mask : List Bool) : List α :=
  (xs.zip mask).filterMap (fun p => if p.2 then some p.1 else none)

/-- The re-emission loop (lines 129-136): append each surviving edge with
remapped endpoints. -/
def subEdgesAux (g : PlanarGraph) (vmask emask : List Bool) (vmap : List ℤ) :
    List ℕ → EdgeStore → EdgeStore
  | [], es => es
  | e :: rest, es =>
      subEdgesAux g vmask emask vmap rest
        (if keepEdge g vmask emask e then
          appendEdge es (getN vmap (endpoint1 g.edges e) (-1)).toNat
            (getN vmap (endpoint2 g.edges e) (-1)).toNat
        else es)

/-- The inner rotation-filter loop (lines 148-160): scan the original
incidence cycle of a vertex, skip dead edges, thread `previous` links
through the surviving ones, returning (first, previous, store). -/
def wireLoop (nv : ℕ) (emap : List ℤ) : List ℕ → ℤ → ℤ → EdgeStore → ℤ × ℤ × EdgeStore
  | [], first, prev, es => (first, prev, es)
  | e :: rest, first, prev, es =>
      let ne := getN emap e (-1)
      if ne = -1 then wireLoop nv emap rest first prev es
      else if prev = -1 then wireLoop nv emap rest ne ne es
      else wireLoop nv emap rest first ne (setPrevEdge es ne.toNat nv prev.toNat)

/-- One vertex of the relink loop (lines 140-163), including the final
cycle-closing `set_previous_edge` and the example-edge write. -/
def wireVertex (g : PlanarGraph) (emap : List ℤ) (v nv : ℕ) (es : EdgeStore) (ex : List ℤ) :
    EdgeStore × List ℤ :=
  let r := wireLoop nv emap (g.incList v) (-1) (-1) es
  if r.1 = -1 then (r.2.2, ex)
  else (setPrevEdge r.2.2 r.1.toNat nv r.2.1.toNat, setN ex nv r.1)

def wireAllAux (g : PlanarGraph) (vmask : List Bool) (vmap emap : List ℤ) :
    List ℕ → EdgeStore × List ℤ → EdgeStore × List ℤ
  | [], st => st
  | v :: rest, st =>
      wireAllAux g vmask vmap emap rest
        (if getN vmask v false then
          wireVertex g emap v (getN vmap v (-1)).toNat st.1 st.2
        else st)

/-- `construct_subgraph(graph, vertex_mask, edge_mask)` →
`(vertex_map, edge_map, subgraph)`. -/
def construct_subgraph (g : PlanarGraph) (vmask emask : List Bool) :
    List ℤ × List ℤ × PlanarGraph :=
  let vmap := buildMapB vmask
  let emap := buildMapB (edgeKeepList g vmask emask)
  let costs := maskFilter g.vertex_costs vmask
  let es0 := subEdgesAux g vmask emask vmap (List.range g.edges.length) []
  let ex0 := List.replicate costs.length (-1 : ℤ)
  let st := wireAllAux g vmask vmap emap (List.range vmask.length) (es0, ex0)
  (vmap, emap, ⟨costs, st.2, st.1⟩)

/-! ### construct_subgraph: map characterizations -/

theorem buildMapB_inj (bs : List Bool) (i j : ℕ) (hi : i < bs.length) (hj : j < bs.length)
    (hne : getN (buildMapB bs) i (-1) ≠ -1)
    (heq : getN (buildMapB bs) i (-1) = getN (buildMapB bs) j (-1)) : i = j := by
  rw [getN_buildMapB _ _ hi] at hne heq
  rw [getN_buildMapB _ _ hj] at heq
  by_cases hbi : getN bs i false
  · rw [if_pos hbi] at heq
    by_cases hbj : getN bs j false
    · rw [if_pos hbj] at heq
      have heqn : (bs.take i).count true = (bs.take j).count true := Int.ofNat.inj heq
      by_contra hij
      rcases Nat.lt_or_ge i j with h | h
      · have := count_take_strict bs i j h (by omega) hbi
        omega
      · have := count_take_strict bs j i (by omega) (by omega) hbj
        omega
    · rw [if_neg hbj] at heq
      omega
  · rw [if_neg hbi] at hne
    exact absurd rfl hne

theorem getN_edgeKeepList (g : PlanarGraph) (vmask emask : List Bool) (e : ℕ)
    (he : e < g.edges.length) :
    getN (edgeKeepList g vmask emask) e false = keepEdge g vmask emask e := by
  unfold edgeKeepList
  rw [getN_eq_getElem _ _ _ (by simpa using he)]
  simp

@[simp] theorem length_edgeKeepList (g : PlanarGraph) (vmask emask : List Bool) :
    (edgeKeepList g vmask emask).length = g.edges.length := by
  unfold edgeKeepList; simp

/-- Count of surviving edges among the first `e` edge indices. -/
def cntKE (g : PlanarGraph) (vmask emask : List Bool) (e : ℕ) : ℕ :=
  ((edgeKeepList g vmask emask).take e).count true

theorem getN_edgeMap (g : PlanarGraph) (vmask emask : List Bool) (e : ℕ)
    (he : e < g.edges.length) :
    getN (buildMapB (edgeKeepList g vmask emask)) e (-1) =
      if keepEdge g vmask emask e then Int.ofNat (cntKE g vmask emask e) else -1 := by
  rw [getN_buildMapB _ _ (by simpa using he), getN_edgeKeepList _ _ _ _ he]
  rfl

theorem count_true_map_eq (f : α → Bool) (l : List α) :
    (l.map f).count true = (l.filter f).length := by
  induction l with
  | nil => rfl
  | cons a t ih =>
    rw [List.map_cons, List.count_cons, List.filter_cons]
    by_cases h : f a
    · rw [h, if_pos rfl]
      simp [ih]
    · rw [if_neg (by simpa using h)]
      have : f a = false := by simpa using h
      simp [this, ih]

/-- Surviving original edge indices in increasing order. -/
def kedges (g : PlanarGraph) (vmask emask : List Bool) : List ℕ :=
  (List.range g.edges.length).filter (keepEdge g vmask emask)

theorem cntKE_eq_filter_take (g : PlanarGraph) (vmask emask : List Bool) (e : ℕ)
    (he : e ≤ g.edges.length) :
    cntKE g vmask emask e =
      (((List.range g.edges.length).take e).filter (keepEdge g vmask emask)).length := by
  unfold cntKE edgeKeepList
  rw [← List.map_take, count_true_map_eq]

theorem getN_filter_take (l : List α) (p : α → Bool) (i : ℕ) (d : α) (hi : i < l.length)
    (hp : p (getN l i d) = true) :
    getN (l.filter p) ((l.take i).filter p).length d = getN l i d := by
  induction l generalizing i with
  | nil => simp at hi
  | cons a t ih =>
    cases i with
    | zero =>
      simp only [getN_cons_zero] at hp ⊢
      rw [List.filter_cons_of_pos hp]
      simp
    | succ j =>
      simp only [getN_cons_succ] at hp ⊢
      rw [List.take_succ_cons, List.filter_cons]
      by_cases ha : p a
      · rw [if_pos ha, List.filter_cons_of_pos ha, List.length_cons, getN_cons_succ]
        exact ih j (by simpa using hi) hp
      · rw [if_neg ha, List.filter_cons_of_neg (by simpa using ha)]
        exact ih j (by simpa using hi) hp

theorem kedges_length (g : PlanarGraph) (vmask emask : List Bool) :
    (kedges g vmask emask).length = (edgeKeepList g vmask emask).count true := by
  unfold kedges edgeKeepList
  rw [count_true_map_eq]

theorem kedges_mem (g : PlanarGraph) (vmask emask : List Bool) (e : ℕ) :
    e ∈ kedges g vmask emask ↔ e < g.edges.length ∧ keepEdge g vmask emask e = true := by
  unfold kedges
  simp [List.mem_filter]

theorem kedges_nodup (g : PlanarGraph) (vmask emask : List Bool) :
    (kedges g vmask emask).Nodup :=
  List.Nodup.filter _ (List.nodup_range _)

/-- The surviving edge `e` sits at position `cntKE e` of `kedges`. -/
theorem getN_kedges_cntKE (g : PlanarGraph) (vmask emask : List Bool) (e : ℕ)
    (he : e < g.edges.length) (hk : keepEdge g vmask emask e = true) :
    getN (kedges g vmask emask) (cntKE g vmask emask e) 0 = e := by
  rw [cntKE_eq_filter_take _ _ _ _ (by omega)]
  unfold kedges
  have := getN_filter_take (List.range g.edges.length) (keepEdge g vmask emask) e 0
    (by simpa using he) (by rwa [getN_range _ _ _ he])
  rwa [getN_range _ _ _ he] at this

theorem cntKE_lt (g : PlanarGraph) (vmask emask : List Bool) (e : ℕ)
    (he : e < g.edges.length) (hk : keepEdge g vmask emask e = true) :
    cntKE g vmask emask e < (kedges g vmask emask).length := by
  rw [kedges_length]
  exact count_take_lt _ _ (by simpa using he)
    (by rw [getN_edgeKeepList _ _ _ _ he]; exact hk)

/-- Conversely, the `k`-th surviving edge has survivor count `k`. -/
theorem cntKE_getN_kedges (g : PlanarGraph) (vmask emask : List Bool) (k : ℕ)
    (hk : k < (kedges g vmask emask).length) :
    cntKE g vmask emask (getN (kedges g vmask emask) k 0) = k := by
  set e := getN (kedges g vmask emask) k 0 with he_def
  have hmem : e ∈ kedges g vmask emask := getN_mem _ _ _ hk
  have he : e < g.edges.length := ((kedges_mem g vmask emask e).mp hmem).1
  have hkeep : keepEdge g vmask emask e = true := ((kedges_mem g vmask emask e).mp hmem).2
  have h1 := getN_kedges_cntKE g vmask emask e he hkeep
  have h2 := cntKE_lt g vmask emask e he hkeep
  by_contra hne
  exact getN_ne_of_nodup _ (kedges_nodup g vmask emask) _ _ 0 h2 hk hne (h1.trans he_def)

/-! ### construct_subgraph: the re-emitted edge array -/

theorem subEdgesAux_length (g : PlanarGraph) (vmask emask : List Bool) (vmap : List ℤ)
    (l : List ℕ) (es : EdgeStore) :
    (subEdgesAux g vmask emask vmap l es).length =
      es.length + (l.filter (keepEdge g vmask emask)).length := by
  induction l generalizing es with
  | nil => simp [subEdgesAux]
  | cons e rest ih =>
    rw [subEdgesAux, List.filter_cons]
    by_cases hk : keepEdge g vmask emask e
    · rw [if_pos hk, if_pos (by simpa using hk), ih]
      simp
      omega
    · rw [if_neg hk, if_neg (by simpa using hk), ih]

theorem subEdgesAux_front (g : PlanarGraph) (vmask emask : List Bool) (vmap : List ℤ)
    (l : List ℕ) (es : EdgeStore) (j : ℕ) (hj : j < es.length) :
    getN (subEdgesAux g vmask emask vmap l es) j edgeDefault = getN es j edgeDefault := by
  induction l generalizing es with
  | nil => rfl
  | cons e rest ih =>
    rw [subEdgesAux]
    by_cases hk : keepEdge g vmask emask e
    · rw [if_pos hk, ih _ (by simp; omega)]
      unfold appendEdge
      exact getN_append_left _ _ _ _ hj
    · rw [if_neg hk, ih _ hj]

/-- The `k`-th re-emitted edge record carries the remapped endpoints of the
`k`-th surviving edge of `l`. -/
theorem subEdgesAux_vertexFields (g : PlanarGraph) (vmask emask : List Bool) (vmap : List ℤ)
    (l : List ℕ) (es : EdgeStore) (k : ℕ)
    (hk : k < (l.filter (keepEdge g vmask emask)).length) :
    endpoint1 (subEdgesAux g vmask emask vmap l es) (es.length + k) =
      (getN vmap (endpoint1 g.edges (getN (l.filter (keepEdge g vmask emask)) k 0)) (-1)).toNat ∧
    endpoint2 (subEdgesAux g vmask emask vmap l es) (es.length + k) =
      (getN vmap (endpoint2 g.edges (getN (l.filter (keepEdge g vmask emask)) k 0)) (-1)).toNat := by
  induction l generalizing es k with
  | nil => simp at hk
  | cons e rest ih =>
    rw [subEdgesAux]
    by_cases hke : keepEdge g vmask emask e
    · rw [if_pos hke]
      rw [List.filter_cons_of_pos (by simpa using hke)] at hk ⊢
      cases k with
      | zero =>
        unfold endpoint1 endpoint2
        rw [Nat.add_zero]
        rw [subEdgesAux_front _ _ _ _ _ _ _ (by simp)]
        rw [getN_appendEdge_last]
        exact ⟨rfl, rfl⟩
      | succ k0 =>
        have hk0 : k0 < (rest.filter (keepEdge g vmask emask)).length := by
          simpa using hk
        have := ih (appendEdge es
            (getN vmap (endpoint1 g.edges e) (-1)).toNat
            (getN vmap (endpoint2 g.edges e) (-1)).toNat) k0 hk0
        rw [length_appendEdge] at this
        rw [show es.length + (k0 + 1) = es.length + 1 + k0 by omega]
        simpa using this
    · rw [if_neg hke]
      rw [List.filter_cons_of_neg (by simpa using hke)] at hk ⊢
      exact ih es k hk

/-! ### construct_subgraph: the rotation-relink loop -/

/-- The surviving new edge indices met while scanning an incidence list
(the non-`-1` values of `emap` along it, in order). -/
def survivors (emap : List ℤ) (inc : List ℕ) : List ℤ :=
  inc.filterMap (fun e =>
    if getN emap e (-1) = -1 then none else some (getN emap e (-1)))

/-- Thread `set_previous_edge` through a list of successor edges, starting
from predecessor `p`. -/
def chainPrevAux (nv : ℕ) : ℕ → List ℕ → EdgeStore → EdgeStore
  | _, [], es => es
  | p, x :: rest, es => chainPrevAux nv x rest (setPrevEdge es x nv p)

/-- The complete relink of one vertex's cycle: thread the chain, then close
it from the last edge back to the first. -/
def wireCycle (nv : ℕ) (S : List ℕ) (es : EdgeStore) : EdgeStore :=
  match S with
  | [] => es
  | s0 :: rest => setPrevEdge (chainPrevAux nv s0 rest es) s0 nv (rest.getLastD s0)

theorem survivors_ne_neg1 (emap : List ℤ) (inc : List ℕ) (x : ℤ)
    (hx : x ∈ survivors emap inc) : x ≠ -1 := by
  unfold survivors at hx
  obtain ⟨e, _, he⟩ := List.mem_filterMap.mp hx
  by_cases h : getN emap e (-1) = -1
  · rw [if_pos h] at he; cases he
  · rw [if_neg h] at he
    cases he
    exact h

theorem wireLoop_run (nv : ℕ) (emap : List ℤ) (inc : List ℕ) (f p : ℤ) (es : EdgeStore)
    (hp : p ≠ -1) :
    wireLoop nv emap inc f p es =
      (f, (survivors emap inc).getLastD p,
        chainPrevAux nv p.toNat ((survivors emap inc).map Int.toNat) es) := by
  induction inc generalizing p es with
  | nil => rfl
  | cons e rest ih =>
    rw [wireLoop]
    by_cases hne : getN emap e (-1) = -1
    · rw [if_pos hne, ih p es hp]
      have : survivors emap (e :: rest) = survivors emap rest := by
        unfold survivors
        rw [List.filterMap_cons, if_pos hne]
      rw [this]
    · rw [if_neg hne, if_neg hp]
      rw [ih _ _ hne]
      have : survivors emap (e :: rest) = getN emap e (-1) :: survivors emap rest := by
        unfold survivors
        rw [List.filterMap_cons, if_neg hne]
      rw [this, List.getLastD_cons, List.map_cons]
      rfl

theorem wireLoop_start (nv : ℕ) (emap : List ℤ) (inc : List ℕ) (es : EdgeStore) :
    wireLoop nv emap inc (-1) (-1) es =
      match survivors emap inc with
      | [] => (-1, -1, es)
      | s0 :: rest =>
          (s0, rest.getLastD s0, chainPrevAux nv s0.toNat (rest.map Int.toNat) es) := by
  induction inc generalizing es with
  | nil => rfl
  | cons e rest ih =>
    rw [wireLoop]
    by_cases hne : getN emap e (-1) = -1
    · rw [if_pos hne, ih es]
      have : survivors emap (e :: rest) = survivors emap rest := by
        unfold survivors
        rw [List.filterMap_cons, if_pos hne]
      rw [this]
    · rw [if_neg hne, if_pos rfl]
      rw [wireLoop_run nv emap rest _ _ es hne]
      have : survivors emap (e :: rest) = getN emap e (-1) :: survivors emap rest := by
        unfold survivors
        rw [List.filterMap_cons, if_neg hne]
      rw [this]

theorem getLastD_map_toNat (l : List ℤ) (d : ℤ) :
    (l.map Int.toNat).getLastD d.toNat = (l.getLastD d).toNat := by
  induction l generalizing d with
  | nil => rfl
  | cons x rest ih =>
    rw [List.map_cons, List.getLastD_cons, List.getLastD_cons]
    exact ih x

/-- `wireVertex` in terms of `wireCycle`: relink the surviving cycle and
record its head as the new example edge; do nothing for an isolated vertex. -/
theorem wireVertex_run (g : PlanarGraph) (emap : List ℤ) (v nv : ℕ) (es : EdgeStore)
    (ex : List ℤ) :
    wireVertex g emap v nv es ex =
      match hS : survivors emap (g.incList v) with
      | [] => (es, ex)
      | s0 :: rest =>
          (wireCycle nv (s0.toNat :: rest.map Int.toNat) es, setN ex nv s0) := by
  unfold wireVertex
  rw [wireLoop_start]
  cases hS : survivors emap (g.incList v) with
  | nil => rfl
  | cons s0 rest =>
    have hs0 : s0 ≠ -1 := survivors_ne_neg1 emap _ s0 (by rw [hS]; exact List.mem_cons_self _ _)
    simp only [if_neg hs0]
    rw [← getLastD_map_toNat]
    rfl

theorem getNextAt_setPrevEdge_ne (es : EdgeStore) (e v p q u : ℕ) (h : q ≠ p) :
    getNextAt (setPrevEdge es e v p) q u = getNextAt es q u := by
  unfold getNextAt setPrevEdge
  rw [getN_modifyEdge, if_neg (by simp [h])]
  exact getNext_modifyEdge_setPrev es e q v p u

@[simp] theorem length_chainPrevAux (nv p : ℕ) (l : List ℕ) (es : EdgeStore) :
    (chainPrevAux nv p l es).length = es.length := by
  induction l generalizing p es with
  | nil => rfl
  | cons x rest ih => rw [chainPrevAux, ih]; simp

theorem endpoints_chainPrevAux (nv p : ℕ) (l : List ℕ) (es : EdgeStore) (j : ℕ) :
    endpoint1 (chainPrevAux nv p l es) j = endpoint1 es j ∧
    endpoint2 (chainPrevAux nv p l es) j = endpoint2 es j := by
  induction l generalizing p es with
  | nil => exact ⟨rfl, rfl⟩
  | cons x rest ih =>
    rw [chainPrevAux]
    have h1 := ih x (setPrevEdge es x nv p)
    have h2 := endpoints_setPrevEdge es x nv p j
    exact ⟨h1.1.trans h2.1, h1.2.trans h2.2⟩

/-- Frame: the chain only writes `next` slots of edges in `p :: l`. -/
theorem getNextAt_chainPrevAux_frame (nv p : ℕ) (l : List ℕ) (es : EdgeStore) (q u : ℕ)
    (hq : q ≠ p) (hql : q ∉ l) :
    getNextAt (chainPrevAux nv p l es) q u = getNextAt es q u := by
  induction l generalizing p es with
  | nil => rfl
  | cons x rest ih =>
    rw [chainPrevAux]
    rw [ih x _ (fun hc => hql (hc ▸ List.mem_cons_self x rest))
        (fun hc => hql (List.mem_cons_of_mem x hc))]
    exact getNextAt_setPrevEdge_ne es x nv p q u hq

/-- Frame: the chain writes only on the side of `nv`; reads resolving to the
other side of an edge are unchanged. -/
theorem getNextAt_chainPrevAux_side (nv p : ℕ) (l : List ℕ) (es : EdgeStore) (q u : ℕ)
    (hbp : p < es.length) (hbl : ∀ x ∈ l, x < es.length)
    (hside : ¬ (u = endpoint1 es q ↔ nv = endpoint1 es q)) :
    getNextAt (chainPrevAux nv p l es) q u = getNextAt es q u := by
  induction l generalizing p es with
  | nil => rfl
  | cons x rest ih =>
    rw [chainPrevAux]
    have hx : x < es.length := hbl x (List.mem_cons_self x rest)
    have hframe : getNextAt (setPrevEdge es x nv p) q u = getNextAt es q u := by
      rw [getNextAt_setPrevEdge es x nv p q u hbp]
      rw [if_neg]
      intro hc
      exact hside (hc.1 ▸ hc.2)
    have hep : endpoint1 (setPrevEdge es x nv p) q = endpoint1 es q :=
      (endpoints_setPrevEdge es x nv p q).1
    rw [ih x (setPrevEdge es x nv p) (by simpa using hx)
        (fun y hy => by simpa using hbl y (List.mem_cons_of_mem x hy))
        (by unfold endpoint1 at hep ⊢; rw [hep]; exact hside)]
    exact hframe

/-- The chain wires each consecutive pair of `p :: l` as `next` at `nv`. -/
theorem getNextAt_chainPrevAux_wired (nv p : ℕ) (l : List ℕ) (es : EdgeStore)
    (hnd : (p :: l).Nodup) (hb : ∀ x ∈ p :: l, x < es.length) :
    ∀ i, i + 1 < (p :: l).length →
      getNextAt (chainPrevAux nv p l es) (getN (p :: l) i 0) nv = getN (p :: l) (i + 1) 0 := by
  induction l generalizing p es with
  | nil => intro i hi; simp at hi
  | cons x rest ih =>
    intro i hi
    rw [chainPrevAux]
    have hp : p < es.length := hb p (List.mem_cons_self _ _)
    have hx : x < es.length := hb x (List.mem_cons_of_mem _ (List.mem_cons_self _ _))
    cases i with
    | zero =>
      show getNextAt _ p nv = x
      have hpn : p ∉ x :: rest := by
        intro hc
        exact (List.nodup_cons.mp hnd).1 hc
      rw [getNextAt_chainPrevAux_frame nv x rest _ p nv
          (fun hc => hpn (hc ▸ List.mem_cons_self x rest))
          (fun hc => hpn (List.mem_cons_of_mem x hc))]
      rw [getNextAt_setPrevEdge es x nv p p nv hp]
      rw [if_pos ⟨rfl, Iff.rfl⟩]
    | succ j =>
      show getNextAt _ (getN (x :: rest) j 0) nv = getN (x :: rest) (j + 1) 0
      refine ih x (setPrevEdge es x nv p) (List.nodup_cons.mp hnd).2 ?_ j (by simpa using hi)
      intro y hy
      simpa using hb y (List.mem_cons_of_mem p hy)

@[simp] theorem length_wireCycle (nv : ℕ) (S : List ℕ) (es : EdgeStore) :
    (wireCycle nv S es).length = es.length := by
  cases S with
  | nil => rfl
  | cons s0 rest => rw [wireCycle]; simp

theorem endpoints_wireCycle (nv : ℕ) (S : List ℕ) (es : EdgeStore) (j : ℕ) :
    endpoint1 (wireCycle nv S es) j = endpoint1 es j ∧
    endpoint2 (wireCycle nv S es) j = endpoint2 es j := by
  cases S with
  | nil => exact ⟨rfl, rfl⟩
  | cons s0 rest =>
    rw [wireCycle]
    have h1 := endpoints_setPrevEdge (chainPrevAux nv s0 rest es) s0 nv (rest.getLastD s0) j
    have h2 := endpoints_chainPrevAux nv s0 rest es j
    exact ⟨h1.1.trans h2.1, h1.2.trans h2.2⟩

theorem getLastD_eq_getN (l : List ℕ) (d : ℕ) : l.getLastD d = getN (d :: l) l.length 0 := by
  induction l generalizing d with
  | nil => rfl
  | cons x rest ih => rw [List.getLastD_cons, List.length_cons, getN_cons_succ]; exact ih x

theorem getLastD_mem_cons (l : List ℕ) (d : ℕ) : l.getLastD d ∈ d :: l := by
  rw [getLastD_eq_getN]
  exact getN_mem _ _ _ (by simp)

/-- Frame: the full cycle relink only writes `next` slots of edges in `S`. -/
theorem getNextAt_wireCycle_frame (nv : ℕ) (S : List ℕ) (es : EdgeStore) (q u : ℕ)
    (hq : q ∉ S) :
    getNextAt (wireCycle nv S es) q u = getNextAt es q u := by
  cases S with
  | nil => rfl
  | cons s0 rest =>
    rw [wireCycle]
    have hlast : rest.getLastD s0 ∈ s0 :: rest := getLastD_mem_cons rest s0
    rw [getNextAt_setPrevEdge_ne _ _ _ _ _ _ (fun hc => hq (by rw [hc]; exact hlast))]
    exact getNextAt_chainPrevAux_frame nv s0 rest es q u
      (fun hc => hq (by rw [hc]; exact List.mem_cons_self s0 rest))
      (fun hc => hq (List.mem_cons_of_mem s0 hc))

/-- Frame: the full cycle relink only writes on the side of `nv`. -/
theorem getNextAt_wireCycle_side (nv : ℕ) (S : List ℕ) (es : EdgeStore) (q u : ℕ)
    (hb : ∀ x ∈ S, x < es.length)
    (hside : ¬ (u = endpoint1 es q ↔ nv = endpoint1 es q)) :
    getNextAt (wireCycle nv S es) q u = getNextAt es q u := by
  cases S with
  | nil => rfl
  | cons s0 rest =>
    rw [wireCycle]
    have hs0 : s0 < es.length := hb s0 (List.mem_cons_self _ _)
    have hlast : rest.getLastD s0 < es.length := hb _ (getLastD_mem_cons rest s0)
    rw [getNextAt_setPrevEdge _ _ _ _ _ _ (by simpa using hlast)]
    rw [if_neg (by
      intro hc
      have heq : endpoint1 (chainPrevAux nv s0 rest es) (rest.getLastD s0) =
          endpoint1 es (rest.getLastD s0) :=
        (endpoints_chainPrevAux nv s0 rest es _).1
      have h2 := hc.2
      rw [heq, ← hc.1] at h2
      exact hside h2)]
    exact getNextAt_chainPrevAux_side nv s0 rest es q u hs0
      (fun y hy => hb y (List.mem_cons_of_mem s0 hy)) hside

/-- After the relink, `next` at `nv` follows `S` cyclically. -/
theorem chainNext_wireCycle (nv : ℕ) (S : List ℕ) (es : EdgeStore)
    (hnd : S.Nodup) (hb : ∀ x ∈ S, x < es.length) :
    chainNext (wireCycle nv S es) nv S := by
  cases S with
  | nil => intro i hi; simp at hi
  | cons s0 rest =>
    intro i hi
    rw [wireCycle]
    have hs0 : s0 < es.length := hb s0 (List.mem_cons_self _ _)
    have hlast_mem : rest.getLastD s0 ∈ s0 :: rest := getLastD_mem_cons rest s0
    have hlastN : rest.getLastD s0 = getN (s0 :: rest) rest.length 0 := getLastD_eq_getN rest s0
    rcases Nat.lt_or_ge (i + 1) (s0 :: rest).length with hi1 | hi1
    · -- interior step: the closing write does not touch position `i`
      have hne : getN (s0 :: rest) i 0 ≠ rest.getLastD s0 := by
        rw [hlastN]
        exact getN_ne_of_nodup _ hnd i rest.length 0 (by omega) (by simp) (by
          simp only [List.length_cons] at hi1
          omega)
      rw [getNextAt_setPrevEdge_ne _ _ _ _ _ _ hne]
      rw [getNextAt_chainPrevAux_wired nv s0 rest es hnd hb i hi1]
      congr 1
      rw [Nat.mod_eq_of_lt hi1]
    · -- closing step: `next` of the last edge is the head
      have hieq : i = rest.length := by
        simp only [List.length_cons] at hi hi1
        omega
      have hq : getN (s0 :: rest) i 0 = rest.getLastD s0 := by
        rw [hlastN, hieq]
      rw [hq]
      rw [getNextAt_setPrevEdge _ _ _ _ _ _ (by simpa using hb _ hlast_mem)]
      rw [if_pos ⟨rfl, Iff.rfl⟩]
      have : (i + 1) % (s0 :: rest).length = 0 := by
        simp only [List.length_cons, hieq]
        exact Nat.mod_self _
      rw [this]
      rfl

/-! ### True positions of a mask -/

theorem map_getN_take (bs : List Bool) (i : ℕ) (hi : i ≤ bs.length) :
    (List.range i).map (fun j => getN bs j false) = bs.take i := by
  apply List.ext_getElem
  · simp only [List.length_map, List.length_range, List.length_take]
    omega
  · intro j h1 h2
    have hj : j < bs.length := by
      simp only [List.length_map, List.length_range] at h1
      omega
    simp only [List.getElem_map, List.getElem_range, List.getElem_take]
    rw [getN_eq_getElem bs j false hj]

theorem map_getN_range_self (bs : List Bool) :
    (List.range bs.length).map (fun j => getN bs j false) = bs := by
  rw [map_getN_take bs bs.length (le_refl _), List.take_length]

/-- Positions of the true entries of a mask, in increasing order. -/
def truePos (bs : List Bool) : List ℕ :=
  (List.range bs.length).filter (fun i => getN bs i false)

theorem truePos_length (bs : List Bool) : (truePos bs).length = bs.count true := by
  unfold truePos
  conv_rhs => rw [← map_getN_range_self bs]
  rw [count_true_map_eq]

theorem truePos_mem (bs : List Bool) (i : ℕ) :
    i ∈ truePos bs ↔ i < bs.length ∧ getN bs i false = true := by
  unfold truePos
  simp [List.mem_filter]

theorem truePos_nodup (bs : List Bool) : (truePos bs).Nodup :=
  List.Nodup.filter _ (List.nodup_range _)

theorem getN_truePos_count (bs : List Bool) (i : ℕ) (hi : i < bs.length)
    (hb : getN bs i false = true) :
    getN (truePos bs) ((bs.take i).count true) 0 = i := by
  unfold truePos
  have h1 := getN_filter_take (List.range bs.length) (fun j => getN bs j false) i 0
    (by simpa using hi) (by rwa [getN_range _ _ _ hi])
  rw [getN_range _ _ _ hi] at h1
  have h2 : (((List.range bs.length).take i).filter (fun j => getN bs j false)).length =
      (bs.take i).count true := by
    rw [List.take_range]
    have : min i bs.length = i := by omega
    rw [this]
    conv_rhs => rw [← map_getN_take bs i (by omega)]
    rw [count_true_map_eq]
  rwa [h2] at h1

theorem count_take_lt_truePos (bs : List Bool) (i : ℕ) (hi : i < bs.length)
    (hb : getN bs i false = true) : (bs.take i).count true < (truePos bs).length := by
  rw [truePos_length]
  exact count_take_lt bs i hi hb

/-- The `k`-th true position has exactly `k` true entries before it. -/
theorem count_take_getN_truePos (bs : List Bool) (k : ℕ) (hk : k < (truePos bs).length) :
    (bs.take (getN (truePos bs) k 0)).count true = k := by
  set i := getN (truePos bs) k 0 with hi_def
  have hmem : i ∈ truePos bs := getN_mem _ _ _ hk
  have hi : i < bs.length := ((truePos_mem bs i).mp hmem).1
  have hb : getN bs i false = true := ((truePos_mem bs i).mp hmem).2
  have h1 := getN_truePos_count bs i hi hb
  have h2 := count_take_lt_truePos bs i hi hb
  by_contra hne
  exact getN_ne_of_nodup _ (truePos_nodup bs) _ _ 0 h2 hk hne (h1.trans hi_def)

/-! ### maskFilter lemmas -/

theorem maskFilter_nil_left (mask : List Bool) : maskFilter ([] : List α) mask = [] := by
  unfold maskFilter
  simp

theorem maskFilter_cons (x : α) (xs : List α) (b : Bool) (ms : List Bool) :
    maskFilter (x :: xs) (b :: ms) =
      if b then x :: maskFilter xs ms else maskFilter xs ms := by
  unfold maskFilter
  rw [List.zip_cons_cons, List.filterMap_cons]
  cases b <;> simp

theorem maskFilter_length (xs : List α) (mask : List Bool) (hlen : xs.length = mask.length) :
    (maskFilter xs mask).length = mask.count true := by
  induction xs generalizing mask with
  | nil =>
    cases mask with
    | nil => rfl
    | cons b ms => simp at hlen
  | cons x xrest ih =>
    cases mask with
    | nil => simp at hlen
    | cons b ms =>
      rw [maskFilter_cons]
      cases b with
      | false => simp [List.count_cons]; exact ih ms (by simpa using hlen)
      | true =>
        rw [if_pos rfl, List.length_cons, List.count_cons_self, ih ms (by simpa using hlen)]

theorem maskFilter_getN (xs : List α) (mask : List Bool) (hlen : xs.length = mask.length)
    (i : ℕ) (hi : i < mask.length) (hm : getN mask i false = true) (d : α) :
    getN (maskFilter xs mask) ((mask.take i).count true) d = getN xs i d := by
  induction xs generalizing mask i with
  | nil =>
    cases mask with
    | nil => simp at hi
    | cons b ms => simp at hlen
  | cons x xrest ih =>
    cases mask with
    | nil => simp at hi
    | cons b ms =>
      rw [maskFilter_cons]
      cases i with
      | zero =>
        simp only [getN_cons_zero] at hm
        subst hm
        simp
      | succ j =>
        simp only [getN_cons_succ] at hm ⊢
        cases b with
        | false =>
          rw [if_neg (by simp)]
          simp only [List.take_succ_cons, List.count_cons, if_neg (by simp : ¬ (false = true)),
            Nat.add_zero]
          exact ih ms (by simpa using hlen) j (by simpa using hi) hm
        | true =>
          rw [if_pos rfl]
          simp only [List.take_succ_cons, List.count_cons_self, getN_cons_succ]
          exact ih ms (by simpa using hlen) j (by simpa using hi) hm

/-! ### construct_subgraph: assembled facts -/

theorem getN_of_le (l : List α) (i : ℕ) (d : α) (h : l.length ≤ i) : getN l i d = d := by
  induction l generalizing i with
  | nil => rfl
  | cons a t ih => cases i with
    | zero => simp at h
    | succ j => simpa using ih j (by simpa using h)

theorem ofNat_ne_neg_one (n : ℕ) : Int.ofNat n ≠ -1 := by simp

theorem toNat_ofNat_eq (n : ℕ) : (Int.ofNat n).toNat = n := rfl

/-- New index of a surviving vertex. -/
def nvOf (vmask : List Bool) (v : ℕ) : ℕ := (getN (buildMapB vmask) v (-1)).toNat

def emapOf (g : PlanarGraph) (vmask emask : List Bool) : List ℤ :=
  buildMapB (edgeKeepList g vmask emask)

def es0Of (g : PlanarGraph) (vmask emask : List Bool) : EdgeStore :=
  subEdgesAux g vmask emask (buildMapB vmask) (List.range g.edges.length) []

/-- New indices of the surviving incident edges of `v`, in rotation order. -/
def SNof (g : PlanarGraph) (vmask emask : List Bool) (v : ℕ) : List ℕ :=
  (survivors (emapOf g vmask emask) (g.incList v)).map Int.toNat

theorem nvOf_eq_count (vmask : List Bool) (v : ℕ) (hv : v < vmask.length)
    (hkept : getN vmask v false = true) :
    nvOf vmask v = (vmask.take v).count true := by
  unfold nvOf
  rw [getN_buildMapB _ _ hv, if_pos hkept]
  rfl

theorem nvOf_lt (vmask : List Bool) (v : ℕ) (hv : v < vmask.length)
    (hkept : getN vmask v false = true) :
    nvOf vmask v < vmask.count true := by
  rw [nvOf_eq_count _ _ hv hkept]
  exact count_take_lt _ _ hv hkept

theorem nvOf_inj (vmask : List Bool) (u v : ℕ) (hu : u < vmask.length) (hv : v < vmask.length)
    (hku : getN vmask u false = true) (hkv : getN vmask v false = true)
    (heq : nvOf vmask u = nvOf vmask v) : u = v := by
  unfold nvOf at heq
  rw [getN_buildMapB _ _ hu, if_pos hku, getN_buildMapB _ _ hv, if_pos hkv] at heq
  refine buildMapB_inj vmask u v hu hv ?_ ?_
  · rw [getN_buildMapB _ _ hu, if_pos hku]
    exact ofNat_ne_neg_one _
  · rw [getN_buildMapB _ _ hu, if_pos hku, getN_buildMapB _ _ hv, if_pos hkv]
    rw [toNat_ofNat_eq, toNat_ofNat_eq] at heq
    exact congrArg Int.ofNat heq

theorem es0Of_length (g : PlanarGraph) (vmask emask : List Bool) :
    (es0Of g vmask emask).length = (kedges g vmask emask).length := by
  unfold es0Of kedges
  rw [subEdgesAux_length]
  simp

theorem es0Of_endpoints (g : PlanarGraph) (vmask emask : List Bool) (k : ℕ)
    (hk : k < (kedges g vmask emask).length) :
    endpoint1 (es0Of g vmask emask) k =
      (getN (buildMapB vmask) (endpoint1 g.edges (getN (kedges g vmask emask) k 0)) (-1)).toNat ∧
    endpoint2 (es0Of g vmask emask) k =
      (getN (buildMapB vmask) (endpoint2 g.edges (getN (kedges g vmask emask) k 0)) (-1)).toNat := by
  unfold es0Of kedges at *
  have := subEdgesAux_vertexFields g vmask emask (buildMapB vmask)
    (List.range g.edges.length) [] k (by exact hk)
  simpa using this

theorem getN_emapOf (g : PlanarGraph) (vmask emask : List Bool) (e : ℕ) :
    getN (emapOf g vmask emask) e (-1) =
      if e < g.edges.length ∧ keepEdge g vmask emask e = true then
        Int.ofNat (cntKE g vmask emask e) else -1 := by
  unfold emapOf
  by_cases he : e < g.edges.length
  · rw [getN_edgeMap g vmask emask e he]
    by_cases hk : keepEdge g vmask emask e
    · rw [if_pos hk, if_pos ⟨he, hk⟩]
    · rw [if_neg hk, if_neg (by intro hc; exact hk hc.2)]
  · rw [getN_of_le _ _ _ (by simp; omega), if_neg (by intro hc; exact he hc.1)]

/-- Membership of the surviving-incident-edge list. -/
theorem SNof_mem (g : PlanarGraph) (vmask emask : List Bool) (v : ℕ) (x : ℕ) :
    x ∈ SNof g vmask emask v ↔
      ∃ e ∈ g.incList v, e < g.edges.length ∧ keepEdge g vmask emask e = true ∧
        x = cntKE g vmask emask e := by
  unfold SNof survivors
  simp only [List.mem_map, List.mem_filterMap]
  constructor
  · rintro ⟨y, ⟨e, he, hy⟩, hxy⟩
    rw [getN_emapOf] at hy
    by_cases hc : e < g.edges.length ∧ keepEdge g vmask emask e = true
    · rw [if_pos hc, if_neg (ofNat_ne_neg_one _)] at hy
      cases hy
      refine ⟨e, he, hc.1, hc.2, ?_⟩
      rw [← hxy, toNat_ofNat_eq]
    · rw [if_neg hc, if_pos rfl] at hy
      cases hy
  · rintro ⟨e, he, helt, hk, hx⟩
    have hyv : getN (emapOf g vmask emask) e (-1) = Int.ofNat (cntKE g vmask emask e) := by
      rw [getN_emapOf, if_pos ⟨helt, hk⟩]
    have h1 : (if getN (emapOf g vmask emask) e (-1) = -1 then none
        else some (getN (emapOf g vmask emask) e (-1))) =
          some (Int.ofNat (cntKE g vmask emask e)) := by
      rw [hyv, if_neg (ofNat_ne_neg_one _)]
    have h2 : (Int.ofNat (cntKE g vmask emask e)).toNat = x := by
      rw [toNat_ofNat_eq, hx]
    exact ⟨Int.ofNat (cntKE g vmask emask e), ⟨e, he, h1⟩, h2⟩

theorem SNof_sub_lt (g : PlanarGraph) (vmask emask : List Bool) (v : ℕ) (x : ℕ)
    (hx : x ∈ SNof g vmask emask v) : x < (kedges g vmask emask).length := by
  obtain ⟨e, _, helt, hk, hx⟩ := (SNof_mem g vmask emask v x).mp hx
  rw [hx]
  exact cntKE_lt g vmask emask e helt hk

theorem cntKE_inj (g : PlanarGraph) (vmask emask : List Bool) (a b : ℕ)
    (ha : a < g.edges.length) (hb : b < g.edges.length)
    (hka : keepEdge g vmask emask a = true) (hkb : keepEdge g vmask emask b = true)
    (heq : cntKE g vmask emask a = cntKE g vmask emask b) : a = b := by
  refine buildMapB_inj (edgeKeepList g vmask emask) a b (by simpa using ha) (by simpa using hb)
    ?_ ?_
  · rw [getN_edgeMap g vmask emask a ha, if_pos hka]
    exact ofNat_ne_neg_one _
  · rw [getN_edgeMap g vmask emask a ha, if_pos hka, getN_edgeMap g vmask emask b hb,
      if_pos hkb, heq]

theorem SNof_nodup (g : PlanarGraph) (vmask emask : List Bool) (v : ℕ)
    (hnd : (g.incList v).Nodup) : (SNof g vmask emask v).Nodup := by
  unfold SNof survivors
  rw [List.map_filterMap]
  refine List.Nodup.filterMap ?_ hnd
  intro a b x hxa hxb
  simp only [Option.mem_def] at hxa hxb
  rw [getN_emapOf] at hxa hxb
  by_cases hca : a < g.edges.length ∧ keepEdge g vmask emask a = true
  · rw [if_pos hca, if_neg (ofNat_ne_neg_one _)] at hxa
    by_cases hcb : b < g.edges.length ∧ keepEdge g vmask emask b = true
    · rw [if_pos hcb, if_neg (ofNat_ne_neg_one _)] at hxb
      rw [show ∀ y : ℤ, Option.map Int.toNat (some y) = some y.toNat from fun y => rfl] at hxa hxb
      rw [toNat_ofNat_eq] at hxa hxb
      exact cntKE_inj g vmask emask a b hca.1 hcb.1 hca.2 hcb.2
        ((Option.some.inj hxa).trans (Option.some.inj hxb).symm)
    · rw [if_neg hcb, if_pos rfl] at hxb
      simp at hxb
  · rw [if_neg hca, if_pos rfl] at hxa
    simp at hxa

theorem keepEdge_masks (g : PlanarGraph) (vmask emask : List Bool) (e : ℕ)
    (hk : keepEdge g vmask emask e = true) :
    getN vmask (endpoint1 g.edges e) false = true ∧
    getN vmask (endpoint2 g.edges e) false = true ∧ getN emask e false = true := by
  unfold keepEdge at hk
  simp only [Bool.and_eq_true] at hk
  exact ⟨hk.1.1, hk.1.2, hk.2⟩

/-- An edge of the new store is incident to the new index of a surviving
vertex exactly when it is the image of a surviving incident edge. -/
theorem incident_es0_iff (g : PlanarGraph) (vmask emask : List Bool) (hwf : WF g)
    (hvm : vmask.length = g.size) (v : ℕ) (hv : v < g.size)
    (hkept : getN vmask v false = true) (x : ℕ) :
    incidentIdx (es0Of g vmask emask) x (nvOf vmask v) ↔ x ∈ SNof g vmask emask v := by
  have hrot := (hwf.2.2 v hv).1
  constructor
  · rintro ⟨hx, hep⟩
    rw [es0Of_length] at hx
    set e := getN (kedges g vmask emask) x 0 with he_def
    have hmem : e ∈ kedges g vmask emask := getN_mem _ _ _ hx
    have helt : e < g.edges.length := ((kedges_mem g vmask emask e).mp hmem).1
    have hke : keepEdge g vmask emask e = true := ((kedges_mem g vmask emask e).mp hmem).2
    have heps := es0Of_endpoints g vmask emask x hx
    have hmasks := keepEdge_masks g vmask emask e hke
    have hincv : incidentIdx g.edges e v := by
      refine ⟨helt, ?_⟩
      rcases hep with h1 | h2
      · left
        rw [heps.1, ← he_def] at h1
        have hb1 : endpoint1 g.edges e < g.size := (hwf.2.1 e helt).1
        exact nvOf_inj vmask _ v (by omega) (by omega) hmasks.1 hkept h1
      · right
        rw [heps.2, ← he_def] at h2
        have hb2 : endpoint2 g.edges e < g.size := (hwf.2.1 e helt).2.1
        exact nvOf_inj vmask _ v (by omega) (by omega) hmasks.2.1 hkept h2
    have hel : e ∈ g.incList v := hrot.2.2.1 e helt hincv
    rw [SNof_mem]
    exact ⟨e, hel, helt, hke, (cntKE_getN_kedges g vmask emask x hx).symm⟩
  · intro hx
    obtain ⟨e, hel, helt, hke, hxe⟩ := (SNof_mem g vmask emask v x).mp hx
    have hxlt : x < (kedges g vmask emask).length := by
      rw [hxe]
      exact cntKE_lt g vmask emask e helt hke
    refine ⟨by rwa [es0Of_length], ?_⟩
    have heps := es0Of_endpoints g vmask emask x hxlt
    have hback : getN (kedges g vmask emask) x 0 = e := by
      rw [hxe]
      exact getN_kedges_cntKE g vmask emask e helt hke
    have hincv : incidentIdx g.edges e v := hrot.2.1 e hel
    rcases hincv.2 with h1 | h2
    · left
      rw [heps.1, hback, h1]
      rfl
    · right
      rw [heps.2, hback, h2]
      rfl

/-- The two endpoints of every new edge are distinct new vertex indices. -/
theorem es0Of_endpoints_ne (g : PlanarGraph) (vmask emask : List Bool) (hwf : WF g)
    (hvm : vmask.length = g.size) (x : ℕ) (hx : x < (es0Of g vmask emask).length) :
    endpoint1 (es0Of g vmask emask) x ≠ endpoint2 (es0Of g vmask emask) x := by
  rw [es0Of_length] at hx
  set e := getN (kedges g vmask emask) x 0 with he_def
  have hmem : e ∈ kedges g vmask emask := getN_mem _ _ _ hx
  have helt : e < g.edges.length := ((kedges_mem g vmask emask e).mp hmem).1
  have hke : keepEdge g vmask emask e = true := ((kedges_mem g vmask emask e).mp hmem).2
  have heps := es0Of_endpoints g vmask emask x hx
  have hmasks := keepEdge_masks g vmask emask e hke
  have hb := hwf.2.1 e helt
  rw [heps.1, heps.2, ← he_def]
  intro hc
  exact hb.2.2 (nvOf_inj vmask _ _ (by omega) (by omega) hmasks.1 hmasks.2.1 hc)

theorem es0Of_endpoints_lt (g : PlanarGraph) (vmask emask : List Bool) (hwf : WF g)
    (hvm : vmask.length = g.size) (x : ℕ) (hx : x < (es0Of g vmask emask).length) :
    endpoint1 (es0Of g vmask emask) x < vmask.count true ∧
    endpoint2 (es0Of g vmask emask) x < vmask.count true := by
  rw [es0Of_length] at hx
  set e := getN (kedges g vmask emask) x 0 with he_def
  have hmem : e ∈ kedges g vmask emask := getN_mem _ _ _ hx
  have helt : e < g.edges.length := ((kedges_mem g vmask emask e).mp hmem).1
  have hke : keepEdge g vmask emask e = true := ((kedges_mem g vmask emask e).mp hmem).2
  have heps := es0Of_endpoints g vmask emask x hx
  have hmasks := keepEdge_masks g vmask emask e hke
  have hb := hwf.2.1 e helt
  rw [heps.1, heps.2, ← he_def]
  exact ⟨nvOf_lt vmask _ (by omega) hmasks.1, nvOf_lt vmask _ (by omega) hmasks.2.1⟩

theorem survivors_emapOf_nonneg (g : PlanarGraph) (vmask emask : List Bool) (inc : List ℕ)
    (x : ℤ) (hx : x ∈ survivors (emapOf g vmask emask) inc) : 0 ≤ x := by
  unfold survivors at hx
  obtain ⟨e, _, he⟩ := List.mem_filterMap.mp hx
  rw [getN_emapOf] at he
  by_cases hc : e < g.edges.length ∧ keepEdge g vmask emask e = true
  · rw [if_pos hc, if_neg (ofNat_ne_neg_one _)] at he
    cases he
    exact Int.natCast_nonneg _
  · rw [if_neg hc, if_pos rfl] at he
    cases he

/-- A relink phase for a different surviving vertex never writes the slot
`(q, side of nvOf v)` of an edge `q` surviving at `v`. -/
theorem untouched_of_other (g : PlanarGraph) (vmask emask : List Bool) (hwf : WF g)
    (hvm : vmask.length = g.size) (v w : ℕ) (hv : v < g.size) (hw : w < g.size)
    (hkv : getN vmask v false = true) (hkw : getN vmask w false = true) (hne : v ≠ w)
    (q : ℕ) (hq : q ∈ SNof g vmask emask v) :
    ¬ (q ∈ SNof g vmask emask w ∧
        (nvOf vmask v = endpoint1 (es0Of g vmask emask) q ↔
         nvOf vmask w = endpoint1 (es0Of g vmask emask) q)) := by
  rintro ⟨hqw, hside⟩
  have hincv : incidentIdx (es0Of g vmask emask) q (nvOf vmask v) :=
    (incident_es0_iff g vmask emask hwf hvm v hv hkv q).mpr hq
  have hincw : incidentIdx (es0Of g vmask emask) q (nvOf vmask w) :=
    (incident_es0_iff g vmask emask hwf hvm w hw hkw q).mpr hqw
  have hdist := es0Of_endpoints_ne g vmask emask hwf hvm q hincv.1
  have hnv : nvOf vmask v ≠ nvOf vmask w := by
    intro hc
    exact hne (nvOf_inj vmask v w (by omega) (by omega) hkv hkw hc)
  rcases hincv.2 with h1 | h1 <;> rcases hincw.2 with h2 | h2
  · exact hnv (h1.symm.trans h2)
  · have := hside.mp h1.symm
    exact hnv ((this.trans h1).symm)
  · have := hside.mpr h2.symm
    exact hnv (this.trans h2)
  · exact hnv (h1.symm.trans h2)

/-- Master lemma for the relink loop over a vertex list: each processed
surviving vertex's cycle is wired and its example edge recorded, all other
slots are untouched. -/
theorem wireAllAux_spec (g : PlanarGraph) (vmask emask : List Bool) (hwf : WF g)
    (hvm : vmask.length = g.size)
    (L : List ℕ) (hL : ∀ v ∈ L, v < g.size) (hLnd : L.Nodup)
    (es : EdgeStore) (ex : List ℤ)
    (hlen : es.length = (es0Of g vmask emask).length)
    (heps : ∀ j, endpoint1 es j = endpoint1 (es0Of g vmask emask) j ∧
        endpoint2 es j = endpoint2 (es0Of g vmask emask) j)
    (hex : ex.length = vmask.count true)
    (resEs : EdgeStore) (resEx : List ℤ)
    (hres : wireAllAux g vmask (buildMapB vmask) (emapOf g vmask emask) L (es, ex) =
      (resEs, resEx)) :
    resEs.length = es.length ∧
    (∀ j, endpoint1 resEs j = endpoint1 es j ∧ endpoint2 resEs j = endpoint2 es j) ∧
    resEx.length = ex.length ∧
    (∀ q u, (∀ v ∈ L, getN vmask v false = true →
        ¬ (q ∈ SNof g vmask emask v ∧
          (u = endpoint1 (es0Of g vmask emask) q ↔
           nvOf vmask v = endpoint1 (es0Of g vmask emask) q))) →
      getNextAt resEs q u = getNextAt es q u) ∧
    (∀ j, (∀ v ∈ L, getN vmask v false = true → nvOf vmask v ≠ j) →
      getN resEx j (-1) = getN ex j (-1)) ∧
    (∀ v ∈ L, getN vmask v false = true →
      chainNext resEs (nvOf vmask v) (SNof g vmask emask v) ∧
      (SNof g vmask emask v ≠ [] →
        getN resEx (nvOf vmask v) (-1) = Int.ofNat (getN (SNof g vmask emask v) 0 0)) ∧
      (SNof g vmask emask v = [] →
        getN resEx (nvOf vmask v) (-1) = getN ex (nvOf vmask v) (-1))) := by
  induction L generalizing es ex with
  | nil =>
    rw [wireAllAux] at hres
    cases hres
    refine ⟨rfl, fun j => ⟨rfl, rfl⟩, rfl, fun q u _ => rfl, fun j _ => rfl, ?_⟩
    intro v hv
    simp at hv
  | cons v rest ih =>
    have hvsize : v < g.size := hL v (List.mem_cons_self _ _)
    have hrestL : ∀ w ∈ rest, w < g.size := fun w hw => hL w (List.mem_cons_of_mem _ hw)
    have hrestNd : rest.Nodup := (List.nodup_cons.mp hLnd).2
    have hvnotin : v ∉ rest := (List.nodup_cons.mp hLnd).1
    rw [wireAllAux] at hres
    by_cases hkept : getN vmask v false = true
    · rw [if_pos hkept] at hres
      have hnveq : (getN (buildMapB vmask) v (-1)).toNat = nvOf vmask v := rfl
      rw [wireVertex_run] at hres
      cases hSV : survivors (emapOf g vmask emask) (g.incList v) with
      | nil =>
        rw [hSV] at hres
        have hSN : SNof g vmask emask v = [] := by
          unfold SNof
          rw [hSV]
          rfl
        obtain ⟨c1, c2, c3, c4, c5, c6⟩ :=
          ih hrestL hrestNd es ex hlen heps hex hres
        refine ⟨c1, c2, c3, ?_, ?_, ?_⟩
        · intro q u hq
          exact c4 q u (fun w hw hkw => hq w (List.mem_cons_of_mem _ hw) hkw)
        · intro j hj
          exact c5 j (fun w hw hkw => hj w (List.mem_cons_of_mem _ hw) hkw)
        · intro w hw hkw
          rcases List.mem_cons.mp hw with hwv | hwr
          · subst hwv
            refine ⟨?_, ?_, ?_⟩
            · rw [hSN]
              intro i hi
              simp at hi
            · intro hc
              exact absurd hSN hc
            · intro _
              refine c5 _ (fun w2 hw2 hkw2 => ?_)
              intro hc
              refine hvnotin ?_
              have := nvOf_inj vmask w2 w (by
                  have := hrestL w2 hw2
                  omega) (by omega) hkw2 hkw hc
              rwa [this] at hw2
          · exact c6 w hwr hkw
      | cons s0 restS =>
        rw [hSV] at hres
        have hSN : SNof g vmask emask v = s0.toNat :: restS.map Int.toNat := by
          unfold SNof
          rw [hSV]
          rfl
        set S := s0.toNat :: restS.map Int.toNat with hS_def
        set nv := nvOf vmask v with hnv_def
        rw [hnveq] at hres
        set esW := wireCycle nv S es with hesW_def
        set exW := setN ex nv s0 with hexW_def
        have hSnd : S.Nodup := by
          rw [← hSN]
          exact SNof_nodup g vmask emask v (hwf.2.2 v hvsize).1.1
        have hSb : ∀ x ∈ S, x < es.length := by
          intro x hx
          rw [hlen, es0Of_length]
          refine SNof_sub_lt g vmask emask v x ?_
          rw [hSN]
          exact hx
        have hlenW : esW.length = (es0Of g vmask emask).length := by
          rw [hesW_def, length_wireCycle, hlen]
        have hepsW : ∀ j, endpoint1 esW j = endpoint1 (es0Of g vmask emask) j ∧
            endpoint2 esW j = endpoint2 (es0Of g vmask emask) j := by
          intro j
          have h1 := endpoints_wireCycle nv S es j
          exact ⟨h1.1.trans (heps j).1, h1.2.trans (heps j).2⟩
        have hexW_len : exW.length = vmask.count true := by
          rw [hexW_def, length_setN, hex]
        obtain ⟨c1, c2, c3, c4, c5, c6⟩ :=
          ih hrestL hrestNd esW exW hlenW hepsW hexW_len hres
        have hnv_lt_ex : nv < ex.length := by
          rw [hex, hnv_def]
          exact nvOf_lt vmask v (by omega) hkept
        have hs0_nonneg : 0 ≤ s0 :=
          survivors_emapOf_nonneg g vmask emask _ s0 (by rw [hSV]; exact List.mem_cons_self _ _)
        -- frame from the wire of `v` for slots it does not touch
        have hwire_frame : ∀ q u,
            ¬ (q ∈ SNof g vmask emask v ∧
              (u = endpoint1 (es0Of g vmask emask) q ↔
               nv = endpoint1 (es0Of g vmask emask) q)) →
            getNextAt esW q u = getNextAt es q u := by
          intro q u hq
          rw [hesW_def]
          by_cases hqS : q ∈ S
          · refine getNextAt_wireCycle_side nv S es q u hSb ?_
            intro hc
            refine hq ⟨by rw [hSN]; exact hqS, ?_⟩
            rw [(heps q).1] at hc
            exact hc
          · exact getNextAt_wireCycle_frame nv S es q u hqS
        refine ⟨c1.trans (by rw [hesW_def, length_wireCycle]), ?_, ?_, ?_, ?_, ?_⟩
        · intro j
          have h1 := c2 j
          have h2 := endpoints_wireCycle nv S es j
          rw [hesW_def] at h1
          exact ⟨h1.1.trans h2.1, h1.2.trans h2.2⟩
        · rw [c3, hexW_def, length_setN]
        · intro q u hq
          rw [c4 q u (fun w hw hkw => hq w (List.mem_cons_of_mem _ hw) hkw)]
          exact hwire_frame q u (hq v (List.mem_cons_self _ _) hkept)
        · intro j hj
          rw [c5 j (fun w hw hkw => hj w (List.mem_cons_of_mem _ hw) hkw)]
          rw [hexW_def]
          exact getN_setN_ne ex nv j s0 (-1) (fun hc => hj v (List.mem_cons_self _ _) hkept
            (by rw [← hnv_def, hc]))
        · intro w hw hkw
          rcases List.mem_cons.mp hw with hwv | hwr
          · subst hwv
            have hother : ∀ q, q ∈ SNof g vmask emask w → ∀ w2 ∈ rest,
                getN vmask w2 false = true →
                ¬ (q ∈ SNof g vmask emask w2 ∧
                  (nv = endpoint1 (es0Of g vmask emask) q ↔
                   nvOf vmask w2 = endpoint1 (es0Of g vmask emask) q)) := by
              intro q hq w2 hw2 hkw2
              refine untouched_of_other g vmask emask hwf hvm w w2 (by omega)
                (hrestL w2 hw2) hkw hkw2 (fun hc => hvnotin (by rwa [hc])) q hq
            refine ⟨?_, ?_, ?_⟩
            · intro i hi
              have hqmem : getN (SNof g vmask emask w) i 0 ∈ SNof g vmask emask w :=
                getN_mem _ _ _ hi
              rw [c4 _ nv (fun w2 hw2 hkw2 => hother _ hqmem w2 hw2 hkw2)]
              rw [hSN] at hi
              rw [hesW_def, hSN]
              exact chainNext_wireCycle nv S es hSnd hSb i hi
            · intro _
              rw [c5 nv (fun w2 hw2 hkw2 => ?_)]
              · rw [hexW_def, getN_setN_eq ex nv s0 (-1) hnv_lt_ex, hSN]
                rw [getN_cons_zero]
                exact (Int.toNat_of_nonneg hs0_nonneg).symm
              · intro hc
                refine hvnotin ?_
                have := nvOf_inj vmask w2 w (by
                    have := hrestL w2 hw2
                    omega) (by omega) hkw2 hkw (by rw [hc, hnv_def])
                rwa [this] at hw2
            · intro hc
              rw [hSN, hS_def] at hc
              simp at hc
          · obtain ⟨d1, d2, d3⟩ := c6 w hwr hkw
            refine ⟨d1, d2, ?_⟩
            intro hSNw
            rw [d3 hSNw, hexW_def]
            refine getN_setN_ne ex nv _ s0 (-1) ?_
            intro hc
            refine hvnotin ?_
            have := nvOf_inj vmask w v (by
                have := hrestL w hwr
                omega) (by omega) hkw hkept
              (by rw [hc, hnv_def])
            rwa [← this]
    · rw [if_neg hkept] at hres
      obtain ⟨c1, c2, c3, c4, c5, c6⟩ :=
        ih hrestL hrestNd es ex hlen heps hex hres
      refine ⟨c1, c2, c3, ?_, ?_, ?_⟩
      · intro q u hq
        exact c4 q u (fun w hw hkw => hq w (List.mem_cons_of_mem _ hw) hkw)
      · intro j hj
        exact c5 j (fun w hw hkw => hj w (List.mem_cons_of_mem _ hw) hkw)
      · intro w hw hkw
        rcases List.mem_cons.mp hw with hwv | hwr
        · subst hwv
          exact absurd hkw (by simp [hkept])
        · exact c6 w hwr hkw

/-! ### construct_subgraph: the main characterization -/

theorem incidentIdx_transfer (es es2 : EdgeStore) (hlen : es2.length = es.length)
    (heps : ∀ j, endpoint1 es2 j = endpoint1 es j ∧ endpoint2 es2 j = endpoint2 es j)
    (q u : ℕ) : incidentIdx es2 q u ↔ incidentIdx es q u := by
  unfold incidentIdx
  rw [hlen, (heps q).1, (heps q).2]

theorem incList_of_neg (g : PlanarGraph) (v : ℕ) (h : exampleAt g v = -1) :
    g.incList v = [] := by
  unfold PlanarGraph.incList
  rw [h]
  rfl

theorem construct_subgraph_parts (g : PlanarGraph) (vmask emask : List Bool) :
    construct_subgraph g vmask emask =
      (buildMapB vmask, emapOf g vmask emask,
        ⟨maskFilter g.vertex_costs vmask,
         (wireAllAux g vmask (buildMapB vmask) (emapOf g vmask emask)
            (List.range vmask.length)
            (es0Of g vmask emask,
             List.replicate (maskFilter g.vertex_costs vmask).length (-1))).2,
         (wireAllAux g vmask (buildMapB vmask) (emapOf g vmask emask)
            (List.range vmask.length)
            (es0Of g vmask emask,
             List.replicate (maskFilter g.vertex_costs vmask).length (-1))).1⟩) := rfl

/-- The subgraph produced by `construct_subgraph` is well-formed, and each
surviving vertex's new incidence enumeration is exactly the image of its
surviving original incident edges, in original rotation order. -/
theorem construct_subgraph_main (g : PlanarGraph) (vmask emask : List Bool) (hwf : WF g)
    (hvm : vmask.length = g.size) :
    WF (construct_subgraph g vmask emask).2.2 ∧
    (∀ v, v < g.size → getN vmask v false = true →
      (construct_subgraph g vmask emask).2.2.incList (nvOf vmask v) =
        SNof g vmask emask v ∧
      exampleAt (construct_subgraph g vmask emask).2.2 (nvOf vmask v) =
        (if SNof g vmask emask v = [] then -1
         else Int.ofNat (getN (SNof g vmask emask v) 0 0))) ∧
    (construct_subgraph g vmask emask).2.2.edges.length = (kedges g vmask emask).length ∧
    (∀ j, endpoint1 (construct_subgraph g vmask emask).2.2.edges j =
        endpoint1 (es0Of g vmask emask) j ∧
      endpoint2 (construct_subgraph g vmask emask).2.2.edges j =
        endpoint2 (es0Of g vmask emask) j) := by
  set h := (construct_subgraph g vmask emask).2.2 with hh_def
  have hcostlen : g.vertex_costs.length = vmask.length := by
    rw [hvm]
    rfl
  have hsize : h.size = vmask.count true := by
    rw [hh_def, construct_subgraph_parts]
    show (maskFilter g.vertex_costs vmask).length = _
    exact maskFilter_length _ _ hcostlen
  set ex0 : List ℤ := List.replicate (maskFilter g.vertex_costs vmask).length (-1) with hex0_def
  have hex0len : ex0.length = vmask.count true := by
    rw [hex0_def, List.length_replicate]
    exact maskFilter_length _ _ hcostlen
  obtain ⟨c1, c2, c3, c4, c5, c6⟩ := wireAllAux_spec g vmask emask hwf hvm
    (List.range vmask.length) (fun v hv => by
      rw [← hvm]
      exact List.mem_range.mp hv)
    (List.nodup_range _) (es0Of g vmask emask) ex0 rfl (fun j => ⟨rfl, rfl⟩) hex0len
    (wireAllAux g vmask (buildMapB vmask) (emapOf g vmask emask)
      (List.range vmask.length) (es0Of g vmask emask, ex0)).1
    (wireAllAux g vmask (buildMapB vmask) (emapOf g vmask emask)
      (List.range vmask.length) (es0Of g vmask emask, ex0)).2 rfl
  have hedges : h.edges = (wireAllAux g vmask (buildMapB vmask) (emapOf g vmask emask)
      (List.range vmask.length) (es0Of g vmask emask, ex0)).1 := by
    rw [hh_def, construct_subgraph_parts]
  have hexf : h.incident_edge_example_indices =
      (wireAllAux g vmask (buildMapB vmask) (emapOf g vmask emask)
        (List.range vmask.length) (es0Of g vmask emask, ex0)).2 := by
    rw [hh_def, construct_subgraph_parts]
  have hedgeslen : h.edges.length = (es0Of g vmask emask).length := by
    rw [hedges]
    exact c1
  have hedgeseps : ∀ j, endpoint1 h.edges j = endpoint1 (es0Of g vmask emask) j ∧
      endpoint2 h.edges j = endpoint2 (es0Of g vmask emask) j := by
    intro j
    rw [hedges]
    exact c2 j
  -- characterization for each kept vertex
  have hkeptchar : ∀ v, v < g.size → getN vmask v false = true →
      h.incList (nvOf vmask v) = SNof g vmask emask v ∧
      exampleAt h (nvOf vmask v) =
        (if SNof g vmask emask v = [] then -1
         else Int.ofNat (getN (SNof g vmask emask v) 0 0)) := by
    intro v hv hkept
    have hvmem : v ∈ List.range vmask.length := List.mem_range.mpr (by omega)
    obtain ⟨d1, d2, d3⟩ := c6 v hvmem hkept
    have hnvlt : nvOf vmask v < ex0.length := by
      rw [hex0len]
      exact nvOf_lt vmask v (by omega) hkept
    by_cases hSN : SNof g vmask emask v = []
    · have hexample : exampleAt h (nvOf vmask v) = -1 := by
        unfold exampleAt
        have hb : nvOf vmask v < (maskFilter g.vertex_costs vmask).length := by
          rw [maskFilter_length _ _ hcostlen]
          exact nvOf_lt vmask v (by omega) hkept
        rw [hexf, d3 hSN]
        exact getN_replicate _ _ _ _ hb
      refine ⟨?_, ?_⟩
      · rw [incList_of_neg h _ hexample, hSN]
      · rw [hexample, if_pos hSN]
    · have hexample : exampleAt h (nvOf vmask v) =
          Int.ofNat (getN (SNof g vmask emask v) 0 0) := by
        unfold exampleAt
        rw [hexf]
        exact d2 hSN
      refine ⟨?_, ?_⟩
      · refine incList_eq_of_wired h (nvOf vmask v) (SNof g vmask emask v) hSN
          (SNof_nodup g vmask emask v (hwf.2.2 v hv).1.1) ?_ ?_ hexample
        · show chainNext h.edges _ _
          rw [hedges]
          exact d1
        · intro x hx
          rw [hedgeslen, es0Of_length]
          exact SNof_sub_lt g vmask emask v x hx
      · rw [hexample, if_neg hSN]
  refine ⟨?_, hkeptchar, hedgeslen.trans (es0Of_length g vmask emask), hedgeseps⟩
  refine ⟨?_, ?_, ?_⟩
  · -- example array length
    rw [hexf, hh_def, construct_subgraph_parts]
    show _ = (maskFilter g.vertex_costs vmask).length
    rw [c3, hex0_def, List.length_replicate]
  · -- endpoints in range and distinct
    intro e2 he2
    rw [hedgeslen] at he2
    have hlt := es0Of_endpoints_lt g vmask emask hwf hvm e2 he2
    have hne := es0Of_endpoints_ne g vmask emask hwf hvm e2 he2
    rw [(hedgeseps e2).1, (hedgeseps e2).2, hsize]
    exact ⟨hlt.1, hlt.2, hne⟩
  · -- one valid rotation per new vertex
    intro nv hnv
    rw [hsize] at hnv
    have hnvtp : nv < (truePos vmask).length := by
      rw [truePos_length]
      exact hnv
    set v := getN (truePos vmask) nv 0 with hv_def
    have hvmem : v ∈ truePos vmask := getN_mem _ _ _ hnvtp
    have hvlt : v < vmask.length := ((truePos_mem vmask v).mp hvmem).1
    have hvkept : getN vmask v false = true := ((truePos_mem vmask v).mp hvmem).2
    have hnveq : nvOf vmask v = nv := by
      rw [nvOf_eq_count vmask v hvlt hvkept, hv_def]
      exact count_take_getN_truePos vmask nv hnvtp
    obtain ⟨hinc, hexample⟩ := hkeptchar v (by omega) hvkept
    rw [hnveq] at hinc hexample
    by_cases hSN : SNof g vmask emask v = []
    · rw [if_pos hSN] at hexample
      constructor
      · rw [hinc, hSN]
        refine ⟨List.nodup_nil, fun e he => absurd he (List.not_mem_nil e), ?_, ?_⟩
        · intro e helt hince
          exfalso
          rw [incidentIdx_transfer (es0Of g vmask emask) h.edges hedgeslen hedgeseps] at hince
          rw [← hnveq] at hince
          have := (incident_es0_iff g vmask emask hwf hvm v (by omega) hvkept e).mp hince
          rw [hSN] at this
          exact absurd this (List.not_mem_nil e)
        · intro i hi
          simp at hi
      · rw [hinc, hSN, hexample]
        exact ⟨fun _ => rfl, fun _ => rfl⟩
    · rw [if_neg hSN] at hexample
      constructor
      · rw [hinc]
        refine ⟨SNof_nodup g vmask emask v (hwf.2.2 v (by omega)).1.1, ?_, ?_, ?_⟩
        · intro e he
          rw [incidentIdx_transfer (es0Of g vmask emask) h.edges hedgeslen hedgeseps,
            ← hnveq]
          exact (incident_es0_iff g vmask emask hwf hvm v (by omega) hvkept e).mpr he
        · intro e helt hince
          rw [incidentIdx_transfer (es0Of g vmask emask) h.edges hedgeslen hedgeseps,
            ← hnveq] at hince
          exact (incident_es0_iff g vmask emask hwf hvm v (by omega) hvkept e).mp hince
        · have hvmem2 : v ∈ List.range vmask.length := List.mem_range.mpr hvlt
          obtain ⟨d1, _, _⟩ := c6 v hvmem2 hvkept
          show chainNext h.edges _ _
          rw [hedges, ← hnveq]
          exact d1
      · constructor
        · intro hc
          rw [hexample] at hc
          exact absurd hc (ofNat_ne_neg_one _)
        · intro hc
          rw [hinc] at hc
          exact absurd hc hSN

/-! ### clone_graph

Embedding of `clone_graph` (`planar_graph_constructor.py` lines 168-185):
`construct_subgraph` with all-true masks. -/

def clone_graph (g : PlanarGraph) : PlanarGraph :=
  (construct_subgraph g (List.replicate g.size true) (List.replicate g.edges_count true)).2.2

theorem getN_replicate_true (n i : ℕ) :
    getN (List.replicate n true) i false = true ↔ i < n := by
  constructor
  · intro h
    by_contra hc
    rw [getN_of_le _ _ _ (by simp; omega)] at h
    cases h
  · intro h
    exact getN_replicate n i true false h

theorem keepEdge_all_true (g : PlanarGraph) (hep : ∀ e < g.edges.length,
      endpoint1 g.edges e < g.size ∧ endpoint2 g.edges e < g.size)
    (e : ℕ) (he : e < g.edges.length) :
    keepEdge g (List.replicate g.size true) (List.replicate g.edges_count true) e = true := by
  unfold keepEdge
  simp only [Bool.and_eq_true]
  refine ⟨⟨?_, ?_⟩, ?_⟩
  · exact (getN_replicate_true _ _).mpr (hep e he).1
  · exact (getN_replicate_true _ _).mpr (hep e he).2
  · exact (getN_replicate_true _ _).mpr he

theorem kedges_all_true (g : PlanarGraph) (hep : ∀ e < g.edges.length,
      endpoint1 g.edges e < g.size ∧ endpoint2 g.edges e < g.size) :
    kedges g (List.replicate g.size true) (List.replicate g.edges_count true) =
      List.range g.edges.length := by
  unfold kedges
  refine List.filter_eq_self.mpr ?_
  intro e he
  exact keepEdge_all_true g hep e (List.mem_range.mp he)

theorem count_take_replicate_true (n u : ℕ) (hu : u ≤ n) :
    ((List.replicate n true).take u).count true = u := by
  rw [List.take_replicate]
  have : min u n = u := by omega
  rw [this, List.count_replicate_self]

theorem nvOf_replicate_true (n u : ℕ) (hu : u < n) :
    nvOf (List.replicate n true) u = u := by
  rw [nvOf_eq_count _ _ (by simpa using hu) ((getN_replicate_true _ _).mpr hu)]
  exact count_take_replicate_true n u (by omega)

theorem maskFilter_all_true (xs : List α) :
    maskFilter xs (List.replicate xs.length true) = xs := by
  induction xs with
  | nil => rfl
  | cons x rest ih =>
    rw [List.length_cons, List.replicate_succ, maskFilter_cons, if_pos rfl, ih]

/-- `clone_graph` preserves costs, sizes and the endpoint pairs of every
edge index. -/
theorem clone_graph_parts (g : PlanarGraph) (hwf : WF g) :
    (clone_graph g).vertex_costs = g.vertex_costs ∧
    (clone_graph g).size = g.size ∧
    (clone_graph g).edges.length = g.edges.length ∧
    (∀ e < g.edges.length,
      endpoint1 (clone_graph g).edges e = endpoint1 g.edges e ∧
      endpoint2 (clone_graph g).edges e = endpoint2 g.edges e) := by
  have hep : ∀ e < g.edges.length,
      endpoint1 g.edges e < g.size ∧ endpoint2 g.edges e < g.size :=
    fun e he => ⟨(hwf.2.1 e he).1, (hwf.2.1 e he).2.1⟩
  have hcosts : (clone_graph g).vertex_costs = g.vertex_costs := by
    show maskFilter g.vertex_costs (List.replicate g.size true) = g.vertex_costs
    have : g.size = g.vertex_costs.length := rfl
    rw [this, maskFilter_all_true]
  have hvm : (List.replicate g.size true).length = g.size := by simp
  obtain ⟨chwf, _, hcnt, heps⟩ :=
    construct_subgraph_main g (List.replicate g.size true)
      (List.replicate g.edges_count true) hwf hvm
  have hlen : (clone_graph g).edges.length = g.edges.length := by
    show (construct_subgraph g _ _).2.2.edges.length = _
    rw [hcnt, kedges_all_true g hep, List.length_range]
  refine ⟨hcosts, by rw [PlanarGraph.size, hcosts]; rfl, hlen, ?_⟩
  intro e he
  have hke : e < (kedges g (List.replicate g.size true)
      (List.replicate g.edges_count true)).length := by
    rw [kedges_all_true g hep, List.length_range]
    exact he
  have hes0 := es0Of_endpoints g (List.replicate g.size true)
    (List.replicate g.edges_count true) e hke
  have hkidx : getN (kedges g (List.replicate g.size true)
      (List.replicate g.edges_count true)) e 0 = e := by
    rw [kedges_all_true g hep]
    exact getN_range _ _ _ he
  constructor
  · rw [show endpoint1 (clone_graph g).edges e = endpoint1 (construct_subgraph g
        (List.replicate g.size true) (List.replicate g.edges_count true)).2.2.edges e from rfl,
      (heps e).1, hes0.1, hkidx]
    show nvOf (List.replicate g.size true) (endpoint1 g.edges e) = _
    exact nvOf_replicate_true _ _ (hep e he).1
  · rw [show endpoint2 (clone_graph g).edges e = endpoint2 (construct_subgraph g
        (List.replicate g.size true) (List.replicate g.edges_count true)).2.2.edges e from rfl,
      (heps e).2, hes0.2, hkidx]
    show nvOf (List.replicate g.size true) (endpoint2 g.edges e) = _
    exact nvOf_replicate_true _ _ (hep e he).2

/-! ### construct_from_ordered_adjacencies

Embedding of `_create_edges_and_map_adjacencies` and
`_construct_from_ordered_adjacencies` (`planar_graph_constructor.py`
lines 187-238).  The Python dictionary keyed by ordered vertex pairs is
modelled as an association list searched front-to-back. -/

abbrev AdjDict := List ((ℕ × ℕ) × ℕ)

def lookupP (d : AdjDict) (k : ℕ × ℕ) : Option ℕ :=
  (d.find? (fun p => p.1 = k)).map Prod.snd

def lookupN (d : AdjDict) (k : ℕ × ℕ) : ℕ := (lookupP d k).getD 0

def enumFrom (v : ℕ) : List (List ℕ) → List (ℕ × List ℕ)
  | [] => []
  | l :: rest => (v, l) :: enumFrom (v + 1) rest

/-- Inner loop of `_create_edges_and_map_adjacencies`: register the unordered
pair under both directions at the first encounter. -/
def cemVertex (v : ℕ) : List ℕ → EdgeStore × AdjDict → EdgeStore × AdjDict
  | [], st => st
  | w :: rest, st =>
      cemVertex v rest
        (if (lookupP st.2 (v, w)).isSome then st
         else (appendEdge st.1 v w, ((v, w), st.1.length) :: ((w, v), st.1.length) :: st.2))

def cemAll : List (ℕ × List ℕ) → EdgeStore × AdjDict → EdgeStore × AdjDict
  | [], st => st
  | (v, l) :: rest, st => cemAll rest (cemVertex v l st)

/-- Apply a sequence of `set_next_edge` writes at vertex `v`. -/
def writeNextList (v : ℕ) : List (ℕ × ℕ) → EdgeStore → EdgeStore
  | [], es => es
  | (e, n) :: rest, es => writeNextList v rest (setNextEdge es e v n)

/-- The per-vertex wiring loop of `_construct_from_ordered_adjacencies`
(lines 225-236): link consecutive adjacency edges cyclically. -/
def wireAdjVertex (d : AdjDict) (v : ℕ) (l : List ℕ) (es : EdgeStore) : EdgeStore :=
  writeNextList v ((List.range l.length).map (fun j =>
    (lookupN d (v, getN l j 0), lookupN d (v, getN l ((j + 1) % l.length) 0)))) es

def adjWireAll (d : AdjDict) : List (ℕ × List ℕ) → EdgeStore × List ℤ → EdgeStore × List ℤ
  | [], st => st
  | (v, l) :: rest, st =>
      adjWireAll d rest
        (if l.length ≠ 0 then
          (wireAdjVertex d v l st.1, setN st.2 v (Int.ofNat (lookupN d (v, getN l 0 0))))
         else st)

def construct_from_ordered_adjacencies (adjs : List (List ℕ)) : PlanarGraph :=
  let n := adjs.length
  let costs := List.replicate n ((1 : ℚ) / (n : ℚ))
  let st := cemAll (enumFrom 0 adjs) ([], [])
  let wired := adjWireAll st.2 (enumFrom 0 adjs) (st.1, List.replicate n (-1 : ℤ))
  ⟨costs, wired.2, wired.1⟩

/-- Valid input (spec §4.2): per-vertex lists are duplicate-free, entries are
in-range distinct vertices, and adjacency is symmetric. -/
def ValidAdj (adjs : List (List ℕ)) : Prop :=
  (∀ l ∈ adjs, l.Nodup) ∧
  (∀ v < adjs.length, ∀ w ∈ getN adjs v [], w < adjs.length ∧ w ≠ v ∧ v ∈ getN adjs w [])

instance (adjs : List (List ℕ)) : Decidable (ValidAdj adjs) := by
  unfold ValidAdj; infer_instance

theorem lookupP_cons (k0 : ℕ × ℕ) (i0 : ℕ) (d : AdjDict) (k : ℕ × ℕ) :
    lookupP ((k0, i0) :: d) k = if k0 = k then some i0 else lookupP d k := by
  unfold lookupP
  by_cases h : k0 = k
  · rw [List.find?_cons_of_pos _ (by simpa using h), if_pos h]
    rfl
  · rw [List.find?_cons_of_neg _ (by simpa using h), if_neg h]

theorem lookupP_insert2 (v w L : ℕ) (d : AdjDict) (k : ℕ × ℕ) :
    lookupP (((v, w), L) :: ((w, v), L) :: d) k =
      if k = (v, w) ∨ k = (w, v) then some L else lookupP d k := by
  rw [lookupP_cons, lookupP_cons]
  by_cases h1 : k = (v, w)
  · rw [if_pos h1.symm, if_pos (Or.inl h1)]
  · rw [if_neg (fun hc => h1 hc.symm)]
    by_cases h2 : k = (w, v)
    · rw [if_pos h2.symm, if_pos (Or.inr h2)]
    · rw [if_neg (fun hc => h2 hc.symm), if_neg (fun hor => Or.elim hor h1 h2)]

/-- Invariant of the pair-registration loop: every dictionary value indexes
an edge carrying its key's endpoints, lookups are direction-symmetric, every
edge is registered under its endpoints, and every edge realizes a listed
adjacency. -/
def DictInv (adjs : List (List ℕ)) (es : EdgeStore) (d : AdjDict) : Prop :=
  (∀ k i, lookupP d k = some i → i < es.length ∧
     ((endpoint1 es i = k.1 ∧ endpoint2 es i = k.2) ∨
      (endpoint1 es i = k.2 ∧ endpoint2 es i = k.1))) ∧
  (∀ a b, lookupP d (a, b) = lookupP d (b, a)) ∧
  (∀ i < es.length, lookupP d (endpoint1 es i, endpoint2 es i) = some i) ∧
  (∀ i < es.length, endpoint2 es i ∈ getN adjs (endpoint1 es i) [])

theorem cemStep_inv (adjs : List (List ℕ)) (es : EdgeStore) (d : AdjDict) (v w : ℕ)
    (hinv : DictInv adjs es d) (hw : w ∈ getN adjs v [])
    (habs : ¬ (lookupP d (v, w)).isSome) :
    DictInv adjs (appendEdge es v w) (((v, w), es.length) :: ((w, v), es.length) :: d) ∧
    (∀ k i, lookupP d k = some i →
      lookupP (((v, w), es.length) :: ((w, v), es.length) :: d) k = some i) ∧
    lookupP (((v, w), es.length) :: ((w, v), es.length) :: d) (v, w) = some es.length := by
  obtain ⟨ha, hb, hc, hd⟩ := hinv
  have hnone : lookupP d (v, w) = none := by
    cases hcase : lookupP d (v, w) with
    | none => rfl
    | some i => rw [hcase] at habs; simp at habs
  have hnone2 : lookupP d (w, v) = none := by
    rw [← hb]
    exact hnone
  have hmono : ∀ k i, lookupP d k = some i →
      lookupP (((v, w), es.length) :: ((w, v), es.length) :: d) k = some i := by
    intro k i hk
    rw [lookupP_insert2]
    rw [if_neg]
    · exact hk
    · rintro (hkc | hkc) <;> rw [hkc] at hk
      · rw [hnone] at hk; cases hk
      · rw [hnone2] at hk; cases hk
  have heplast := getN_appendEdge_last es v w
  have hep1last : endpoint1 (appendEdge es v w) es.length = v := by
    unfold endpoint1
    rw [heplast]
  have hep2last : endpoint2 (appendEdge es v w) es.length = w := by
    unfold endpoint2
    rw [heplast]
  refine ⟨⟨?_, ?_, ?_, ?_⟩, hmono, ?_⟩
  · intro k i hk
    rw [lookupP_insert2] at hk
    by_cases hkc : k = (v, w) ∨ k = (w, v)
    · rw [if_pos hkc] at hk
      cases hk
      refine ⟨by simp, ?_⟩
      rcases hkc with hkc | hkc <;> rw [hkc]
      · left
        exact ⟨hep1last, hep2last⟩
      · right
        exact ⟨hep1last, hep2last⟩
    · rw [if_neg hkc] at hk
      obtain ⟨hilen, hep⟩ := ha k i hk
      refine ⟨by simp; omega, ?_⟩
      rw [(endpoints_appendEdge es v w i hilen).1, (endpoints_appendEdge es v w i hilen).2]
      exact hep
  · intro a b
    rw [lookupP_insert2, lookupP_insert2]
    by_cases h1 : (a, b) = (v, w) ∨ (a, b) = (w, v)
    · rw [if_pos h1, if_pos (by
        rcases h1 with h | h
        · right
          rw [Prod.mk.injEq] at h ⊢
          exact ⟨h.2, h.1⟩
        · left
          rw [Prod.mk.injEq] at h ⊢
          exact ⟨h.2, h.1⟩)]
    · rw [if_neg h1, if_neg (by
        rintro (h | h) <;> refine h1 ?_
        · right
          rw [Prod.mk.injEq] at h ⊢
          exact ⟨h.2, h.1⟩
        · left
          rw [Prod.mk.injEq] at h ⊢
          exact ⟨h.2, h.1⟩)]
      exact hb a b
  · intro i hi
    rw [length_appendEdge] at hi
    by_cases hlast : i = es.length
    · subst hlast
      rw [hep1last, hep2last, lookupP_insert2, if_pos (Or.inl rfl)]
    · have hilen : i < es.length := by omega
      rw [(endpoints_appendEdge es v w i hilen).1, (endpoints_appendEdge es v w i hilen).2]
      exact hmono _ _ (hc i hilen)
  · intro i hi
    rw [length_appendEdge] at hi
    by_cases hlast : i = es.length
    · subst hlast
      rw [hep1last, hep2last]
      exact hw
    · have hilen : i < es.length := by omega
      rw [(endpoints_appendEdge es v w i hilen).1, (endpoints_appendEdge es v w i hilen).2]
      exact hd i hilen
  · rw [lookupP_insert2, if_pos (Or.inl rfl)]

theorem cemVertex_inv (adjs : List (List ℕ)) (v : ℕ) (l : List ℕ)
    (hl : ∀ w ∈ l, w ∈ getN adjs v []) (es : EdgeStore) (d : AdjDict)
    (hinv : DictInv adjs es d) :
    DictInv adjs (cemVertex v l (es, d)).1 (cemVertex v l (es, d)).2 ∧
    (∀ k i, lookupP d k = some i → lookupP (cemVertex v l (es, d)).2 k = some i) ∧
    (∀ w ∈ l, (lookupP (cemVertex v l (es, d)).2 (v, w)).isSome) := by
  induction l generalizing es d with
  | nil => exact ⟨hinv, fun k i h => h, fun w hw => absurd hw (List.not_mem_nil w)⟩
  | cons w rest ih =>
    rw [cemVertex]
    by_cases hs : (lookupP d (v, w)).isSome
    · rw [if_pos hs]
      obtain ⟨j1, j2, j3⟩ := ih (fun x hx => hl x (List.mem_cons_of_mem _ hx)) es d hinv
      refine ⟨j1, j2, ?_⟩
      intro x hx
      rcases List.mem_cons.mp hx with hxw | hxr
      · subst hxw
        cases hcase : lookupP d (v, x) with
        | none => rw [hcase] at hs; simp at hs
        | some i =>
          rw [j2 _ _ hcase]
          rfl
      · exact j3 x hxr
    · rw [if_neg hs]
      obtain ⟨k1, k2, k3⟩ := cemStep_inv adjs es d v w hinv (hl w (List.mem_cons_self _ _)) hs
      obtain ⟨j1, j2, j3⟩ := ih (fun x hx => hl x (List.mem_cons_of_mem _ hx)) _ _ k1
      refine ⟨j1, fun k i h => j2 k i (k2 k i h), ?_⟩
      intro x hx
      rcases List.mem_cons.mp hx with hxw | hxr
      · subst hxw
        rw [j2 _ _ k3]
        rfl
      · exact j3 x hxr

theorem cemAll_inv (adjs : List (List ℕ)) (L : List (ℕ × List ℕ))
    (hL : ∀ p ∈ L, ∀ w ∈ p.2, w ∈ getN adjs p.1 []) (es : EdgeStore) (d : AdjDict)
    (hinv : DictInv adjs es d) :
    DictInv adjs (cemAll L (es, d)).1 (cemAll L (es, d)).2 ∧
    (∀ k i, lookupP d k = some i → lookupP (cemAll L (es, d)).2 k = some i) ∧
    (∀ p ∈ L, ∀ w ∈ p.2, (lookupP (cemAll L (es, d)).2 (p.1, w)).isSome) := by
  induction L generalizing es d with
  | nil => exact ⟨hinv, fun k i h => h, fun p hp => absurd hp (List.not_mem_nil p)⟩
  | cons p rest ih =>
    obtain ⟨v, l⟩ := p
    rw [cemAll]
    obtain ⟨j1, j2, j3⟩ := cemVertex_inv adjs v l
      (fun w hw => hL (v, l) (List.mem_cons_self _ _) w hw) es d hinv
    have hpair : cemVertex v l (es, d) =
        ((cemVertex v l (es, d)).1, (cemVertex v l (es, d)).2) := rfl
    rw [hpair]
    obtain ⟨m1, m2, m3⟩ := ih (fun q hq => hL q (List.mem_cons_of_mem _ hq)) _ _ j1
    refine ⟨m1, fun k i h => m2 k i (j2 k i h), ?_⟩
    intro q hq w hw
    rcases List.mem_cons.mp hq with hqp | hqr
    · have hq1 : q.1 = v := by rw [hqp]
      have hq2 : q.2 = l := by rw [hqp]
      rw [hq2] at hw
      rw [hq1]
      have := j3 w hw
      cases hcase : lookupP (cemVertex v l (es, d)).2 (v, w) with
      | none => rw [hcase] at this; simp at this
      | some i =>
        rw [m2 _ _ hcase]
        rfl
    · exact m3 q hqr w hw

theorem getNextAt_setNextEdge_ne (es : EdgeStore) (e v n q u : ℕ) (h : q ≠ e) :
    getNextAt (setNextEdge es e v n) q u = getNextAt es q u := by
  unfold getNextAt setNextEdge
  rw [getNext_modifyEdge_setPrev, getN_modifyEdge, if_neg (fun hc => h hc.1)]

@[simp] theorem length_writeNextList (v : ℕ) (ps : List (ℕ × ℕ)) (es : EdgeStore) :
    (writeNextList v ps es).length = es.length := by
  induction ps generalizing es with
  | nil => rfl
  | cons p rest ih =>
    obtain ⟨e, n⟩ := p
    rw [writeNextList, ih]
    simp

theorem endpoints_writeNextList (v : ℕ) (ps : List (ℕ × ℕ)) (es : EdgeStore) (j : ℕ) :
    endpoint1 (writeNextList v ps es) j = endpoint1 es j ∧
    endpoint2 (writeNextList v ps es) j = endpoint2 es j := by
  induction ps generalizing es with
  | nil => exact ⟨rfl, rfl⟩
  | cons p rest ih =>
    obtain ⟨e, n⟩ := p
    rw [writeNextList]
    have h1 := ih (setNextEdge es e v n)
    have h2 := endpoints_setNextEdge es e v n j
    exact ⟨h1.1.trans h2.1, h1.2.trans h2.2⟩

theorem getNextAt_writeNextList_frame (v : ℕ) (ps : List (ℕ × ℕ)) (es : EdgeStore)
    (q u : ℕ) (hq : ∀ p ∈ ps, q ≠ p.1) :
    getNextAt (writeNextList v ps es) q u = getNextAt es q u := by
  induction ps generalizing es with
  | nil => rfl
  | cons p rest ih =>
    obtain ⟨e, n⟩ := p
    rw [writeNextList, ih _ (fun p2 hp2 => hq p2 (List.mem_cons_of_mem _ hp2))]
    exact getNextAt_setNextEdge_ne es e v n q u (hq (e, n) (List.mem_cons_self _ _))

theorem getNextAt_writeNextList_side (v : ℕ) (ps : List (ℕ × ℕ)) (es : EdgeStore)
    (q u : ℕ) (hb : ∀ p ∈ ps, p.1 < es.length)
    (hside : ¬ (u = endpoint1 es q ↔ v = endpoint1 es q)) :
    getNextAt (writeNextList v ps es) q u = getNextAt es q u := by
  induction ps generalizing es with
  | nil => rfl
  | cons p rest ih =>
    obtain ⟨e, n⟩ := p
    rw [writeNextList]
    have he : e < es.length := hb (e, n) (List.mem_cons_self _ _)
    have hstep : getNextAt (setNextEdge es e v n) q u = getNextAt es q u := by
      rw [getNextAt_setNextEdge es e v n q u he, if_neg]
      intro hc
      exact hside (hc.1 ▸ hc.2)
    have heq : endpoint1 (setNextEdge es e v n) q = endpoint1 es q :=
      (endpoints_setNextEdge es e v n q).1
    rw [ih (setNextEdge es e v n) (fun p2 hp2 => by
        rw [length_setNextEdge]
        exact hb p2 (List.mem_cons_of_mem _ hp2))
      (by rw [heq]; exact hside)]
    exact hstep

theorem getNextAt_writeNextList_wired (v : ℕ) (ps : List (ℕ × ℕ)) (es : EdgeStore)
    (hnd : (ps.map Prod.fst).Nodup) (hb : ∀ p ∈ ps, p.1 < es.length) :
    ∀ p ∈ ps, getNextAt (writeNextList v ps es) p.1 v = p.2 := by
  induction ps generalizing es with
  | nil => intro p hp; exact absurd hp (List.not_mem_nil p)
  | cons p0 rest ih =>
    obtain ⟨e, n⟩ := p0
    intro p hp
    rw [writeNextList]
    rcases List.mem_cons.mp hp with hpe | hpr
    · subst hpe
      have hnotin : ∀ p2 ∈ rest, (e : ℕ) ≠ p2.1 := by
        intro p2 hp2 hc
        have : (e : ℕ) ∈ rest.map Prod.fst := by
          rw [hc]
          exact List.mem_map_of_mem _ hp2
        exact (List.nodup_cons.mp (by simpa using hnd)).1 this
      rw [getNextAt_writeNextList_frame v rest _ e v hnotin]
      rw [getNextAt_setNextEdge es e v n e v (hb (e, n) (List.mem_cons_self _ _))]
      rw [if_pos ⟨rfl, Iff.rfl⟩]
    · refine ih (setNextEdge es e v n) (List.nodup_cons.mp (by simpa using hnd)).2
        (fun p2 hp2 => by
          rw [length_setNextEdge]
          exact hb p2 (List.mem_cons_of_mem _ hp2)) p hpr

/-- The cyclic incidence list built by the per-vertex wiring loop. -/
def cycListOf (d : AdjDict) (v : ℕ) (l : List ℕ) : List ℕ :=
  (List.range l.length).map (fun j => lookupN d (v, getN l j 0))

@[simp] theorem length_cycListOf (d : AdjDict) (v : ℕ) (l : List ℕ) :
    (cycListOf d v l).length = l.length := by
  unfold cycListOf
  simp

theorem getN_cycListOf (d : AdjDict) (v : ℕ) (l : List ℕ) (j : ℕ) (hj : j < l.length) :
    getN (cycListOf d v l) j 0 = lookupN d (v, getN l j 0) := by
  unfold cycListOf
  rw [getN_eq_getElem _ _ _ (by simpa using hj)]
  simp

theorem wireAdjVertex_chain (d : AdjDict) (v : ℕ) (l : List ℕ) (es : EdgeStore)
    (hnd : (cycListOf d v l).Nodup) (hb : ∀ x ∈ cycListOf d v l, x < es.length) :
    chainNext (wireAdjVertex d v l es) v (cycListOf d v l) := by
  intro i hi
  rw [length_cycListOf] at hi
  unfold wireAdjVertex
  set ps := (List.range l.length).map (fun j =>
    (lookupN d (v, getN l j 0), lookupN d (v, getN l ((j + 1) % l.length) 0))) with hps_def
  have hfst : ps.map Prod.fst = cycListOf d v l := by
    rw [hps_def]
    unfold cycListOf
    rw [List.map_map]
    rfl
  have hmem : (lookupN d (v, getN l i 0), lookupN d (v, getN l ((i + 1) % l.length) 0)) ∈ ps := by
    rw [hps_def]
    exact List.mem_map_of_mem _ (List.mem_range.mpr hi)
  have hw := getNextAt_writeNextList_wired v ps es (by rw [hfst]; exact hnd)
    (fun p hp => by
      refine hb p.1 ?_
      rw [← hfst]
      exact List.mem_map_of_mem _ hp) _ hmem
  rw [getN_cycListOf _ _ _ i hi, length_cycListOf,
    getN_cycListOf _ _ _ _ (Nat.mod_lt _ (by omega))]
  exact hw

theorem wireAdjVertex_frame (d : AdjDict) (v : ℕ) (l : List ℕ) (es : EdgeStore) (q u : ℕ)
    (hq : q ∉ cycListOf d v l) :
    getNextAt (wireAdjVertex d v l es) q u = getNextAt es q u := by
  unfold wireAdjVertex
  refine getNextAt_writeNextList_frame v _ es q u ?_
  intro p hp hc
  obtain ⟨j, hj, hpj⟩ := List.mem_map.mp hp
  refine hq ?_
  rw [hc, ← hpj]
  unfold cycListOf
  exact List.mem_map_of_mem _ hj

theorem wireAdjVertex_side (d : AdjDict) (v : ℕ) (l : List ℕ) (es : EdgeStore) (q u : ℕ)
    (hb : ∀ x ∈ cycListOf d v l, x < es.length)
    (hside : ¬ (u = endpoint1 es q ↔ v = endpoint1 es q)) :
    getNextAt (wireAdjVertex d v l es) q u = getNextAt es q u := by
  unfold wireAdjVertex
  refine getNextAt_writeNextList_side v _ es q u ?_ hside
  intro p hp
  obtain ⟨j, hj, hpj⟩ := List.mem_map.mp hp
  refine hb p.1 ?_
  rw [← hpj]
  unfold cycListOf
  exact List.mem_map_of_mem _ hj

@[simp] theorem length_wireAdjVertex (d : AdjDict) (v : ℕ) (l : List ℕ) (es : EdgeStore) :
    (wireAdjVertex d v l es).length = es.length := by
  unfold wireAdjVertex
  simp

theorem endpoints_wireAdjVertex (d : AdjDict) (v : ℕ) (l : List ℕ) (es : EdgeStore) (j : ℕ) :
    endpoint1 (wireAdjVertex d v l es) j = endpoint1 es j ∧
    endpoint2 (wireAdjVertex d v l es) j = endpoint2 es j := by
  unfold wireAdjVertex
  exact endpoints_writeNextList v _ es j

/-- Master lemma for the adjacency wiring loop: each listed vertex's cycle
is wired as `next` links in list order, the example edge is recorded, all
other slots are untouched. -/
theorem adjWireAll_spec (d : AdjDict) (ES0 : EdgeStore) (L : List (ℕ × List ℕ))
    (es : EdgeStore) (ex : List ℤ)
    (hlen : es.length = ES0.length)
    (heps : ∀ j, endpoint1 es j = endpoint1 ES0 j ∧ endpoint2 es j = endpoint2 ES0 j)
    (hnd : ∀ p ∈ L, (cycListOf d p.1 p.2).Nodup)
    (hbnd : ∀ p ∈ L, ∀ x ∈ cycListOf d p.1 p.2, x < ES0.length)
    (hLfst : (L.map Prod.fst).Nodup)
    (hdisj : ∀ p ∈ L, ∀ p2 ∈ L, p.1 ≠ p2.1 → ∀ q, q ∈ cycListOf d p.1 p.2 →
       q ∈ cycListOf d p2.1 p2.2 →
       ¬ (p.1 = endpoint1 ES0 q ↔ p2.1 = endpoint1 ES0 q))
    (resEs : EdgeStore) (resEx : List ℤ)
    (hres : adjWireAll d L (es, ex) = (resEs, resEx)) :
    resEs.length = es.length ∧
    (∀ j, endpoint1 resEs j = endpoint1 es j ∧ endpoint2 resEs j = endpoint2 es j) ∧
    resEx.length = ex.length ∧
    (∀ q u, (∀ p ∈ L, ¬ (q ∈ cycListOf d p.1 p.2 ∧
        (u = endpoint1 ES0 q ↔ p.1 = endpoint1 ES0 q))) →
      getNextAt resEs q u = getNextAt es q u) ∧
    (∀ j, (∀ p ∈ L, p.1 ≠ j) → getN resEx j (-1) = getN ex j (-1)) ∧
    (∀ p ∈ L, chainNext resEs p.1 (cycListOf d p.1 p.2) ∧
       (p.2 ≠ [] → p.1 < ex.length →
         getN resEx p.1 (-1) = Int.ofNat (lookupN d (p.1, getN p.2 0 0))) ∧
       (p.2 = [] → getN resEx p.1 (-1) = getN ex p.1 (-1))) := by
  induction L generalizing es ex with
  | nil =>
    rw [adjWireAll] at hres
    cases hres
    refine ⟨rfl, fun j => ⟨rfl, rfl⟩, rfl, fun q u _ => rfl, fun j _ => rfl, ?_⟩
    intro p hp
    exact absurd hp (List.not_mem_nil p)
  | cons p0 rest ih =>
    obtain ⟨v, l⟩ := p0
    have hvrest : ∀ p2 ∈ rest, v ≠ p2.1 := by
      intro p2 hp2 hc
      have : v ∈ rest.map Prod.fst := by
        rw [hc]
        exact List.mem_map_of_mem _ hp2
      exact (List.nodup_cons.mp (by simpa using hLfst)).1 this
    have hrestnd : ∀ p ∈ rest, (cycListOf d p.1 p.2).Nodup :=
      fun p hp => hnd p (List.mem_cons_of_mem _ hp)
    have hrestbnd : ∀ p ∈ rest, ∀ x ∈ cycListOf d p.1 p.2, x < ES0.length :=
      fun p hp => hbnd p (List.mem_cons_of_mem _ hp)
    have hrestfst : (rest.map Prod.fst).Nodup :=
      (List.nodup_cons.mp (by simpa using hLfst)).2
    have hrestdisj : ∀ p ∈ rest, ∀ p2 ∈ rest, p.1 ≠ p2.1 → ∀ q,
        q ∈ cycListOf d p.1 p.2 → q ∈ cycListOf d p2.1 p2.2 →
        ¬ (p.1 = endpoint1 ES0 q ↔ p2.1 = endpoint1 ES0 q) :=
      fun p hp p2 hp2 => hdisj p (List.mem_cons_of_mem _ hp) p2 (List.mem_cons_of_mem _ hp2)
    rw [adjWireAll] at hres
    by_cases hl : l.length ≠ 0
    · rw [if_pos hl] at hres
      set esW := wireAdjVertex d v l es with hesW_def
      set exW := setN ex v (Int.ofNat (lookupN d (v, getN l 0 0))) with hexW_def
      have hlenW : esW.length = ES0.length := by
        rw [hesW_def, length_wireAdjVertex, hlen]
      have hepsW : ∀ j, endpoint1 esW j = endpoint1 ES0 j ∧
          endpoint2 esW j = endpoint2 ES0 j := by
        intro j
        have h1 := endpoints_wireAdjVertex d v l es j
        exact ⟨h1.1.trans (heps j).1, h1.2.trans (heps j).2⟩
      obtain ⟨c1, c2, c3, c4, c5, c6⟩ := ih esW exW hlenW hepsW hrestnd hrestbnd
        hrestfst hrestdisj hres
      have hvbnd : ∀ x ∈ cycListOf d v l, x < es.length := by
        intro x hx
        rw [hlen]
        exact hbnd (v, l) (List.mem_cons_self _ _) x hx
      have hwire_frame : ∀ q u,
          ¬ (q ∈ cycListOf d v l ∧
            (u = endpoint1 ES0 q ↔ v = endpoint1 ES0 q)) →
          getNextAt esW q u = getNextAt es q u := by
        intro q u hq
        rw [hesW_def]
        by_cases hqS : q ∈ cycListOf d v l
        · refine wireAdjVertex_side d v l es q u hvbnd ?_
          intro hc
          rw [(heps q).1] at hc
          exact hq ⟨hqS, hc⟩
        · exact wireAdjVertex_frame d v l es q u hqS
      refine ⟨c1.trans (by rw [hesW_def, length_wireAdjVertex]), ?_, ?_, ?_, ?_, ?_⟩
      · intro j
        have h1 := c2 j
        have h2 := endpoints_wireAdjVertex d v l es j
        rw [hesW_def] at h1
        exact ⟨h1.1.trans h2.1, h1.2.trans h2.2⟩
      · rw [c3, hexW_def, length_setN]
      · intro q u hq
        rw [c4 q u (fun p2 hp2 => hq p2 (List.mem_cons_of_mem _ hp2))]
        exact hwire_frame q u (hq (v, l) (List.mem_cons_self _ _))
      · intro j hj
        rw [c5 j (fun p2 hp2 => hj p2 (List.mem_cons_of_mem _ hp2))]
        rw [hexW_def]
        exact getN_setN_ne ex v j _ (-1) (fun hc =>
          hj (v, l) (List.mem_cons_self _ _) hc.symm)
      · intro p hp
        rcases List.mem_cons.mp hp with hpv | hpr
        · have hp1 : p.1 = v := by rw [hpv]
          have hp2 : p.2 = l := by rw [hpv]
          rw [hp1, hp2]
          refine ⟨?_, ?_, ?_⟩
          · intro i hi
            have hqmem : getN (cycListOf d v l) i 0 ∈ cycListOf d v l :=
              getN_mem _ _ _ hi
            rw [c4 _ v (fun p2 hp2c hc =>
              hdisj (v, l) (List.mem_cons_self _ _) p2 (List.mem_cons_of_mem _ hp2c)
                (hvrest p2 hp2c) _ hqmem hc.1 hc.2)]
            rw [hesW_def]
            exact wireAdjVertex_chain d v l es (hnd (v, l) (List.mem_cons_self _ _))
              hvbnd i hi
          · intro hlne hvex
            rw [c5 v (fun p2 hp2c => (hvrest p2 hp2c).symm)]
            rw [hexW_def]
            exact getN_setN_eq ex v _ (-1) hvex
          · intro hlnil
            rw [hlnil] at hl
            simp at hl
        · obtain ⟨d1, d2, d3⟩ := c6 p hpr
          refine ⟨d1, ?_, ?_⟩
          · intro hne hplt
            exact d2 hne (by rw [hexW_def, length_setN]; exact hplt)
          · intro hnil
            rw [d3 hnil, hexW_def]
            exact getN_setN_ne ex v _ _ (-1) (Ne.symm (hvrest p hpr))
    · rw [if_neg hl] at hres
      obtain ⟨c1, c2, c3, c4, c5, c6⟩ := ih es ex hlen heps hrestnd hrestbnd
        hrestfst hrestdisj hres
      have hlnil : l = [] := by
        by_contra hc
        refine hl ?_
        have := List.length_pos.mpr hc
        omega
      refine ⟨c1, c2, c3, ?_, ?_, ?_⟩
      · intro q u hq
        exact c4 q u (fun p2 hp2 => hq p2 (List.mem_cons_of_mem _ hp2))
      · intro j hj
        exact c5 j (fun p2 hp2 => hj p2 (List.mem_cons_of_mem _ hp2))
      · intro p hp
        rcases List.mem_cons.mp hp with hpv | hpr
        · have hp1 : p.1 = v := by rw [hpv]
          have hp2 : p.2 = l := by rw [hpv]
          refine ⟨?_, ?_, ?_⟩
          · rw [hp1, hp2, hlnil]
            intro i hi
            simp at hi
          · intro hne
            rw [hp2, hlnil] at hne
            exact absurd rfl hne
          · intro _
            refine c5 p.1 (fun p2 hp2c => ?_)
            rw [hp1]
            exact (hvrest p2 hp2c).symm
        · exact c6 p hpr

theorem nodup_of_getN_inj (l : List ℕ)
    (h : ∀ i j, i < l.length → j < l.length → getN l i 0 = getN l j 0 → i = j) :
    l.Nodup := by
  rw [List.nodup_iff_injective_get]
  intro i j hij
  have := h i.1 j.1 i.2 j.2 (by
    rw [getN_eq_getElem _ _ _ i.2, getN_eq_getElem _ _ _ j.2]
    simpa [List.get_eq_getElem] using hij)
  exact Fin.ext this

theorem mem_exists_getN (l : List ℕ) (x : ℕ) (hx : x ∈ l) :
    ∃ i, i < l.length ∧ getN l i 0 = x := by
  obtain ⟨i, hi⟩ := List.get_of_mem hx
  exact ⟨i.1, i.2, by rw [getN_eq_getElem _ _ _ i.2]; simpa [List.get_eq_getElem] using hi⟩

theorem enumFrom_mem_iff (adjs : List (List ℕ)) (k v : ℕ) (l : List ℕ) :
    (v, l) ∈ enumFrom k adjs ↔ k ≤ v ∧ v - k < adjs.length ∧ l = getN adjs (v - k) [] := by
  induction adjs generalizing k with
  | nil => simp [enumFrom]
  | cons a rest ih =>
    rw [enumFrom, List.mem_cons, ih (k + 1)]
    constructor
    · rintro (h | ⟨h1, h2, h3⟩)
      · rw [Prod.mk.injEq] at h
        refine ⟨by omega, by simp; omega, ?_⟩
        rw [← h.1, Nat.sub_self, getN_cons_zero]
        exact h.2
      · refine ⟨by omega, by simp; omega, ?_⟩
        have : v - k = (v - (k + 1)) + 1 := by omega
        rw [this, getN_cons_succ]
        exact h3
    · rintro ⟨h1, h2, h3⟩
      by_cases hvk : v = k
      · left
        rw [Prod.mk.injEq]
        refine ⟨hvk, ?_⟩
        rw [hvk, Nat.sub_self, getN_cons_zero] at h3
        exact h3
      · right
        refine ⟨by omega, by simp at h2; omega, ?_⟩
        have : v - k = (v - (k + 1)) + 1 := by omega
        rw [this, getN_cons_succ] at h3
        exact h3

theorem enumFrom_map_fst (adjs : List (List ℕ)) (k : ℕ) :
    (enumFrom k adjs).map Prod.fst = List.range' k adjs.length := by
  induction adjs generalizing k with
  | nil => rfl
  | cons a rest ih =>
    rw [enumFrom, List.map_cons, List.length_cons, List.range'_succ, ih (k + 1)]

theorem lookupP_nil (k : ℕ × ℕ) : lookupP [] k = none := rfl

theorem DictInv_nil (adjs : List (List ℕ)) : DictInv adjs [] [] := by
  refine ⟨?_, ?_, ?_, ?_⟩
  · intro k i h
    rw [lookupP_nil] at h
    cases h
  · intro a b
    rfl
  · intro i hi
    simp at hi
  · intro i hi
    simp at hi

theorem lookupN_of_isSome (d : AdjDict) (k : ℕ × ℕ) (h : (lookupP d k).isSome) :
    lookupP d k = some (lookupN d k) := by
  cases hc : lookupP d k with
  | none => rw [hc] at h; simp at h
  | some i => rw [lookupN, hc]; rfl

theorem mem_cycListOf (d : AdjDict) (v : ℕ) (l : List ℕ) (x : ℕ) :
    x ∈ cycListOf d v l ↔ ∃ j, j < l.length ∧ x = lookupN d (v, getN l j 0) := by
  unfold cycListOf
  simp only [List.mem_map, List.mem_range]
  constructor
  · rintro ⟨j, hj, hx⟩
    exact ⟨j, hj, hx.symm⟩
  · rintro ⟨j, hj, hx⟩
    exact ⟨j, hj, hx.symm⟩

/-- Context facts: after registering all adjacency pairs, an edge of the
store is incident to `v` exactly when it appears in `v`'s cyclic wiring
list. -/
theorem cfoa_incident_iff (adjs : List (List ℕ)) (ES : EdgeStore) (D : AdjDict)
    (hva : ValidAdj adjs) (hdinv : DictInv adjs ES D)
    (hpres : ∀ v < adjs.length, ∀ w ∈ getN adjs v [], (lookupP D (v, w)).isSome)
    (v : ℕ) (hv : v < adjs.length) (x : ℕ) :
    incidentIdx ES x v ↔ x ∈ cycListOf D v (getN adjs v []) := by
  obtain ⟨ha, hb, hc, hd⟩ := hdinv
  constructor
  · rintro ⟨hx, hep⟩
    have hqadj : endpoint2 ES x ∈ getN adjs (endpoint1 ES x) [] := hd x hx
    have hpn : endpoint1 ES x < adjs.length := by
      by_contra hcon
      rw [getN_of_le _ _ _ (by omega)] at hqadj
      exact absurd hqadj (List.not_mem_nil _)
    have hlook : lookupP D (endpoint1 ES x, endpoint2 ES x) = some x := hc x hx
    rcases hep with h1 | h2
    · -- v is the first endpoint
      rw [h1] at hqadj hlook
      obtain ⟨j, hj, hjq⟩ := mem_exists_getN _ _ hqadj
      rw [mem_cycListOf]
      refine ⟨j, hj, ?_⟩
      rw [hjq]
      have := lookupN_of_isSome D (v, endpoint2 ES x) (by rw [hlook]; rfl)
      rw [hlook] at this
      exact (Option.some.inj this)
    · -- v is the second endpoint; use symmetry of the adjacency input
      rw [h2] at hqadj hlook
      have hpadj : endpoint1 ES x ∈ getN adjs v [] := (hva.2 _ hpn _ hqadj).2.2
      obtain ⟨j, hj, hjp⟩ := mem_exists_getN _ _ hpadj
      rw [mem_cycListOf]
      refine ⟨j, hj, ?_⟩
      rw [hjp]
      have hlook2 : lookupP D (v, endpoint1 ES x) = some x := by
        rw [hb]
        exact hlook
      have := lookupN_of_isSome D (v, endpoint1 ES x) (by rw [hlook2]; rfl)
      rw [hlook2] at this
      exact (Option.some.inj this)
  · intro hx
    obtain ⟨j, hj, hxj⟩ := (mem_cycListOf D v _ x).mp hx
    have hwj : getN (getN adjs v []) j 0 ∈ getN adjs v [] := getN_mem _ _ _ hj
    have hsome := hpres v hv _ hwj
    have hlook := lookupN_of_isSome D (v, getN (getN adjs v []) j 0) hsome
    rw [← hxj] at hlook
    obtain ⟨hxlen, hepx⟩ := ha _ x hlook
    refine ⟨hxlen, ?_⟩
    rcases hepx with ⟨he1, _⟩ | ⟨_, he2⟩
    · left
      exact he1
    · right
      exact he2

/-- The cyclic wiring list of a vertex has no duplicates. -/
theorem cfoa_cyc_nodup (adjs : List (List ℕ)) (ES : EdgeStore) (D : AdjDict)
    (hva : ValidAdj adjs) (hdinv : DictInv adjs ES D)
    (hpres : ∀ v < adjs.length, ∀ w ∈ getN adjs v [], (lookupP D (v, w)).isSome)
    (v : ℕ) (hv : v < adjs.length) :
    (cycListOf D v (getN adjs v [])).Nodup := by
  obtain ⟨ha, hb, hc, hd⟩ := hdinv
  have hlnd : (getN adjs v []).Nodup := hva.1 _ (getN_mem adjs v [] hv)
  refine nodup_of_getN_inj _ ?_
  intro i j hi hj heq
  rw [length_cycListOf] at hi hj
  rw [getN_cycListOf _ _ _ i hi, getN_cycListOf _ _ _ j hj] at heq
  have hwi : getN (getN adjs v []) i 0 ∈ getN adjs v [] := getN_mem _ _ _ hi
  have hwj : getN (getN adjs v []) j 0 ∈ getN adjs v [] := getN_mem _ _ _ hj
  have hvi := hva.2 v hv _ hwi
  have hvj := hva.2 v hv _ hwj
  have hlooki := lookupN_of_isSome D (v, getN (getN adjs v []) i 0) (hpres v hv _ hwi)
  have hlookj := lookupN_of_isSome D (v, getN (getN adjs v []) j 0) (hpres v hv _ hwj)
  obtain ⟨_, hepi⟩ := ha _ _ hlooki
  obtain ⟨_, hepj⟩ := ha _ _ hlookj
  rw [heq] at hepi
  have hweq : getN (getN adjs v []) i 0 = getN (getN adjs v []) j 0 := by
    rcases hepi with ⟨e1, e2⟩ | ⟨e1, e2⟩ <;> rcases hepj with ⟨f1, f2⟩ | ⟨f1, f2⟩
    · exact e2.symm.trans f2
    · exact absurd (e1.symm.trans f1) (Ne.symm hvj.2.1)
    · exact absurd (e1.symm.trans f1) hvi.2.1
    · exact e1.symm.trans f1
  by_contra hne
  exact getN_ne_of_nodup _ hlnd i j 0 hi hj hne hweq

/-- Wiring phases of distinct vertices touch opposite sides of any shared
edge. -/
theorem cfoa_disj (adjs : List (List ℕ)) (ES : EdgeStore) (D : AdjDict)
    (hva : ValidAdj adjs) (hdinv : DictInv adjs ES D)
    (hpres : ∀ v < adjs.length, ∀ w ∈ getN adjs v [], (lookupP D (v, w)).isSome)
    (v v2 : ℕ) (hv : v < adjs.length) (hv2 : v2 < adjs.length) (hne : v ≠ v2)
    (q : ℕ) (hq : q ∈ cycListOf D v (getN adjs v []))
    (hq2 : q ∈ cycListOf D v2 (getN adjs v2 [])) :
    ¬ (v = endpoint1 ES q ↔ v2 = endpoint1 ES q) := by
  have hinc := (cfoa_incident_iff adjs ES D hva hdinv hpres v hv q).mpr hq
  have hinc2 := (cfoa_incident_iff adjs ES D hva hdinv hpres v2 hv2 q).mpr hq2
  have hdist : endpoint1 ES q ≠ endpoint2 ES q := by
    have hqadj := hdinv.2.2.2 q hinc.1
    have hpn : endpoint1 ES q < adjs.length := by
      by_contra hcon
      rw [getN_of_le _ _ _ (by omega)] at hqadj
      exact absurd hqadj (List.not_mem_nil _)
    exact Ne.symm (hva.2 _ hpn _ hqadj).2.1
  intro hside
  rcases hinc.2 with h1 | h1 <;> rcases hinc2.2 with h2 | h2
  · exact hne (h1.symm.trans h2)
  · have := hside.mp h1.symm
    exact hne ((this.trans h1).symm)
  · have := hside.mpr h2.symm
    exact hne (this.trans h2)
  · exact hne (h1.symm.trans h2)

theorem cfoa_parts (adjs : List (List ℕ)) :
    construct_from_ordered_adjacencies adjs =
      ⟨List.replicate adjs.length ((1 : ℚ) / (adjs.length : ℚ)),
       (adjWireAll (cemAll (enumFrom 0 adjs) ([], [])).2 (enumFrom 0 adjs)
          ((cemAll (enumFrom 0 adjs) ([], [])).1,
           List.replicate adjs.length (-1 : ℤ))).2,
       (adjWireAll (cemAll (enumFrom 0 adjs) ([], [])).2 (enumFrom 0 adjs)
          ((cemAll (enumFrom 0 adjs) ([], [])).1,
           List.replicate adjs.length (-1 : ℤ))).1⟩ := rfl

theorem mem_enumFrom_self (adjs : List (List ℕ)) (v : ℕ) (hv : v < adjs.length) :
    (v, getN adjs v []) ∈ enumFrom 0 adjs := by
  rw [enumFrom_mem_iff]
  refine ⟨by omega, ?_, ?_⟩
  · rw [Nat.sub_zero]
    exact hv
  · rw [Nat.sub_zero]

/-- The graph built from a valid ordered-adjacency input is well-formed and
each vertex's incidence enumeration is exactly its adjacency cycle. -/
theorem cfoa_main (adjs : List (List ℕ)) (hva : ValidAdj adjs) :
    WF (construct_from_ordered_adjacencies adjs) ∧
    (∀ v < adjs.length, (construct_from_ordered_adjacencies adjs).incList v =
      cycListOf (cemAll (enumFrom 0 adjs) ([], [])).2 v (getN adjs v [])) := by
  have hL : ∀ p ∈ enumFrom 0 adjs, ∀ w ∈ p.2, w ∈ getN adjs p.1 [] := by
    intro p hp w hw
    obtain ⟨v, l⟩ := p
    obtain ⟨_, _, h3⟩ := (enumFrom_mem_iff adjs 0 v l).mp hp
    rw [Nat.sub_zero] at h3
    show w ∈ getN adjs v []
    rw [← h3]
    exact hw
  obtain ⟨hdinv, _, hpresR⟩ := cemAll_inv adjs (enumFrom 0 adjs) hL [] [] (DictInv_nil adjs)
  set D := (cemAll (enumFrom 0 adjs) ([], [])).2 with hD_def
  set ES := (cemAll (enumFrom 0 adjs) ([], [])).1 with hES_def
  have hpres : ∀ v < adjs.length, ∀ w ∈ getN adjs v [], (lookupP D (v, w)).isSome := by
    intro v hv w hw
    exact hpresR (v, getN adjs v []) (mem_enumFrom_self adjs v hv) w hw
  have hmemlt : ∀ v < adjs.length, ∀ x ∈ cycListOf D v (getN adjs v []), x < ES.length := by
    intro v hv x hx
    obtain ⟨j, hj, hxj⟩ := (mem_cycListOf D v _ x).mp hx
    have hwj : getN (getN adjs v []) j 0 ∈ getN adjs v [] := getN_mem _ _ _ hj
    have hlook := lookupN_of_isSome D _ (hpres v hv _ hwj)
    rw [← hxj] at hlook
    exact (hdinv.1 _ x hlook).1
  have hpfacts : ∀ p ∈ enumFrom 0 adjs, p.1 < adjs.length ∧ p.2 = getN adjs p.1 [] := by
    intro p hp
    obtain ⟨v, l⟩ := p
    obtain ⟨_, h2, h3⟩ := (enumFrom_mem_iff adjs 0 v l).mp hp
    rw [Nat.sub_zero] at h2 h3
    exact ⟨h2, h3⟩
  obtain ⟨c1, c2, c3, c4, c5, c6⟩ := adjWireAll_spec D ES (enumFrom 0 adjs) ES
    (List.replicate adjs.length (-1 : ℤ)) rfl (fun j => ⟨rfl, rfl⟩)
    (fun p hp => by
      obtain ⟨h1, h2⟩ := hpfacts p hp
      rw [h2]
      exact cfoa_cyc_nodup adjs ES D hva hdinv hpres p.1 h1)
    (fun p hp x hx => by
      obtain ⟨h1, h2⟩ := hpfacts p hp
      rw [h2] at hx
      exact hmemlt p.1 h1 x hx)
    (by
      rw [enumFrom_map_fst]
      exact List.nodup_range' _ _)
    (fun p hp p2 hp2 hne q hq hq2 => by
      obtain ⟨h1, h2⟩ := hpfacts p hp
      obtain ⟨h12, h22⟩ := hpfacts p2 hp2
      rw [h2] at hq
      rw [h22] at hq2
      exact cfoa_disj adjs ES D hva hdinv hpres p.1 p2.1 h1 h12 hne q hq hq2)
    (adjWireAll D (enumFrom 0 adjs) (ES, List.replicate adjs.length (-1 : ℤ))).1
    (adjWireAll D (enumFrom 0 adjs) (ES, List.replicate adjs.length (-1 : ℤ))).2 rfl
  set G := construct_from_ordered_adjacencies adjs with hG_def
  have hGedges : G.edges =
      (adjWireAll D (enumFrom 0 adjs) (ES, List.replicate adjs.length (-1 : ℤ))).1 := by
    rw [hG_def, cfoa_parts]
  have hGex : G.incident_edge_example_indices =
      (adjWireAll D (enumFrom 0 adjs) (ES, List.replicate adjs.length (-1 : ℤ))).2 := by
    rw [hG_def, cfoa_parts]
  have hGsize : G.size = adjs.length := by
    rw [hG_def, cfoa_parts]
    show (List.replicate adjs.length _).length = _
    simp
  have hGel : G.edges.length = ES.length := by
    rw [hGedges]
    exact c1
  have hGeps : ∀ j, endpoint1 G.edges j = endpoint1 ES j ∧
      endpoint2 G.edges j = endpoint2 ES j := by
    intro j
    rw [hGedges]
    exact c2 j
  have hinct : ∀ x v, incidentIdx G.edges x v ↔ incidentIdx ES x v :=
    fun x v => incidentIdx_transfer ES G.edges hGel hGeps x v
  -- per-vertex incidence list characterization
  have hincchar : ∀ v < adjs.length,
      G.incList v = cycListOf D v (getN adjs v []) := by
    intro v hv
    obtain ⟨d1, d2, d3⟩ := c6 (v, getN adjs v []) (mem_enumFrom_self adjs v hv)
    by_cases hl : getN adjs v [] = []
    · have hcyc : cycListOf D v (getN adjs v []) = [] := by
        rw [hl]
        rfl
      have hexv : exampleAt G v = -1 := by
        unfold exampleAt
        rw [hGex, d3 hl]
        exact getN_replicate _ _ _ _ hv
      rw [incList_of_neg G v hexv, hcyc]
    · have hl0 : 0 < (getN adjs v []).length := List.length_pos.mpr hl
      have hexv : exampleAt G v = Int.ofNat (getN (cycListOf D v (getN adjs v [])) 0 0) := by
        unfold exampleAt
        rw [hGex, d2 hl (by simpa using hv)]
        rw [getN_cycListOf _ _ _ 0 hl0]
      refine incList_eq_of_wired G v (cycListOf D v (getN adjs v []))
        (by
          intro hc
          have := congrArg List.length hc
          rw [length_cycListOf, List.length_nil] at this
          omega)
        (cfoa_cyc_nodup adjs ES D hva hdinv hpres v hv) ?_ ?_ hexv
      · show chainNext G.edges v _
        rw [hGedges]
        exact d1
      · intro x hx
        rw [hGel]
        exact hmemlt v hv x hx
  refine ⟨⟨?_, ?_, ?_⟩, hincchar⟩
  · -- example-array length
    rw [hGex, c3, hGsize]
    simp
  · -- endpoints in range and distinct
    intro x hx
    rw [hGel] at hx
    have hqadj := hdinv.2.2.2 x hx
    have hpn : endpoint1 ES x < adjs.length := by
      by_contra hcon
      rw [getN_of_le _ _ _ (by omega)] at hqadj
      exact absurd hqadj (List.not_mem_nil _)
    have hval := hva.2 _ hpn _ hqadj
    rw [(hGeps x).1, (hGeps x).2, hGsize]
    exact ⟨hpn, hval.1, Ne.symm hval.2.1⟩
  · -- rotations
    intro v hv
    rw [hGsize] at hv
    have hchar := hincchar v hv
    obtain ⟨d1, d2, d3⟩ := c6 (v, getN adjs v []) (mem_enumFrom_self adjs v hv)
    by_cases hl : getN adjs v [] = []
    · have hcyc : cycListOf D v (getN adjs v []) = [] := by
        rw [hl]
        rfl
      have hexv : exampleAt G v = -1 := by
        unfold exampleAt
        rw [hGex, d3 hl]
        exact getN_replicate _ _ _ _ hv
      constructor
      · rw [hchar, hcyc]
        refine ⟨List.nodup_nil, fun e he => absurd he (List.not_mem_nil e), ?_, ?_⟩
        · intro e helt hince
          exfalso
          rw [hinct] at hince
          have := (cfoa_incident_iff adjs ES D hva hdinv hpres v hv e).mp hince
          rw [hcyc] at this
          exact absurd this (List.not_mem_nil e)
        · intro i hi
          simp at hi
      · rw [hchar, hcyc, hexv]
        exact ⟨fun _ => rfl, fun _ => rfl⟩
    · have hl0 : 0 < (getN adjs v []).length := List.length_pos.mpr hl
      have hcycne : cycListOf D v (getN adjs v []) ≠ [] := by
        intro hc
        have := congrArg List.length hc
        rw [length_cycListOf, List.length_nil] at this
        omega
      have hexv : exampleAt G v = Int.ofNat (getN (cycListOf D v (getN adjs v [])) 0 0) := by
        unfold exampleAt
        rw [hGex, d2 hl (by simpa using hv)]
        rw [getN_cycListOf _ _ _ 0 hl0]
      constructor
      · rw [hchar]
        refine ⟨cfoa_cyc_nodup adjs ES D hva hdinv hpres v hv, ?_, ?_, ?_⟩
        · intro e he
          rw [hinct]
          exact (cfoa_incident_iff adjs ES D hva hdinv hpres v hv e).mpr he
        · intro e helt hince
          rw [hinct] at hince
          exact (cfoa_incident_iff adjs ES D hva hdinv hpres v hv e).mp hince
        · show chainNext G.edges v _
          rw [hGedges]
          exact d1
      · rw [hchar, hexv]
        constructor
        · intro hc
          exact absurd hc (ofNat_ne_neg_one _)
        · intro hc
          exact absurd hc hcycne

/-! ### Random tree generation

Embedding of `_generate_random_tree` (`planar_graph_generator.py`
lines 22-64).  The `numpy` random choices and uniform cost draws are passed
as explicit parameters: `choices index` is the attachment vertex drawn
uniformly from `{0, …, index+1}`, `costDraws` the per-vertex uniform cost
draws. -/

def treeStep (choices : ℕ → ℕ) (st : EdgeStore × List ℤ) (index : ℕ) : EdgeStore × List ℤ :=
  let vertex := choices index
  let newV := index + 2
  let incident := (getN st.2 vertex 0).toNat
  let newE := st.1.length
  let es1 := appendEdge st.1 vertex newV
  let es2 := setNextEdge es1 newE newV newE
  let ex2 := setN st.2 newV (Int.ofNat newE)
  let inext := getNextAt es2 incident vertex
  (setNextEdge (setNextEdge es2 incident vertex newE) newE vertex inext, ex2)

def generateRandomTree (choices : ℕ → ℕ) (costDraws : ℕ → ℚ) (randomCosts : Bool)
    (size : ℕ) : Except String PlanarGraph :=
  if size < 2 then Except.error "The minimum size of 2 is allowed."
  else
    let costs0 := if randomCosts then (List.range size).map costDraws
                  else List.replicate size (1 : ℚ)
    let costs := costs0.map (fun c => c / costs0.sum)
    let es0 := setNextEdge (setNextEdge (appendEdge [] 0 1) 0 0 0) 0 1 0
    let st := (List.range (size - 2)).foldl (treeStep choices) (es0, List.replicate size (0 : ℤ))
    Except.ok ⟨costs, st.2, st.1⟩

/-- Reachability along store edges. -/
inductive Reach (es : EdgeStore) : ℕ → ℕ → Prop
  | refl (v : ℕ) : Reach es v v
  | step {u w : ℕ} (e : ℕ) : Reach es u w → incidentIdx es e w → Reach es u (oppositeAt es e w)

/-- Invariant of the tree-growing loop after `t` splices. -/
def TreeInv (choices : ℕ → ℕ) (size t : ℕ) (st : EdgeStore × List ℤ) : Prop :=
  st.1.length = t + 1 ∧
  st.2.length = size ∧
  (∀ j, j ≤ t → endpoint1 st.1 j = (if j = 0 then 0 else choices (j - 1)) ∧
    endpoint2 st.1 j = j + 1) ∧
  (∀ w, w < t + 2 → ∃ l : List ℕ, l ≠ [] ∧ l.Nodup ∧ (∀ x ∈ l, x < st.1.length) ∧
    (∀ e, e ∈ l ↔ incidentIdx st.1 e w) ∧ chainNext st.1 w l ∧
    getN st.2 w (-1) = Int.ofNat (getN l 0 0)) ∧
  (∀ w, t + 2 ≤ w → w < size → getN st.2 w (-1) = 0)

def treeInitStore : EdgeStore := setNextEdge (setNextEdge (appendEdge [] 0 1) 0 0 0) 0 1 0

theorem TreeInv_base (choices : ℕ → ℕ) (size : ℕ) (hsz : 2 ≤ size) :
    TreeInv choices size 0 (treeInitStore, List.replicate size (0 : ℤ)) := by
  refine ⟨rfl, by simp, ?_, ?_, ?_⟩
  · intro j hj
    have hj0 : j = 0 := Nat.le_zero.mp hj
    subst hj0
    rw [if_pos rfl]
    exact ⟨(by decide : endpoint1 treeInitStore 0 = 0),
      (by decide : endpoint2 treeInitStore 0 = 0 + 1)⟩
  · intro w hw
    refine ⟨[0], by decide, by decide,
      (by decide : ∀ x ∈ [0], x < treeInitStore.length), ?_, ?_, ?_⟩
    · intro e
      constructor
      · intro he
        have he0 : e = 0 := by simpa using he
        subst he0
        interval_cases w
        · exact (by decide : incidentIdx treeInitStore 0 0)
        · exact (by decide : incidentIdx treeInitStore 0 1)
      · intro hc
        have he0 : e = 0 := by
          have h1 : e < treeInitStore.length := hc.1
          have h2 : treeInitStore.length = 1 := by decide
          omega
        simp [he0]
    · interval_cases w
      · exact (by decide : chainNext treeInitStore 0 [0])
      · exact (by decide : chainNext treeInitStore 1 [0])
    · rw [getN_replicate _ _ _ _ (by omega)]
      decide
  · intro w _ hw2
    exact getN_replicate _ _ _ _ hw2

/-- The edge-store effect of one iteration of the tree-growing loop: append
the new edge, self-wire it at the new vertex, and splice it after the
attachment vertex's example edge. -/
def treeSplice (ES : EdgeStore) (V nV inc0 : ℕ) : EdgeStore :=
  let es2 := setNextEdge (appendEdge ES V nV) ES.length nV ES.length
  setNextEdge (setNextEdge es2 inc0 V ES.length) ES.length V (getNextAt es2 inc0 V)

theorem treeStep_def (choices : ℕ → ℕ) (st : EdgeStore × List ℤ) (index : ℕ) :
    treeStep choices st index =
      (treeSplice st.1 (choices index) (index + 2) (getN st.2 (choices index) 0).toNat,
        setN st.2 (index + 2) (Int.ofNat st.1.length)) := rfl

theorem treeSplice_length (ES : EdgeStore) (V nV inc0 : ℕ) :
    (treeSplice ES V nV inc0).length = ES.length + 1 := by
  unfold treeSplice
  simp

theorem treeSplice_endpoints (ES : EdgeStore) (V nV inc0 j : ℕ) :
    endpoint1 (treeSplice ES V nV inc0) j = endpoint1 (appendEdge ES V nV) j ∧
    endpoint2 (treeSplice ES V nV inc0) j = endpoint2 (appendEdge ES V nV) j := by
  unfold treeSplice
  constructor
  · rw [(endpoints_setNextEdge _ _ _ _ _).1, (endpoints_setNextEdge _ _ _ _ _).1,
      (endpoints_setNextEdge _ _ _ _ _).1]
  · rw [(endpoints_setNextEdge _ _ _ _ _).2, (endpoints_setNextEdge _ _ _ _ _).2,
      (endpoints_setNextEdge _ _ _ _ _).2]

theorem treeSplice_ep_old (ES : EdgeStore) (V nV inc0 j : ℕ) (h : j < ES.length) :
    endpoint1 (treeSplice ES V nV inc0) j = endpoint1 ES j ∧
    endpoint2 (treeSplice ES V nV inc0) j = endpoint2 ES j := by
  obtain ⟨h1, h2⟩ := treeSplice_endpoints ES V nV inc0 j
  rw [h1, h2, (endpoints_appendEdge ES V nV j h).1, (endpoints_appendEdge ES V nV j h).2]
  exact ⟨rfl, rfl⟩

theorem treeSplice_ep_new (ES : EdgeStore) (V nV inc0 : ℕ) :
    endpoint1 (treeSplice ES V nV inc0) ES.length = V ∧
    endpoint2 (treeSplice ES V nV inc0) ES.length = nV := by
  obtain ⟨h1, h2⟩ := treeSplice_endpoints ES V nV inc0 ES.length
  rw [h1, h2]
  unfold endpoint1 endpoint2
  rw [getN_appendEdge_last]
  exact ⟨rfl, rfl⟩

/-- The complete `next`-slot map of the spliced store: the new edge points
back to the old successor of the example edge on the attachment side and to
itself on the new-vertex side, the example edge now points at the new edge,
and every other slot is untouched. -/
theorem treeSplice_next (ES : EdgeStore) (V nV inc0 : ℕ) (hVnV : V ≠ nV)
    (hinc0 : inc0 < ES.length) (q u : ℕ) :
    getNextAt (treeSplice ES V nV inc0) q u =
      if q = ES.length ∧ u = V then getNextAt ES inc0 V
      else if q = inc0 ∧ (u = endpoint1 ES inc0 ↔ V = endpoint1 ES inc0) then ES.length
      else if q = ES.length then ES.length
      else getNextAt ES q u := by
  unfold treeSplice
  have hlen1 : (appendEdge ES V nV).length = ES.length + 1 := length_appendEdge ES V nV
  have hep1app : endpoint1 (appendEdge ES V nV) ES.length = V := by
    unfold endpoint1
    rw [getN_appendEdge_last]
  have hinxt : getNextAt (setNextEdge (appendEdge ES V nV) ES.length nV ES.length) inc0 V =
      getNextAt ES inc0 V := by
    rw [getNextAt_setNextEdge _ _ _ _ _ _ (by rw [hlen1]; omega)]
    rw [if_neg (fun hc => absurd hc.1 (by omega))]
    exact getNextAt_appendEdge ES V nV inc0 V hinc0
  rw [getNextAt_setNextEdge _ _ _ _ _ _
    (by rw [length_setNextEdge, length_setNextEdge, hlen1]; omega)]
  have hep3 : endpoint1
      (setNextEdge (setNextEdge (appendEdge ES V nV) ES.length nV ES.length) inc0 V ES.length)
      ES.length = V := by
    rw [(endpoints_setNextEdge _ _ _ _ _).1, (endpoints_setNextEdge _ _ _ _ _).1, hep1app]
  rw [hep3, hinxt]
  by_cases h1 : q = ES.length ∧ u = V
  · rw [if_pos ⟨h1.1, iff_of_true h1.2 rfl⟩, if_pos h1]
  · rw [if_neg (fun hc => h1 ⟨hc.1, hc.2.mpr rfl⟩), if_neg h1]
    rw [getNextAt_setNextEdge _ _ _ _ _ _ (by rw [length_setNextEdge, hlen1]; omega)]
    have hep2 : endpoint1 (setNextEdge (appendEdge ES V nV) ES.length nV ES.length) inc0 =
        endpoint1 ES inc0 := by
      rw [(endpoints_setNextEdge _ _ _ _ _).1, (endpoints_appendEdge ES V nV inc0 hinc0).1]
    rw [hep2]
    by_cases h2 : q = inc0 ∧ (u = endpoint1 ES inc0 ↔ V = endpoint1 ES inc0)
    · rw [if_pos h2, if_pos h2]
    · rw [if_neg h2, if_neg h2]
      rw [getNextAt_setNextEdge _ _ _ _ _ _ (by rw [hlen1]; omega), hep1app]
      by_cases h3 : q = ES.length
      · have huV : ¬ u = V := fun h => h1 ⟨h3, h⟩
        rw [if_pos ⟨h3, iff_of_false huV (fun h => hVnV h.symm)⟩, if_pos h3]
      · rw [if_neg (fun hc => h3 hc.1), if_neg h3]
        rcases Nat.lt_or_ge q ES.length with hlt | hge
        · exact getNextAt_appendEdge ES V nV q u hlt
        · unfold getNextAt
          rw [getN_of_le _ _ _ (by rw [hlen1]; omega), getN_of_le _ _ _ (by omega)]

theorem treeStep_inv (choices : ℕ → ℕ) (size t : ℕ) (st : EdgeStore × List ℤ)
    (hchall : ∀ i, i < size - 2 → choices i < i + 2)
    (ht : t < size - 2)
    (hinv : TreeInv choices size t st) :
    TreeInv choices size (t + 1) (treeStep choices st t) := by
  obtain ⟨ES, EX⟩ := st
  obtain ⟨hL0, hexL0, heps0, hrot0, hzero0⟩ := hinv
  have hESlen : ES.length = t + 1 := hL0
  have hEXlen : EX.length = size := hexL0
  have heps : ∀ j, j ≤ t → endpoint1 ES j = (if j = 0 then 0 else choices (j - 1)) ∧
      endpoint2 ES j = j + 1 := heps0
  have hrot : ∀ w, w < t + 2 → ∃ l : List ℕ, l ≠ [] ∧ l.Nodup ∧ (∀ x ∈ l, x < ES.length) ∧
      (∀ e, e ∈ l ↔ incidentIdx ES e w) ∧ chainNext ES w l ∧
      getN EX w (-1) = Int.ofNat (getN l 0 0) := hrot0
  have hzero : ∀ w, t + 2 ≤ w → w < size → getN EX w (-1) = 0 := hzero0
  have hsize : t + 3 ≤ size := by omega
  have hV : choices t < t + 2 := hchall t ht
  obtain ⟨lV, hlVne, hlVnd, hlVmem, hlVinc, hlVch, hlVex⟩ := hrot (choices t) (by omega)
  have hlVlen : 0 < lV.length := List.length_pos.mpr hlVne
  have hinc0_eq : (getN EX (choices t) 0).toNat = getN lV 0 0 := by
    rw [getN_eq_of_lt_length EX (choices t) 0 (-1) (by omega), hlVex, toNat_ofNat_eq]
  have hinc0_mem : getN lV 0 0 ∈ lV := getN_mem lV 0 0 hlVlen
  have hinc0_lt : getN lV 0 0 < ES.length := hlVmem _ hinc0_mem
  have hVinc0 : incidentIdx ES (getN lV 0 0) (choices t) := (hlVinc _).mp hinc0_mem
  have hep_lt : ∀ j, j ≤ t → endpoint1 ES j < endpoint2 ES j := by
    intro j hj
    obtain ⟨h1, h2⟩ := heps j hj
    rw [h1, h2]
    by_cases hj0 : j = 0
    · rw [if_pos hj0]
      omega
    · rw [if_neg hj0]
      have := hchall (j - 1) (by omega)
      omega
  have hep_bound : ∀ j, j ≤ t → endpoint1 ES j < t + 2 ∧ endpoint2 ES j < t + 2 := by
    intro j hj
    obtain ⟨h1, h2⟩ := heps j hj
    rw [h1, h2]
    constructor
    · by_cases hj0 : j = 0
      · rw [if_pos hj0]
        omega
      · rw [if_neg hj0]
        have := hchall (j - 1) (by omega)
        omega
    · omega
  show TreeInv choices size (t + 1)
    (treeSplice ES (choices t) (t + 2) (getN EX (choices t) 0).toNat,
      setN EX (t + 2) (Int.ofNat ES.length))
  rw [hinc0_eq]
  have hsplice := treeSplice_next ES (choices t) (t + 2) (getN lV 0 0) (by omega) hinc0_lt
  have hlen4 : (treeSplice ES (choices t) (t + 2) (getN lV 0 0)).length = t + 2 := by
    rw [treeSplice_length, hESlen]
  have hep_old := fun j hj => treeSplice_ep_old ES (choices t) (t + 2) (getN lV 0 0) j hj
  have hep_new := treeSplice_ep_new ES (choices t) (t + 2) (getN lV 0 0)
  suffices h : (treeSplice ES (choices t) (t + 2) (getN lV 0 0)).length = (t + 1) + 1 ∧
      (setN EX (t + 2) (Int.ofNat ES.length)).length = size ∧
      (∀ j, j ≤ t + 1 →
        endpoint1 (treeSplice ES (choices t) (t + 2) (getN lV 0 0)) j =
          (if j = 0 then 0 else choices (j - 1)) ∧
        endpoint2 (treeSplice ES (choices t) (t + 2) (getN lV 0 0)) j = j + 1) ∧
      (∀ w, w < (t + 1) + 2 → ∃ l : List ℕ, l ≠ [] ∧ l.Nodup ∧
        (∀ x ∈ l, x < (treeSplice ES (choices t) (t + 2) (getN lV 0 0)).length) ∧
        (∀ e, e ∈ l ↔ incidentIdx (treeSplice ES (choices t) (t + 2) (getN lV 0 0)) e w) ∧
        chainNext (treeSplice ES (choices t) (t + 2) (getN lV 0 0)) w l ∧
        getN (setN EX (t + 2) (Int.ofNat ES.length)) w (-1) = Int.ofNat (getN l 0 0)) ∧
      (∀ w, (t + 1) + 2 ≤ w → w < size →
        getN (setN EX (t + 2) (Int.ofNat ES.length)) w (-1) = 0) by
    exact h
  refine ⟨by rw [hlen4], by rw [length_setN, hEXlen], ?_, ?_, ?_⟩
  · -- endpoints of the grown store
    intro j hj
    by_cases hjt : j ≤ t
    · have hjlt : j < ES.length := by omega
      exact ⟨by rw [(hep_old j hjlt).1, (heps j hjt).1],
        by rw [(hep_old j hjlt).2, (heps j hjt).2]⟩
    · have hj1 : j = t + 1 := by omega
      subst hj1
      constructor
      · rw [if_neg (by omega : ¬ t + 1 = 0)]
        have h1 := hep_new.1
        rw [hESlen] at h1
        rw [h1, Nat.add_sub_cancel]
      · have h2 := hep_new.2
        rw [hESlen] at h2
        rw [h2]
  · -- rotations of the grown store
    intro w hw
    by_cases hw2 : w = t + 2
    · -- the brand-new vertex carries exactly the new edge
      subst hw2
      refine ⟨[ES.length], by simp, by simp, ?_, ?_, ?_, ?_⟩
      · intro x hx
        have hx' : x = ES.length := by simpa using hx
        rw [hx', treeSplice_length]
        omega
      · intro e
        constructor
        · intro he
          have he' : e = ES.length := by simpa using he
          subst he'
          exact ⟨by rw [treeSplice_length]; omega, Or.inr (by rw [hep_new.2])⟩
        · rintro ⟨helt, hor⟩
          rw [treeSplice_length] at helt
          by_cases heq : e = ES.length
          · simp [heq]
          · exfalso
            have hjle : e ≤ t := by omega
            have helt' : e < ES.length := by omega
            obtain ⟨hb1, hb2⟩ := hep_bound e hjle
            rcases hor with hh | hh
            · rw [(hep_old e helt').1] at hh
              omega
            · rw [(hep_old e helt').2] at hh
              omega
      · intro i hi
        have hi0 : i = 0 := by simpa using hi
        subst hi0
        simp only [List.length_cons, List.length_nil, Nat.zero_add, Nat.mod_self,
          getN_cons_zero]
        rw [hsplice ES.length (t + 2),
          if_neg (fun hc => absurd hc.2 (by omega)),
          if_neg (fun hc => absurd hc.1 (by omega)),
          if_pos rfl]
      · show getN (setN EX (t + 2) (Int.ofNat ES.length)) (t + 2) (-1) =
          Int.ofNat (getN [ES.length] 0 0)
        rw [getN_setN_eq EX (t + 2) (Int.ofNat ES.length) (-1) (by omega)]
        rfl
    · by_cases hwV : w = choices t
      · -- the attachment vertex: splice the new edge right after the example edge
        subst hwV
        cases lV with
        | nil => exact absurd rfl hlVne
        | cons a rest =>
        simp only [getN_cons_zero] at hsplice hinc0_lt hinc0_eq hinc0_mem hVinc0 hep_old hep_new hlen4 ⊢
        have ha_lt : a < ES.length := hlVmem a (by simp)
        have hrestlt : ∀ x ∈ rest, x < ES.length := fun x hx => hlVmem x (by simp [hx])
        have hnE_rest : ES.length ∉ rest := fun hmem => absurd (hrestlt _ hmem) (by omega)
        have handup := hlVnd
        rw [List.nodup_cons] at handup
        refine ⟨a :: ES.length :: rest, by simp, ?_, ?_, ?_, ?_, ?_⟩
        · rw [List.nodup_cons, List.nodup_cons]
          refine ⟨?_, hnE_rest, handup.2⟩
          intro hc
          rcases List.mem_cons.mp hc with hh | hh
          · omega
          · exact handup.1 hh
        · intro x hx
          rw [treeSplice_length]
          rcases List.mem_cons.mp hx with hh | hh
          · omega
          · rcases List.mem_cons.mp hh with hh2 | hh2
            · omega
            · have := hrestlt x hh2
              omega
        · intro e
          constructor
          · intro he
            by_cases heq : e = ES.length
            · subst heq
              exact ⟨by rw [treeSplice_length]; omega, Or.inl hep_new.1⟩
            · have hmem : e ∈ a :: rest := by
                rcases List.mem_cons.mp he with hh | hh
                · simp [hh]
                · rcases List.mem_cons.mp hh with hh2 | hh2
                  · exact absurd hh2 heq
                  · simp [hh2]
              have hie := (hlVinc e).mp hmem
              refine ⟨by rw [treeSplice_length]; have := hie.1; omega, ?_⟩
              rcases hie.2 with hh | hh
              · exact Or.inl (by rw [(hep_old e hie.1).1]; exact hh)
              · exact Or.inr (by rw [(hep_old e hie.1).2]; exact hh)
          · rintro ⟨helt, hor⟩
            rw [treeSplice_length] at helt
            by_cases heq : e = ES.length
            · simp [heq]
            · have helt' : e < ES.length := by omega
              have hmem : e ∈ a :: rest := (hlVinc e).mpr ⟨helt', by
                rcases hor with hh | hh
                · rw [(hep_old e helt').1] at hh
                  exact Or.inl hh
                · rw [(hep_old e helt').2] at hh
                  exact Or.inr hh⟩
              rcases List.mem_cons.mp hmem with hh | hh
              · simp [hh]
              · simp [hh]
        · -- the rewired cyclic chain at the attachment vertex
          intro i hi
          simp only [List.length_cons] at hi
          rcases Nat.lt_or_ge i 2 with hi2 | hi2
          · interval_cases i
            · -- example edge now points at the new edge
              show getNextAt (treeSplice ES (choices t) (t + 2) a)
                  (getN (a :: ES.length :: rest) 0 0) (choices t) =
                getN (a :: ES.length :: rest) ((0 + 1) % (a :: ES.length :: rest).length) 0
              simp only [getN_cons_zero, List.length_cons]
              rw [Nat.mod_eq_of_lt (by omega)]
              simp only [getN_cons_succ, getN_cons_zero]
              rw [hsplice a (choices t),
                if_neg (fun hc => absurd hc.1 (by omega)),
                if_pos ⟨rfl, Iff.rfl⟩]
            · -- the new edge points at the old successor of the example edge
              show getNextAt (treeSplice ES (choices t) (t + 2) a)
                  (getN (a :: ES.length :: rest) 1 0) (choices t) =
                getN (a :: ES.length :: rest) ((1 + 1) % (a :: ES.length :: rest).length) 0
              simp only [getN_cons_succ, getN_cons_zero]
              rw [hsplice ES.length (choices t), if_pos ⟨rfl, rfl⟩]
              have hch0 := hlVch 0 (by simp)
              simp only [getN_cons_zero, Nat.zero_add] at hch0
              rw [hch0]
              cases rest with
              | nil => simp
              | cons b rest2 =>
                simp only [List.length_cons]
                rw [Nat.mod_eq_of_lt (by omega), Nat.mod_eq_of_lt (by omega)]
                simp
          · obtain ⟨j, rfl⟩ : ∃ j, i = j + 2 := ⟨i - 2, by omega⟩
            have hjr : j < rest.length := by omega
            show getNextAt (treeSplice ES (choices t) (t + 2) a)
                (getN (a :: ES.length :: rest) (j + 2) 0) (choices t) =
              getN (a :: ES.length :: rest) ((j + 2 + 1) % (a :: ES.length :: rest).length) 0
            simp only [getN_cons_succ]
            have hqmem : getN rest j 0 ∈ a :: rest :=
              List.mem_cons_of_mem a (getN_mem rest j 0 hjr)
            have hqlt : getN rest j 0 < ES.length := hlVmem _ hqmem
            have hqne_a : getN rest j 0 ≠ a := by
              have := getN_ne_of_nodup (a :: rest) hlVnd (j + 1) 0 0
                (by simp; omega) (by simp) (by omega)
              simpa using this
            rw [hsplice (getN rest j 0) (choices t),
              if_neg (fun hc => absurd hc.1 (by omega)),
              if_neg (fun hc => hqne_a hc.1),
              if_neg (fun hc => absurd hc (by omega))]
            have hch := hlVch (j + 1) (by simp; omega)
            simp only [getN_cons_succ] at hch
            rw [hch]
            simp only [List.length_cons]
            by_cases hlast : j + 1 = rest.length
            · rw [show j + 1 + 1 = rest.length + 1 from by omega, Nat.mod_self, Nat.mod_self]
              simp
            · rw [Nat.mod_eq_of_lt (by omega), Nat.mod_eq_of_lt (by omega)]
              simp
        · show getN (setN EX (t + 2) (Int.ofNat ES.length)) (choices t) (-1) =
            Int.ofNat (getN (a :: ES.length :: rest) 0 0)
          rw [getN_setN_ne EX (t + 2) (choices t) (Int.ofNat ES.length) (-1) (by omega),
            hlVex]
          simp
      · -- any other vertex: untouched
        have hwlt : w < t + 2 := by omega
        obtain ⟨lw, hwne, hwnd, hwmem, hwinc, hwch, hwex⟩ := hrot w hwlt
        refine ⟨lw, hwne, hwnd, ?_, ?_, ?_, ?_⟩
        · intro x hx
          rw [treeSplice_length]
          have := hwmem x hx
          omega
        · intro e
          constructor
          · intro he
            have hie := (hwinc e).mp he
            refine ⟨by rw [treeSplice_length]; have := hie.1; omega, ?_⟩
            rcases hie.2 with hh | hh
            · exact Or.inl (by rw [(hep_old e hie.1).1]; exact hh)
            · exact Or.inr (by rw [(hep_old e hie.1).2]; exact hh)
          · rintro ⟨helt, hor⟩
            rw [treeSplice_length] at helt
            by_cases heq : e = ES.length
            · exfalso
              subst heq
              rcases hor with hh | hh
              · rw [hep_new.1] at hh
                exact hwV hh.symm
              · rw [hep_new.2] at hh
                exact hw2 hh.symm
            · have helt' : e < ES.length := by omega
              apply (hwinc e).mpr
              refine ⟨helt', ?_⟩
              rcases hor with hh | hh
              · rw [(hep_old e helt').1] at hh
                exact Or.inl hh
              · rw [(hep_old e helt').2] at hh
                exact Or.inr hh
        · intro i hi
          have hqmem : getN lw i 0 ∈ lw := getN_mem lw i 0 hi
          have hiw := (hwinc _).mp hqmem
          have hqlt : getN lw i 0 < ES.length := hiw.1
          have hside : ¬ (getN lw i 0 = getN lV 0 0 ∧
              (w = endpoint1 ES (getN lV 0 0) ↔ choices t = endpoint1 ES (getN lV 0 0))) := by
            rintro ⟨hq, hss⟩
            rw [hq] at hiw
            have hlt12 : endpoint1 ES (getN lV 0 0) < endpoint2 ES (getN lV 0 0) :=
              hep_lt (getN lV 0 0) (by omega)
            rcases hVinc0.2 with hc1 | hc1 <;> rcases hiw.2 with hc2 | hc2
            · exact hwV (hc2.symm.trans hc1)
            · have := hss.mpr hc1.symm
              omega
            · have := hss.mp hc2.symm
              omega
            · exact hwV (hc2.symm.trans hc1)
          rw [hsplice (getN lw i 0) w,
            if_neg (fun hc => absurd hc.1 (by omega)),
            if_neg hside,
            if_neg (fun hc => absurd hc (by omega))]
          exact hwch i hi
        · show getN (setN EX (t + 2) (Int.ofNat ES.length)) w (-1) = Int.ofNat (getN lw 0 0)
          rw [getN_setN_ne EX (t + 2) w (Int.ofNat ES.length) (-1) (by omega)]
          exact hwex
  · intro w hw3 hwsz
    rw [getN_setN_ne EX (t + 2) w (Int.ofNat ES.length) (-1) (by omega)]
    exact hzero w (by omega) hwsz

theorem oppositeAt_eq1 (es : EdgeStore) (e v : ℕ) (h : endpoint1 es e = v) :
    oppositeAt es e v = endpoint2 es e := by
  unfold oppositeAt Edge.opposite endpoint2
  have h' : v = (getN es e edgeDefault).vertex1 := h.symm
  rw [if_pos h']

theorem oppositeAt_eq2 (es : EdgeStore) (e v : ℕ) (hne : endpoint1 es e ≠ v) :
    oppositeAt es e v = endpoint1 es e := by
  unfold oppositeAt Edge.opposite endpoint1
  rw [if_neg (fun hc => hne hc.symm)]

theorem TreeInv_final (choices : ℕ → ℕ) (size : ℕ) (hsz : 2 ≤ size)
    (hchall : ∀ i, i < size - 2 → choices i < i + 2) :
    TreeInv choices size (size - 2)
      ((List.range (size - 2)).foldl (treeStep choices)
        (treeInitStore, List.replicate size (0 : ℤ))) := by
  have H : ∀ n, n ≤ size - 2 → TreeInv choices size n
      ((List.range n).foldl (treeStep choices)
        (treeInitStore, List.replicate size (0 : ℤ))) := by
    intro n
    induction n with
    | zero =>
      intro _
      simp only [List.range_zero, List.foldl_nil]
      exact TreeInv_base choices size hsz
    | succ m ih =>
      intro hm
      rw [List.range_succ, List.foldl_append]
      simp only [List.foldl_cons, List.foldl_nil]
      exact treeStep_inv choices size m _ hchall (by omega) (ih (by omega))
  exact H (size - 2) le_rfl

def treeCostsOf (costDraws : ℕ → ℚ) (randomCosts : Bool) (size : ℕ) : List ℚ :=
  (if randomCosts then (List.range size).map costDraws
    else List.replicate size (1 : ℚ)).map
  (fun c => c / (if randomCosts then (List.range size).map costDraws
    else List.replicate size (1 : ℚ)).sum)

def treeGraphOf (choices : ℕ → ℕ) (costDraws : ℕ → ℚ) (randomCosts : Bool)
    (size : ℕ) : PlanarGraph :=
  ⟨treeCostsOf costDraws randomCosts size,
    ((List.range (size - 2)).foldl (treeStep choices)
      (treeInitStore, List.replicate size (0 : ℤ))).2,
    ((List.range (size - 2)).foldl (treeStep choices)
      (treeInitStore, List.replicate size (0 : ℤ))).1⟩

theorem generateRandomTree_eq (choices : ℕ → ℕ) (costDraws : ℕ → ℚ) (randomCosts : Bool)
    (size : ℕ) (hsz : ¬ size < 2) :
    generateRandomTree choices costDraws randomCosts size =
      Except.ok (treeGraphOf choices costDraws randomCosts size) := by
  unfold generateRandomTree treeGraphOf treeCostsOf
  rw [if_neg hsz]
  rfl

/-- Master correctness of the random-tree generator: for `size ≥ 2` and
in-range attachment choices, it succeeds with a well-formed graph on
`size` vertices and `size - 1` edges whose `j`-th edge joins
`choices (j-1)` (resp. `0`) to `j+1`, every vertex reachable from `0`. -/
theorem treeCostsOf_length (costDraws : ℕ → ℚ) (randomCosts : Bool) (size : ℕ) :
    (treeCostsOf costDraws randomCosts size).length = size := by
  unfold treeCostsOf
  cases randomCosts <;> simp

theorem treeGraphOf_size (choices : ℕ → ℕ) (costDraws : ℕ → ℚ) (randomCosts : Bool)
    (size : ℕ) : (treeGraphOf choices costDraws randomCosts size).size = size := by
  show (treeCostsOf costDraws randomCosts size).length = size
  exact treeCostsOf_length costDraws randomCosts size

theorem generateRandomTree_spec (choices : ℕ → ℕ) (costDraws : ℕ → ℚ) (randomCosts : Bool)
    (size : ℕ) (hsz : 2 ≤ size) (hchall : ∀ i, i < size - 2 → choices i < i + 2) :
    WF (treeGraphOf choices costDraws randomCosts size) ∧
    (treeGraphOf choices costDraws randomCosts size).edges.length = size - 1 ∧
    (∀ j, j < size - 1 →
      endpoint1 (treeGraphOf choices costDraws randomCosts size).edges j =
        (if j = 0 then 0 else choices (j - 1)) ∧
      endpoint2 (treeGraphOf choices costDraws randomCosts size).edges j = j + 1) ∧
    (∀ v, v < size → Reach (treeGraphOf choices costDraws randomCosts size).edges 0 v) := by
  obtain ⟨hL, hexL, heps, hrot, _⟩ := TreeInv_final choices size hsz hchall
  have hedges : (treeGraphOf choices costDraws randomCosts size).edges =
      ((List.range (size - 2)).foldl (treeStep choices)
        (treeInitStore, List.replicate size (0 : ℤ))).1 := rfl
  have hlenE : (treeGraphOf choices costDraws randomCosts size).edges.length = size - 1 := by
    rw [hedges, hL]
    omega
  have hepsE : ∀ j, j < size - 1 →
      endpoint1 (treeGraphOf choices costDraws randomCosts size).edges j =
        (if j = 0 then 0 else choices (j - 1)) ∧
      endpoint2 (treeGraphOf choices costDraws randomCosts size).edges j = j + 1 := by
    intro j hj
    rw [hedges]
    exact heps j (by omega)
  refine ⟨?_, hlenE, hepsE, ?_⟩
  · refine ⟨?_, ?_, ?_⟩
    · show (((List.range (size - 2)).foldl (treeStep choices)
        (treeInitStore, List.replicate size (0 : ℤ))).2).length = _
      rw [hexL, treeGraphOf_size]
    · intro e he
      rw [hlenE] at he
      obtain ⟨h1, h2⟩ := hepsE e he
      rw [h1, h2, treeGraphOf_size]
      refine ⟨?_, by omega, ?_⟩
      · by_cases he0 : e = 0
        · rw [if_pos he0]
          omega
        · rw [if_neg he0]
          have := hchall (e - 1) (by omega)
          omega
      · by_cases he0 : e = 0
        · rw [if_pos he0]
          omega
        · rw [if_neg he0]
          have := hchall (e - 1) (by omega)
          omega
    · intro v hv
      rw [treeGraphOf_size] at hv
      obtain ⟨l, hlne, hlnd, hlmem, hlinc, hlch, hlex⟩ := hrot v (by omega)
      have hlmem' : ∀ x ∈ l, x < (treeGraphOf choices costDraws randomCosts size).edges.length := by
        rw [hedges]
        exact hlmem
      have hlex' : exampleAt (treeGraphOf choices costDraws randomCosts size) v =
          Int.ofNat (getN l 0 0) := hlex
      have hlch' : chainNext (treeGraphOf choices costDraws randomCosts size).edges v l := by
        rw [hedges]
        exact hlch
      have hlist : (treeGraphOf choices costDraws randomCosts size).incList v = l :=
        incList_eq_of_wired (treeGraphOf choices costDraws randomCosts size) v l
          hlne hlnd hlch' hlmem' hlex'
      constructor
      · rw [hlist]
        refine ⟨hlnd, ?_, ?_, hlch'⟩
        · intro e hee
          have := (hlinc e).mp hee
          rw [hedges]
          exact this
        · intro e _ hie
          apply (hlinc e).mpr
          rw [hedges] at hie
          exact hie
      · rw [hlist]
        constructor
        · intro hc
          rw [hlex'] at hc
          exact absurd hc (ofNat_ne_neg_one _)
        · intro hc
          exact absurd hc hlne
  · intro v
    induction v using Nat.strong_induction_on with
    | _ v ih =>
      intro hv
      cases v with
      | zero => exact Reach.refl 0
      | succ k =>
        have hk : k < size - 1 := by omega
        obtain ⟨h1, h2⟩ := hepsE k hk
        have hclt : (if k = 0 then 0 else choices (k - 1)) < k + 1 := by
          by_cases hk0 : k = 0
          · rw [if_pos hk0]
            omega
          · rw [if_neg hk0]
            have := hchall (k - 1) (by omega)
            omega
        have hrc := ih _ hclt (by omega)
        have hinc : incidentIdx (treeGraphOf choices costDraws randomCosts size).edges k
            (if k = 0 then 0 else choices (k - 1)) := ⟨by rw [hlenE]; omega, Or.inl h1⟩
        have hstep := Reach.step k hrc hinc
        rw [oppositeAt_eq1 _ _ _ h1, h2] at hstep
        exact hstep

theorem generateRandomTree_err (choices : ℕ → ℕ) (costDraws : ℕ → ℚ) (randomCosts : Bool)
    (size : ℕ) (h : size < 2) :
    generateRandomTree choices costDraws randomCosts size =
      Except.error "The minimum size of 2 is allowed." := by
  unfold generateRandomTree
  rw [if_pos h]

/-! ### Breadth-first traversal and connected-component coloring

Embedding of `make_traverse_graph_via_bfs` specialized to the
`_color_adjacent_vertex` callback, and of `color_connected_components`
(`utils.py` lines 27-76).  The unbounded `while` loop over the queue is
modelled with fuel `g.size`: every loop iteration pops one vertex and each
vertex is enqueued at most once, so `g.size` iterations always suffice
(established by `bfsLoop_spec` below). -/

def bfsProcess (g : PlanarGraph) (vertex : ℕ) :
    List ℕ → List Bool × List ℤ × List ℕ → List Bool × List ℤ × List ℕ
  | [], st => st
  | e :: es, (used, colors, queue) =>
      let adjacent := oppositeAt g.edges e vertex
      if getN used adjacent false then bfsProcess g vertex es (used, colors, queue)
      else bfsProcess g vertex es
        (setN used adjacent true,
         setN colors adjacent (getN colors vertex (-1)),
         queue ++ [adjacent])

def bfsLoop (g : PlanarGraph) : ℕ → List ℕ → List Bool → List ℤ → List Bool × List ℤ
  | 0, _, used, colors => (used, colors)
  | _ + 1, [], used, colors => (used, colors)
  | fuel + 1, vertex :: rest, used, colors =>
      let st := bfsProcess g vertex (g.incList vertex) (used, colors, rest)
      bfsLoop g fuel st.2.2 st.1 st.2.1

def traverse_graph_via_bfs (start : ℕ) (g : PlanarGraph) (used : List Bool)
    (colors : List ℤ) : List Bool × List ℤ :=
  bfsLoop g g.size [start] (setN used start true) colors

def cccStep (g : PlanarGraph) (st : List Bool × List ℤ × ℤ) (v : ℕ) :
    List Bool × List ℤ × ℤ :=
  if getN st.1 v false then st
  else
    let cur := st.2.2 + 1
    let res := traverse_graph_via_bfs v g st.1 (setN st.2.1 v cur)
    (res.1, res.2, cur)

def color_connected_components (g : PlanarGraph) : List ℤ :=
  ((List.range g.size).foldl (cccStep g)
    (List.replicate g.size false, List.replicate g.size (-1 : ℤ), (-1 : ℤ))).2.1

theorem getN_setN_true_mono (l : List Bool) (a v : ℕ) (h : getN l v false = true) :
    getN (setN l a true) v false = true := by
  by_cases hva : v = a
  · subst hva
    by_cases hlt : v < l.length
    · rw [getN_setN_eq _ _ _ _ hlt]
    · rw [setN_of_le _ _ _ (by omega)]
      exact h
  · rw [getN_setN_ne _ _ _ _ _ hva]
    exact h

theorem count_setN_true (l : List Bool) (i : ℕ) (h : i < l.length)
    (hf : getN l i false = false) :
    (setN l i true).count true = l.count true + 1 := by
  induction l generalizing i with
  | nil => simp at h
  | cons a t ih =>
    cases i with
    | zero =>
      rw [getN_cons_zero] at hf
      subst hf
      simp [List.count_cons]
    | succ j =>
      rw [getN_cons_succ] at hf
      rw [setN_cons_succ]
      simp only [List.count_cons]
      rw [ih j (by simpa using h) hf]
      omega

theorem count_true_le (l : List Bool) : l.count true ≤ l.length :=
  List.count_le_length true l

theorem eq_replicate_of_getN (l : List α) (n : ℕ) (x d : α) (hlen : l.length = n)
    (h : ∀ i, i < n → getN l i d = x) : l = List.replicate n x := by
  apply List.ext_getElem (by simp [hlen])
  intro i h1 h2
  have := h i (by omega)
  rw [getN_eq_getElem _ _ _ (by omega)] at this
  simpa using this

theorem getN_setN_true_cases (l : List Bool) (a v : ℕ)
    (h : getN (setN l a true) v false = true) : getN l v false = true ∨ v = a := by
  by_cases hva : v = a
  · exact Or.inr hva
  · rw [getN_setN_ne _ _ _ _ _ hva] at h
    exact Or.inl h

theorem oppositeAt_lt (g : PlanarGraph) (hwf : WF g) (e vertex : ℕ)
    (hie : incidentIdx g.edges e vertex) : oppositeAt g.edges e vertex < g.size := by
  obtain ⟨helt, _⟩ := hie
  obtain ⟨hb1, hb2, _⟩ := hwf.2.1 e helt
  by_cases hc : vertex = endpoint1 g.edges e
  · rw [oppositeAt_eq1 _ _ _ hc.symm]
    exact hb2
  · rw [oppositeAt_eq2 _ _ _ (fun hcc => hc hcc.symm)]
    exact hb1

/-- Postcondition of processing one popped vertex's incidence list. -/
def BfsStepOK (g : PlanarGraph) (c : ℤ) (vertex : ℕ) (l : List ℕ)
    (used : List Bool) (colors : List ℤ) (queue : List ℕ)
    (res : List Bool × List ℤ × List ℕ) : Prop :=
  res.1.length = g.size ∧
  res.2.1.length = g.size ∧
  (∀ v, getN used v false = true → getN res.1 v false = true) ∧
  res.2.2.Nodup ∧
  (∀ v ∈ res.2.2, v < g.size ∧ getN res.1 v false = true) ∧
  (∀ v, v < g.size → getN res.1 v false = true → getN res.2.1 v (-1) = c) ∧
  (∀ e ∈ l, getN res.1 (oppositeAt g.edges e vertex) false = true) ∧
  (res.2.2.length + used.count true = queue.length + res.1.count true) ∧
  (∀ v, getN res.1 v false = true → getN used v false = true ∨ v ∈ res.2.2) ∧
  (∃ news, res.2.2 = queue ++ news)

theorem bfsProcess_spec (g : PlanarGraph) (hwf : WF g) (c : ℤ) (vertex : ℕ)
    (hv : vertex < g.size) :
    ∀ (l : List ℕ) (used : List Bool) (colors : List ℤ) (queue : List ℕ),
      (∀ e ∈ l, incidentIdx g.edges e vertex) →
      getN used vertex false = true →
      used.length = g.size → colors.length = g.size →
      queue.Nodup → (∀ v ∈ queue, v < g.size ∧ getN used v false = true) →
      (∀ v, v < g.size → getN used v false = true → getN colors v (-1) = c) →
      BfsStepOK g c vertex l used colors queue
        (bfsProcess g vertex l (used, colors, queue)) := by
  intro l
  induction l with
  | nil =>
    intro used colors queue _ _ hul hcl hqnd hqm hcol
    simp only [bfsProcess]
    exact ⟨hul, hcl, fun v h => h, hqnd, hqm, hcol, by simp, rfl,
      fun v hvv => Or.inl hvv, ⟨[], by simp⟩⟩
  | cons e es ih =>
    intro used colors queue hl hvu hul hcl hqnd hqm hcol
    have hie := hl e (by simp)
    have hadj_lt : oppositeAt g.edges e vertex < g.size := oppositeAt_lt g hwf e vertex hie
    simp only [bfsProcess]
    by_cases hused : getN used (oppositeAt g.edges e vertex) false = true
    · rw [if_pos hused]
      have main := ih used colors queue (fun x hx => hl x (by simp [hx]))
        hvu hul hcl hqnd hqm hcol
      obtain ⟨m1, m2, m3, m4, m5, m6, m7, m8, m9, m10⟩ := main
      refine ⟨m1, m2, m3, m4, m5, m6, ?_, m8, m9, m10⟩
      intro x hx
      rcases List.mem_cons.mp hx with hh | hh
      · subst hh
        exact m3 _ hused
      · exact m7 x hh
    · rw [if_neg hused]
      have hfalse : getN used (oppositeAt g.edges e vertex) false = false := by
        rw [Bool.not_eq_true] at hused
        exact hused
      have hadj_ltl : oppositeAt g.edges e vertex < used.length := by
        rw [hul]
        exact hadj_lt
      have hadj_ltc : oppositeAt g.edges e vertex < colors.length := by
        rw [hcl]
        exact hadj_lt
      have hvu2 : getN (setN used (oppositeAt g.edges e vertex) true) vertex false = true :=
        getN_setN_true_mono _ _ _ hvu
      have hqnd2 : (queue ++ [oppositeAt g.edges e vertex]).Nodup := by
        rw [List.nodup_append]
        refine ⟨hqnd, by simp, ?_⟩
        intro x hxq hxs
        have hxa : x = oppositeAt g.edges e vertex := by simpa using hxs
        subst hxa
        have := (hqm _ hxq).2
        rw [this] at hfalse
        cases hfalse
      have hqm2 : ∀ v ∈ queue ++ [oppositeAt g.edges e vertex],
          v < g.size ∧ getN (setN used (oppositeAt g.edges e vertex) true) v false = true := by
        intro v hvv
        rcases List.mem_append.mp hvv with hh | hh
        · exact ⟨(hqm v hh).1, getN_setN_true_mono _ _ _ (hqm v hh).2⟩
        · have hva : v = oppositeAt g.edges e vertex := by simpa using hh
          subst hva
          exact ⟨hadj_lt, by rw [getN_setN_eq _ _ _ _ hadj_ltl]⟩
      have hcol2 : ∀ v, v < g.size →
          getN (setN used (oppositeAt g.edges e vertex) true) v false = true →
          getN (setN colors (oppositeAt g.edges e vertex) (getN colors vertex (-1))) v (-1)
            = c := by
        intro v hvlt hvt
        by_cases hva : v = oppositeAt g.edges e vertex
        · subst hva
          rw [getN_setN_eq _ _ _ _ hadj_ltc]
          exact hcol vertex hv hvu
        · rw [getN_setN_ne _ _ _ _ _ hva]
          rw [getN_setN_ne _ _ _ _ _ hva] at hvt
          exact hcol v hvlt hvt
      have main := ih (setN used (oppositeAt g.edges e vertex) true)
        (setN colors (oppositeAt g.edges e vertex) (getN colors vertex (-1)))
        (queue ++ [oppositeAt g.edges e vertex])
        (fun x hx => hl x (by simp [hx])) hvu2 (by rw [length_setN]; exact hul)
        (by rw [length_setN]; exact hcl) hqnd2 hqm2 hcol2
      obtain ⟨m1, m2, m3, m4, m5, m6, m7, m8, m9, m10⟩ := main
      refine ⟨m1, m2, ?_, m4, m5, m6, ?_, ?_, ?_, ?_⟩
      · intro v hvt
        exact m3 v (getN_setN_true_mono _ _ _ hvt)
      · intro x hx
        rcases List.mem_cons.mp hx with hh | hh
        · subst hh
          exact m3 _ (by rw [getN_setN_eq _ _ _ _ hadj_ltl])
        · exact m7 x hh
      · rw [count_setN_true used _ hadj_ltl hfalse] at m8
        simp only [List.length_append, List.length_cons, List.length_nil] at m8
        omega
      · intro v hvt
        rcases m9 v hvt with hh | hh
        · rcases getN_setN_true_cases _ _ _ hh with hh2 | hh2
          · exact Or.inl hh2
          · subst hh2
            obtain ⟨news, hq⟩ := m10
            refine Or.inr ?_
            rw [hq]
            simp
        · exact Or.inr hh
      · obtain ⟨news, hq⟩ := m10
        exact ⟨oppositeAt g.edges e vertex :: news, by rw [hq, List.append_assoc]; rfl⟩

/-- Loop invariant of the BFS queue loop. -/
def BfsInv (g : PlanarGraph) (c : ℤ) (queue : List ℕ) (used : List Bool)
    (colors : List ℤ) : Prop :=
  used.length = g.size ∧ colors.length = g.size ∧ queue.Nodup ∧
  (∀ v ∈ queue, v < g.size ∧ getN used v false = true) ∧
  (∀ v, v < g.size → getN used v false = true → getN colors v (-1) = c) ∧
  (∀ v, v < g.size → getN used v false = true → v ∈ queue ∨
    (∀ e, incidentIdx g.edges e v → getN used (oppositeAt g.edges e v) false = true))

theorem bfsLoop_spec (g : PlanarGraph) (hwf : WF g) (c : ℤ) :
    ∀ (fuel : ℕ) (queue : List ℕ) (used : List Bool) (colors : List ℤ),
      BfsInv g c queue used colors →
      queue.length + (g.size - used.count true) ≤ fuel →
      (bfsLoop g fuel queue used colors).1.length = g.size ∧
      (bfsLoop g fuel queue used colors).2.length = g.size ∧
      (∀ v, getN used v false = true →
        getN (bfsLoop g fuel queue used colors).1 v false = true) ∧
      (∀ v, v < g.size → getN (bfsLoop g fuel queue used colors).1 v false = true →
        getN (bfsLoop g fuel queue used colors).2 v (-1) = c) ∧
      (∀ v, v < g.size → getN (bfsLoop g fuel queue used colors).1 v false = true →
        ∀ e, incidentIdx g.edges e v →
          getN (bfsLoop g fuel queue used colors).1 (oppositeAt g.edges e v) false = true) := by
  intro fuel
  induction fuel with
  | zero =>
    intro queue used colors hinv hfuel
    obtain ⟨h1, h2, _, _, h5, h6⟩ := hinv
    have hq : queue = [] := List.eq_nil_of_length_eq_zero (by omega)
    subst hq
    simp only [bfsLoop]
    refine ⟨h1, h2, fun v h => h, h5, ?_⟩
    intro v hvlt hvt e hie
    rcases h6 v hvlt hvt with hh | hh
    · simp at hh
    · exact hh e hie
  | succ fuel ih =>
    intro queue used colors hinv hfuel
    obtain ⟨h1, h2, h3, h4, h5, h6⟩ := hinv
    cases queue with
    | nil =>
      simp only [bfsLoop]
      refine ⟨h1, h2, fun v h => h, h5, ?_⟩
      intro v hvlt hvt e hie
      rcases h6 v hvlt hvt with hh | hh
      · simp at hh
      · exact hh e hie
    | cons vertex rest =>
      have hvlt : vertex < g.size := (h4 vertex (by simp)).1
      have hvu : getN used vertex false = true := (h4 vertex (by simp)).2
      obtain ⟨hrl, _⟩ := hwf.2.2 vertex hvlt
      obtain ⟨_, hlinc, hlcov, _⟩ := hrl
      have hrestnd : rest.Nodup := (List.nodup_cons.mp h3).2
      have main := bfsProcess_spec g hwf c vertex hvlt (g.incList vertex) used colors rest
        hlinc hvu h1 h2 hrestnd (fun v hv => h4 v (by simp [hv])) h5
      obtain ⟨m1, m2, m3, m4, m5, m6, m7, m8, m9, m10⟩ := main
      have hunfold : bfsLoop g (fuel + 1) (vertex :: rest) used colors =
          bfsLoop g fuel (bfsProcess g vertex (g.incList vertex) (used, colors, rest)).2.2
            (bfsProcess g vertex (g.incList vertex) (used, colors, rest)).1
            (bfsProcess g vertex (g.incList vertex) (used, colors, rest)).2.1 := rfl
      rw [hunfold]
      have hinv2 : BfsInv g c (bfsProcess g vertex (g.incList vertex) (used, colors, rest)).2.2
          (bfsProcess g vertex (g.incList vertex) (used, colors, rest)).1
          (bfsProcess g vertex (g.incList vertex) (used, colors, rest)).2.1 := by
        refine ⟨m1, m2, m4, m5, m6, ?_⟩
        intro v hvlt2 hvt
        rcases m9 v hvt with hh | hh
        · rcases h6 v hvlt2 hh with hh2 | hh2
          · rcases List.mem_cons.mp hh2 with hh3 | hh3
            · subst hh3
              refine Or.inr ?_
              intro e hie
              exact m7 e (hlcov e hie.1 hie)
            · refine Or.inl ?_
              obtain ⟨news, hq⟩ := m10
              rw [hq]
              exact List.mem_append.mpr (Or.inl hh3)
          · refine Or.inr ?_
            intro e hie
            exact m3 _ (hh2 e hie)
        · exact Or.inl hh
      have hcount1 : used.count true ≤ g.size := by
        have := count_true_le used
        omega
      have hcount2 : (bfsProcess g vertex (g.incList vertex) (used, colors, rest)).1.count true
          ≤ g.size := by
        have := count_true_le (bfsProcess g vertex (g.incList vertex) (used, colors, rest)).1
        omega
      have hmeas : (bfsProcess g vertex (g.incList vertex) (used, colors, rest)).2.2.length +
          (g.size - (bfsProcess g vertex (g.incList vertex)
            (used, colors, rest)).1.count true) ≤ fuel := by
        simp only [List.length_cons] at hfuel
        omega
      have rec := ih _ _ _ hinv2 hmeas
      obtain ⟨r1, r2, r3, r4, r5⟩ := rec
      exact ⟨r1, r2, fun v hv => r3 v (m3 v hv), r4, r5⟩

theorem reach_used (g : PlanarGraph) (hwf : WF g) (used : List Bool)
    (hclosed : ∀ v, v < g.size → getN used v false = true →
      ∀ e, incidentIdx g.edges e v → getN used (oppositeAt g.edges e v) false = true)
    (start : ℕ) (hstart : getN used start false = true) :
    ∀ v, Reach g.edges start v → v < g.size → getN used v false = true := by
  intro v hr
  induction hr with
  | refl => intro _; exact hstart
  | step e hr2 hie ih =>
    rename_i w
    intro _
    have hwlt : w < g.size := by
      rcases hie.2 with hh | hh
      · rw [← hh]
        exact (hwf.2.1 e hie.1).1
      · rw [← hh]
        exact (hwf.2.1 e hie.1).2.1
    exact hclosed w hwlt (ih hwlt) e hie

theorem cccStep_skip (g : PlanarGraph) (st : List Bool × List ℤ × ℤ) (v : ℕ)
    (h : getN st.1 v false = true) : cccStep g st v = st := by
  unfold cccStep
  rw [if_pos h]

theorem foldl_cccStep_skip (g : PlanarGraph) (L : List ℕ) (st : List Bool × List ℤ × ℤ)
    (h : ∀ v ∈ L, getN st.1 v false = true) : L.foldl (cccStep g) st = st := by
  induction L with
  | nil => rfl
  | cons a L2 ih =>
    rw [List.foldl_cons, cccStep_skip g st a (h a (by simp))]
    exact ih (fun v hv => h v (by simp [hv]))

/-- On a well-formed graph in which every vertex is reachable from vertex
`0`, the component coloring is the all-zero array: the first BFS sweeps the
whole graph and the outer loop never starts a second color. -/
theorem color_connected_components_connected (g : PlanarGraph) (hwf : WF g)
    (hpos : 0 < g.size) (hconn : ∀ v, v < g.size → Reach g.edges 0 v) :
    color_connected_components g = List.replicate g.size (0 : ℤ) := by
  have hlen0 : (List.replicate g.size false).length = g.size := by simp
  have hstart_used : getN (setN (List.replicate g.size false) 0 true) 0 false = true := by
    rw [getN_setN_eq _ _ _ _ (by simpa using hpos)]
  have honly0 : ∀ v, getN (setN (List.replicate g.size false) 0 true) v false = true →
      v = 0 := by
    intro v hv
    by_contra hne
    rw [getN_setN_ne _ _ _ _ _ hne] at hv
    by_cases hvlt : v < g.size
    · rw [getN_replicate _ _ _ _ hvlt] at hv
      cases hv
    · rw [getN_of_le _ _ _ (by simpa using not_lt.mp hvlt)] at hv
      cases hv
  have hinv : BfsInv g 0 [0] (setN (List.replicate g.size false) 0 true)
      (setN (List.replicate g.size (-1 : ℤ)) 0 ((-1 : ℤ) + 1)) := by
    refine ⟨by simp, by simp, by simp, ?_, ?_, ?_⟩
    · intro v hv
      have hv0 : v = 0 := by simpa using hv
      subst hv0
      exact ⟨hpos, hstart_used⟩
    · intro v hvlt hvu
      have hv0 := honly0 v hvu
      subst hv0
      rw [getN_setN_eq _ _ _ _ (by simpa using hpos)]
      norm_num
    · intro v hvlt hvu
      exact Or.inl (by simp [honly0 v hvu])
  have hcnt0 : List.count true (List.replicate g.size false) = 0 := by
    rw [List.count_replicate]
    simp
  have hcount : (setN (List.replicate g.size false) 0 true).count true = 1 := by
    rw [count_setN_true _ _ (by simpa using hpos) (by rw [getN_replicate _ _ _ _ hpos]),
      hcnt0]
  have hmeas : ([0] : List ℕ).length +
      (g.size - (setN (List.replicate g.size false) 0 true).count true) ≤ g.size := by
    rw [hcount]
    simp
    omega
  obtain ⟨r1, r2, r3, r4, r5⟩ := bfsLoop_spec g hwf 0 g.size [0]
    (setN (List.replicate g.size false) 0 true)
    (setN (List.replicate g.size (-1 : ℤ)) 0 ((-1 : ℤ) + 1)) hinv hmeas
  have hall : ∀ v, v < g.size →
      getN (bfsLoop g g.size [0] (setN (List.replicate g.size false) 0 true)
        (setN (List.replicate g.size (-1 : ℤ)) 0 ((-1 : ℤ) + 1))).1 v false = true := by
    intro v hv
    exact reach_used g hwf _ r5 0 (r3 0 hstart_used) v (hconn v hv) hv
  have hcolors : ∀ v, v < g.size →
      getN (bfsLoop g g.size [0] (setN (List.replicate g.size false) 0 true)
        (setN (List.replicate g.size (-1 : ℤ)) 0 ((-1 : ℤ) + 1))).2 v (-1) = 0 := by
    intro v hv
    exact r4 v hv (hall v hv)
  unfold color_connected_components
  obtain ⟨k, hk⟩ : ∃ k, g.size = k + 1 := ⟨g.size - 1, by omega⟩
  rw [hk, List.range_succ_eq_map, List.foldl_cons]
  have hstep1 : cccStep g
      (List.replicate g.size false, List.replicate g.size (-1 : ℤ), (-1 : ℤ)) 0 =
      ((bfsLoop g g.size [0] (setN (List.replicate g.size false) 0 true)
          (setN (List.replicate g.size (-1 : ℤ)) 0 ((-1 : ℤ) + 1))).1,
        (bfsLoop g g.size [0] (setN (List.replicate g.size false) 0 true)
          (setN (List.replicate g.size (-1 : ℤ)) 0 ((-1 : ℤ) + 1))).2,
        (-1 : ℤ) + 1) := by
    unfold cccStep
    rw [if_neg (by rw [getN_replicate _ _ _ _ hpos]; simp)]
    rfl
  rw [← hk, hstep1]
  rw [foldl_cccStep_skip g _ _ ?hs]
  · exact eq_replicate_of_getN _ _ _ _ r2 hcolors
  · intro v hv
    obtain ⟨i, hi, hiv⟩ := List.mem_map.mp hv
    have hilt : i < k := List.mem_range.mp hi
    exact hall v (by omega)

/-! ### Double-edge removal, cost normalization, random graph generation

Embedding of `_remove_double_edges`, `_normalize_vertex_costs` and
`_generate_random_graph` (`planar_graph_generator.py` lines 66-126).  The
external `triangulator.triangulate` and the `numpy` shuffle are passed as
function parameters. -/

def rdeInner1 (g : PlanarGraph) (v : ℕ) :
    List ℕ → List Bool × List Bool → List Bool × List Bool
  | [], st => st
  | e :: es, (adjMask, eMask) =>
      let a := oppositeAt g.edges e v
      if getN adjMask a false then rdeInner1 g v es (adjMask, setN eMask e false)
      else if getN eMask e false then rdeInner1 g v es (setN adjMask a true, eMask)
      else rdeInner1 g v es (adjMask, eMask)

def rdeInner2 (g : PlanarGraph) (v : ℕ) : List ℕ → List Bool → List Bool
  | [], am => am
  | e :: es, am => rdeInner2 g v es (setN am (oppositeAt g.edges e v) false)

def removeDoubleEdgesMask (g : PlanarGraph) : List Bool :=
  ((List.range g.size).foldl
    (fun st v =>
      let st1 := rdeInner1 g v (g.incList v) st
      (rdeInner2 g v (g.incList v) st1.1, st1.2))
    (List.replicate g.size false, List.replicate g.edges_count true)).2

def remove_double_edges (g : PlanarGraph) : PlanarGraph :=
  (construct_subgraph g (List.replicate g.size true) (removeDoubleEdgesMask g)).2.2

def normalize_vertex_costs (g : PlanarGraph) : PlanarGraph :=
  ⟨g.vertex_costs.map (fun c => c / g.vertex_costs.sum),
    g.incident_edge_example_indices, g.edges⟩

/-- `int(density * edges_count)`: truncation, i.e. the floor for the
nonnegative densities admitted by the generator. -/
def edges_to_leave_count (density : ℚ) (E : ℕ) : ℕ := (⌊density * E⌋).toNat

def randomEdgesMask (density : ℚ) (E : ℕ) : List Bool :=
  List.replicate (edges_to_leave_count density E) true ++
    List.replicate (E - edges_to_leave_count density E) false

def generate_random_graph (choices : ℕ → ℕ) (costDraws : ℕ → ℚ) (randomCosts : Bool)
    (size : ℕ) (density : ℚ) (triangulate : PlanarGraph → PlanarGraph)
    (shuffle : List Bool → List Bool) : Except String PlanarGraph :=
  (generateRandomTree choices costDraws randomCosts size).map (fun tree =>
    let tri := triangulate tree
    let mask := shuffle (randomEdgesMask density tri.edges_count)
    let graph := (construct_subgraph tri (List.replicate tri.size true) mask).2.2
    normalize_vertex_costs (remove_double_edges graph))

theorem WF_normalize (g : PlanarGraph) (hwf : WF g) : WF (normalize_vertex_costs g) := by
  obtain ⟨h1, h2, h3⟩ := hwf
  have hsz : (normalize_vertex_costs g).size = g.size := by
    show (g.vertex_costs.map _).length = g.vertex_costs.length
    simp
  refine ⟨?_, ?_, ?_⟩
  · show g.incident_edge_example_indices.length = _
    rw [hsz]
    exact h1
  · intro e he
    rw [hsz]
    exact h2 e he
  · intro v hv
    rw [hsz] at hv
    exact h3 v hv

theorem WF_remove_double_edges (g : PlanarGraph) (hwf : WF g) :
    WF (remove_double_edges g) :=
  (construct_subgraph_main g (List.replicate g.size true) (removeDoubleEdgesMask g)
    hwf (by simp)).1

theorem randomEdgesMask_count (density : ℚ) (E : ℕ) :
    (randomEdgesMask density E).count true = edges_to_leave_count density E := by
  unfold randomEdgesMask
  rw [List.count_append, List.count_replicate, List.count_replicate]
  simp

/-! ### The subgraph boundary walker

Embedding of `iterate_subgraph_incidence_indices` (`utils.py` lines
123-143).  The generator's unbounded `while` loop is modelled with explicit
fuel: `(yields, stopped)` after at most `fuel` iterations, `stopped = true`
exactly when the loop condition `current_edge = start_edge ∧
current_opposite = start_vertex` was reached within the fuel. -/

def walkerNext (g : PlanarGraph) (sub poss : List Bool) (st : ℕ × ℕ × ℕ) :
    (ℕ × ℕ × ℕ) × List ℕ :=
  let cv2 := if getN sub st.2.1 false then st.2.2 else st.1
  let out := if getN sub st.2.1 false then []
    else if getN poss st.2.1 false then [st.2.1] else []
  let ce2 := getNextAt g.edges st.2.1 cv2
  ((cv2, ce2, oppositeAt g.edges ce2 cv2), out)

def iterate_subgraph_incidence_indices (g : PlanarGraph) (sub poss : List Bool)
    (startV startE : ℕ) : ℕ → ℕ × ℕ × ℕ → List ℕ × Bool
  | 0, _ => ([], false)
  | fuel + 1, st =>
      if st.2.1 = startE ∧ st.2.2 = startV then ([], true)
      else
        let next := walkerNext g sub poss st
        let rest := iterate_subgraph_incidence_indices g sub poss startV startE fuel next.1
        (next.2 ++ rest.1, rest.2)

def walkerInit (g : PlanarGraph) (startV startE : ℕ) : ℕ × ℕ × ℕ :=
  (startV, getNextAt g.edges startE startV,
    oppositeAt g.edges (getNextAt g.edges startE startV) startV)

theorem next_incident (g : PlanarGraph) (hwf : WF g) (v e : ℕ) (hv : v < g.size)
    (hie : incidentIdx g.edges e v) : incidentIdx g.edges (getNextAt g.edges e v) v := by
  obtain ⟨⟨hnd, hmem, hcov, hch⟩, _⟩ := hwf.2.2 v hv
  have hmem_e : e ∈ g.incList v := hcov e hie.1 hie
  obtain ⟨i, hi, hieq⟩ := mem_exists_getN (g.incList v) e hmem_e
  rw [← hieq, hch i hi]
  exact hmem _ (getN_mem _ _ _ (Nat.mod_lt _ (by omega)))

theorem oppositeAt_ne (g : PlanarGraph) (hwf : WF g) (v e : ℕ)
    (hie : incidentIdx g.edges e v) : oppositeAt g.edges e v ≠ v := by
  obtain ⟨hb1, hb2, hne⟩ := hwf.2.1 e hie.1
  by_cases hc : endpoint1 g.edges e = v
  · rw [oppositeAt_eq1 _ _ _ hc]
    rw [← hc]
    exact fun hcc => hne hcc.symm
  · rw [oppositeAt_eq2 _ _ _ hc]
    rcases hie.2 with hh | hh
    · exact absurd hh hc
    · rw [← hh]
      exact hne

theorem iterate_stepTo_from (es : EdgeStore) (v : ℕ) (l : List ℕ) (hne : l ≠ [])
    (hch : chainNext es v l) (p : ℕ) (hp : p < l.length) :
    ∀ k, (stepTo es v)^[k] (getN l p 0) = getN l ((p + k) % l.length) 0 := by
  have hlen : 0 < l.length := List.length_pos.mpr hne
  intro k
  induction k with
  | zero => simp [Nat.mod_eq_of_lt hp]
  | succ n ih =>
    rw [Function.iterate_succ_apply', ih]
    unfold stepTo
    rw [hch ((p + n) % l.length) (Nat.mod_lt _ hlen)]
    congr 1
    conv_rhs => rw [show p + (n + 1) = p + n + 1 from by omega, Nat.add_mod (p + n) 1]
    rcases Nat.lt_or_ge 1 l.length with h1 | h1
    · rw [Nat.mod_eq_of_lt h1]
    · have : l.length = 1 := by omega
      simp [this]

/-- With an all-false subgraph mask and an all-true possible-incidence mask,
one iteration of the walker from a state at the start vertex with an
incident current edge yields that edge and advances along the rotation. -/
theorem walker_run (g : PlanarGraph) (hwf : WF g) (sub poss : List Bool)
    (startV startE : ℕ) (hsub : ∀ e, getN sub e false = false)
    (hposs : ∀ e, e < g.edges.length → getN poss e false = true) (hv : startV < g.size) :
    ∀ fuel ce, incidentIdx g.edges ce startV →
      (iterate_subgraph_incidence_indices g sub poss startV startE fuel
        (startV, ce, oppositeAt g.edges ce startV)).2 = false ∧
      (iterate_subgraph_incidence_indices g sub poss startV startE fuel
        (startV, ce, oppositeAt g.edges ce startV)).1 =
        (List.range fuel).map (fun i => (stepTo g.edges startV)^[i] ce) := by
  intro fuel
  induction fuel with
  | zero =>
    intro ce _
    exact ⟨rfl, rfl⟩
  | succ n ih =>
    intro ce hie
    have hstop : ¬ ((startV, ce, oppositeAt g.edges ce startV).2.1 = startE ∧
        (startV, ce, oppositeAt g.edges ce startV).2.2 = startV) := by
      intro hc
      exact oppositeAt_ne g hwf startV ce hie hc.2
    have hnext : walkerNext g sub poss (startV, ce, oppositeAt g.edges ce startV) =
        ((startV, getNextAt g.edges ce startV,
          oppositeAt g.edges (getNextAt g.edges ce startV) startV), [ce]) := by
      unfold walkerNext
      rw [show (startV, ce, oppositeAt g.edges ce startV).2.1 = ce from rfl]
      rw [hsub ce, hposs ce hie.1]
      rfl
    have hrec := ih (getNextAt g.edges ce startV) (next_incident g hwf startV ce hv hie)
    rw [show iterate_subgraph_incidence_indices g sub poss startV startE (n + 1)
        (startV, ce, oppositeAt g.edges ce startV) =
      ((walkerNext g sub poss (startV, ce, oppositeAt g.edges ce startV)).2 ++
        (iterate_subgraph_incidence_indices g sub poss startV startE n
          (walkerNext g sub poss (startV, ce, oppositeAt g.edges ce startV)).1).1,
        (iterate_subgraph_incidence_indices g sub poss startV startE n
          (walkerNext g sub poss (startV, ce, oppositeAt g.edges ce startV)).1).2)
      from by rw [iterate_subgraph_incidence_indices, if_neg hstop]]
    rw [hnext]
    refine ⟨hrec.1, ?_⟩
    rw [hrec.2, List.range_succ_eq_map, List.map_cons]
    simp only [Function.iterate_zero_apply, List.map_map]
    congr 1

/-! ### Post-order depth-first search

Embedding of `make_traverse_graph_via_post_order_dfs` (`utils.py` lines
78-121), instrumented so that the callback records its vertex argument: the
returned pair is (`parent_edge_indices`, the list of callback invocations in
order).  The stack is a `List` with the head as its top; the unbounded
`while` loop is modelled with fuel `2 * g.size`, enough because every
iteration either pushes at least one newly-visited vertex or pops one. -/

def dfsScan (g : PlanarGraph) (mask : List Bool) (vertex : ℕ) :
    List ℕ → List ℤ × List Bool × List ℕ × Bool → List ℤ × List Bool × List ℕ × Bool
  | [], st => st
  | e :: es, (pe, used, stack, added) =>
      if getN mask e false then
        let adj := oppositeAt g.edges e vertex
        if getN used adj false then dfsScan g mask vertex es (pe, used, stack, added)
        else dfsScan g mask vertex es
          (setN pe adj (Int.ofNat e), setN used adj true, adj :: stack, true)
      else dfsScan g mask vertex es (pe, used, stack, added)

def dfsLoop (g : PlanarGraph) (mask : List Bool) :
    ℕ → List ℕ → List ℤ → List Bool → List ℕ → List ℤ × List ℕ
  | 0, _, pe, _, post => (pe, post)
  | _ + 1, [], pe, _, post => (pe, post)
  | fuel + 1, vertex :: rest, pe, used, post =>
      let sc := dfsScan g mask vertex (g.incList vertex) (pe, used, vertex :: rest, false)
      if sc.2.2.2 then dfsLoop g mask fuel sc.2.2.1 sc.1 sc.2.1 post
      else
        dfsLoop g mask fuel rest pe used
          (if getN pe vertex (-1) = -1 then post else post ++ [vertex])

def traverse_graph_via_post_order_dfs (start : ℕ) (g : PlanarGraph)
    (mask : List Bool) : List ℤ × List ℕ :=
  dfsLoop g mask (2 * g.size) [start]
    (List.replicate g.size (-1 : ℤ)) (setN (List.replicate g.size false) start true) []

/-- Reachability along mask-enabled edges. -/
inductive ReachM (es : EdgeStore) (mask : List Bool) : ℕ → ℕ → Prop
  | refl (v : ℕ) : ReachM es mask v v
  | step {u w : ℕ} (e : ℕ) : ReachM es mask u w → incidentIdx es e w →
      getN mask e false = true → ReachM es mask u (oppositeAt es e w)

/-- `p` is the DFS-tree parent of `c` as recorded in `pe`. -/
def parentStep (es : EdgeStore) (pe : List ℤ) (c p : ℕ) : Prop :=
  getN pe c (-1) ≠ -1 ∧ p = oppositeAt es (getN pe c (-1)).toNat c

/-- `d` is a strict descendant of `a` in the recorded DFS tree. -/
def IsDescOf (es : EdgeStore) (pe : List ℤ) (d a : ℕ) : Prop :=
  Relation.TransGen (parentStep es pe) d a

theorem parentStep_fn (es : EdgeStore) (pe : List ℤ) (c p q : ℕ)
    (h1 : parentStep es pe c p) (h2 : parentStep es pe c q) : p = q := by
  rw [h1.2, h2.2]

theorem incidentIdx_opposite (es : EdgeStore) (e v : ℕ) (hie : incidentIdx es e v) :
    incidentIdx es e (oppositeAt es e v) := by
  refine ⟨hie.1, ?_⟩
  by_cases hc : endpoint1 es e = v
  · rw [oppositeAt_eq1 _ _ _ hc]
    exact Or.inr rfl
  · rw [oppositeAt_eq2 _ _ _ hc]
    exact Or.inl rfl

theorem oppositeAt_invol (es : EdgeStore) (e v : ℕ) (hie : incidentIdx es e v)
    (hne : endpoint1 es e ≠ endpoint2 es e) :
    oppositeAt es e (oppositeAt es e v) = v := by
  by_cases hc : endpoint1 es e = v
  · rw [oppositeAt_eq1 _ _ _ hc, oppositeAt_eq2 _ _ _ (fun hcc => hne hcc), hc]
  · have h2 : endpoint2 es e = v := by
      rcases hie.2 with hh | hh
      · exact absurd hh hc
      · exact hh
    rw [oppositeAt_eq2 _ _ _ hc, oppositeAt_eq1 _ _ _ rfl, h2]

theorem IsDescOf_stable (es : EdgeStore) (pe pe2 : List ℤ) (used : List Bool)
    (hframe : ∀ v, getN used v false = true → getN pe2 v (-1) = getN pe v (-1))
    (hpar : ∀ c p, parentStep es pe c p → getN used p false = true)
    (b a : ℕ) (hb : getN used b false = true)
    (h : IsDescOf es pe2 b a) : IsDescOf es pe b a := by
  unfold IsDescOf at h ⊢
  have H : ∀ x, Relation.TransGen (parentStep es pe2) x a →
      getN used x false = true → Relation.TransGen (parentStep es pe) x a := by
    intro x hx
    induction hx using Relation.TransGen.head_induction_on with
    | base hstep =>
      rename_i y
      intro hy
      refine Relation.TransGen.single ?_
      obtain ⟨hne, hp⟩ := hstep
      rw [hframe y hy] at hne hp
      exact ⟨hne, hp⟩
    | ih hstep htail ihh =>
      rename_i y cc
      intro hy
      have hstep' : parentStep es pe y cc := by
        obtain ⟨hne, hp⟩ := hstep
        rw [hframe y hy] at hne hp
        exact ⟨hne, hp⟩
      exact Relation.TransGen.head hstep' (ihh (hpar y cc hstep'))
  exact H b h hb

/-- Postcondition of one scan of a stack-top vertex's incidence list:
`news` collects the newly visited and pushed vertices. -/
def ScanOK (g : PlanarGraph) (mask : List Bool) (vertex : ℕ) (l : List ℕ)
    (pe : List ℤ) (used : List Bool) (stack : List ℕ) (added : Bool)
    (res : List ℤ × List Bool × List ℕ × Bool) : Prop :=
  ∃ news : List ℕ,
    res.2.2.1 = news ++ stack ∧
    res.1.length = pe.length ∧
    res.2.1.length = used.length ∧
    (∀ v, getN res.2.1 v false = true ↔ (getN used v false = true ∨ v ∈ news)) ∧
    (∀ w ∈ news, getN used w false = false) ∧
    (∀ w ∈ news, w < g.size) ∧
    news.Nodup ∧
    (∀ v, v ∉ news → getN res.1 v (-1) = getN pe v (-1)) ∧
    (∀ w ∈ news, ∃ e, e ∈ l ∧ getN mask e false = true ∧
      incidentIdx g.edges e vertex ∧ w = oppositeAt g.edges e vertex ∧
      getN res.1 w (-1) = Int.ofNat e) ∧
    (res.2.2.2 = true ↔ (added = true ∨ news ≠ [])) ∧
    (res.2.1.count true = used.count true + news.length) ∧
    ((∀ e ∈ l, getN mask e false = true →
      getN used (oppositeAt g.edges e vertex) false = true) ∨ news ≠ [])

theorem dfsScan_spec (g : PlanarGraph) (hwf : WF g) (mask : List Bool) (vertex : ℕ) :
    ∀ (l : List ℕ) (pe : List ℤ) (used : List Bool) (stack : List ℕ) (added : Bool),
      (∀ e ∈ l, incidentIdx g.edges e vertex) →
      pe.length = g.size → used.length = g.size →
      ScanOK g mask vertex l pe used stack added
        (dfsScan g mask vertex l (pe, used, stack, added)) := by
  intro l
  induction l with
  | nil =>
    intro pe used stack added _ _ _
    simp only [dfsScan]
    exact ⟨[], rfl, rfl, rfl, fun v => by simp, by simp, by simp, by simp,
      fun v _ => rfl, by simp, by simp, by simp, Or.inl (by simp)⟩
  | cons e es ih =>
    intro pe used stack added hl hpl hul
    have hie := hl e (by simp)
    have hadj_lt : oppositeAt g.edges e vertex < g.size := oppositeAt_lt g hwf e vertex hie
    simp only [dfsScan]
    by_cases hm : getN mask e false = true
    · rw [if_pos hm]
      by_cases hu : getN used (oppositeAt g.edges e vertex) false = true
      · rw [if_pos hu]
        obtain ⟨news, s1, s2, s3, s4, s5, s6, s7, s8, s9, s10, s11, s12⟩ :=
          ih pe used stack added (fun x hx => hl x (by simp [hx])) hpl hul
        refine ⟨news, s1, s2, s3, s4, s5, s6, s7, s8, ?_, s10, s11, ?_⟩
        · intro w hw
          obtain ⟨e2, he2, hrest⟩ := s9 w hw
          exact ⟨e2, by simp [he2], hrest⟩
        · rcases s12 with hh | hh
          · refine Or.inl ?_
            intro x hx hmx
            rcases List.mem_cons.mp hx with h2 | h2
            · subst h2
              exact hu
            · exact hh x h2 hmx
          · exact Or.inr hh
      · rw [if_neg hu]
        have hufalse : getN used (oppositeAt g.edges e vertex) false = false := by
          rw [Bool.not_eq_true] at hu
          exact hu
        have hadjpl : oppositeAt g.edges e vertex < pe.length := by
          rw [hpl]
          exact hadj_lt
        have hadjul : oppositeAt g.edges e vertex < used.length := by
          rw [hul]
          exact hadj_lt
        obtain ⟨news, s1, s2, s3, s4, s5, s6, s7, s8, s9, s10, s11, s12⟩ :=
          ih (setN pe (oppositeAt g.edges e vertex) (Int.ofNat e))
            (setN used (oppositeAt g.edges e vertex) true)
            (oppositeAt g.edges e vertex :: stack) true
            (fun x hx => hl x (by simp [hx])) (by rw [length_setN]; exact hpl)
            (by rw [length_setN]; exact hul)
        have hfresh_not : oppositeAt g.edges e vertex ∉ news := by
          intro hc
          have := s5 _ hc
          rw [getN_setN_eq _ _ _ _ hadjul] at this
          cases this
        refine ⟨news ++ [oppositeAt g.edges e vertex], ?_, ?_, ?_, ?_, ?_, ?_, ?_, ?_, ?_,
          ?_, ?_, Or.inr (by simp)⟩
        · rw [s1, List.append_assoc]
          rfl
        · rw [s2, length_setN]
        · rw [s3, length_setN]
        · intro v
          rw [s4]
          constructor
          · intro hh
            rcases hh with hh | hh
            · rcases getN_setN_true_cases _ _ _ hh with h2 | h2
              · exact Or.inl h2
              · subst h2
                exact Or.inr (by simp)
            · exact Or.inr (by simp [hh])
          · intro hh
            rcases hh with hh | hh
            · exact Or.inl (getN_setN_true_mono _ _ _ hh)
            · rcases List.mem_append.mp hh with h2 | h2
              · exact Or.inr h2
              · have h3 : v = oppositeAt g.edges e vertex := by simpa using h2
                subst h3
                exact Or.inl (by rw [getN_setN_eq _ _ _ _ hadjul])
        · intro w hw
          rcases List.mem_append.mp hw with hh | hh
          · have := s5 w hh
            rcases getN_setN_true_cases used (oppositeAt g.edges e vertex) w with h2
            · by_cases hwa : w = oppositeAt g.edges e vertex
              · subst hwa
                exact hufalse
              · rw [getN_setN_ne _ _ _ _ _ hwa] at this
                exact this
          · have h3 : w = oppositeAt g.edges e vertex := by simpa using hh
            subst h3
            exact hufalse
        · intro w hw
          rcases List.mem_append.mp hw with hh | hh
          · exact s6 w hh
          · have h3 : w = oppositeAt g.edges e vertex := by simpa using hh
            subst h3
            exact hadj_lt
        · rw [List.nodup_append]
          refine ⟨s7, by simp, ?_⟩
          intro x hx hxs
          have h3 : x = oppositeAt g.edges e vertex := by simpa using hxs
          subst h3
          exact hfresh_not hx
        · intro v hv
          have hv1 : v ∉ news := fun hc => hv (List.mem_append.mpr (Or.inl hc))
          have hv2 : v ≠ oppositeAt g.edges e vertex := by
            intro hc
            exact hv (List.mem_append.mpr (Or.inr (by simp [hc])))
          rw [s8 v hv1, getN_setN_ne _ _ _ _ _ hv2]
        · intro w hw
          rcases List.mem_append.mp hw with hh | hh
          · obtain ⟨e2, he2, hrest⟩ := s9 w hh
            exact ⟨e2, by simp [he2], hrest⟩
          · have h3 : w = oppositeAt g.edges e vertex := by simpa using hh
            subst h3
            refine ⟨e, by simp, hm, hie, rfl, ?_⟩
            rw [s8 _ hfresh_not, getN_setN_eq _ _ _ _ hadjpl]
        · rw [s10]
          constructor
          · intro _
            exact Or.inr (by simp)
          · intro _
            exact Or.inl rfl
        · rw [s11, count_setN_true _ _ hadjul hufalse]
          simp only [List.length_append, List.length_cons, List.length_nil]
          omega
    · rw [if_neg hm]
      obtain ⟨news, s1, s2, s3, s4, s5, s6, s7, s8, s9, s10, s11, s12⟩ :=
        ih pe used stack added (fun x hx => hl x (by simp [hx])) hpl hul
      refine ⟨news, s1, s2, s3, s4, s5, s6, s7, s8, ?_, s10, s11, ?_⟩
      · intro w hw
        obtain ⟨e2, he2, hrest⟩ := s9 w hw
        exact ⟨e2, by simp [he2], hrest⟩
      · rcases s12 with hh | hh
        · refine Or.inl ?_
          intro x hx hmx
          rcases List.mem_cons.mp hx with h2 | h2
          · subst h2
            rw [hmx] at hm
            exact absurd rfl hm
          · exact hh x h2 hmx
        · exact Or.inr hh

theorem pe_lt_of_ne (pe : List ℤ) (v : ℕ) (h : getN pe v (-1) ≠ -1) : v < pe.length := by
  by_contra hc
  rw [getN_of_le _ _ _ (by omega)] at h
  exact h rfl

theorem desc_in_post (es : EdgeStore) (pe : List ℤ) (post : List ℕ)
    (hK3 : ∀ a ∈ post, ∀ w, parentStep es pe w a → w ∈ post) :
    ∀ w a, a ∈ post → IsDescOf es pe w a → w ∈ post := by
  intro w a ha h
  unfold IsDescOf at h
  induction h using Relation.TransGen.head_induction_on with
  | base hstep =>
    rename_i y
    exact hK3 a ha y hstep
  | ih hstep htail ihh =>
    rename_i y cc
    exact hK3 cc ihh y hstep

theorem reachM_used (g : PlanarGraph) (hwf : WF g) (mask : List Bool) (used : List Bool)
    (hclosed : ∀ v, v < g.size → getN used v false = true →
      ∀ e, incidentIdx g.edges e v → getN mask e false = true →
      getN used (oppositeAt g.edges e v) false = true)
    (start : ℕ) (hstart : getN used start false = true) :
    ∀ v, ReachM g.edges mask start v → v < g.size → getN used v false = true := by
  intro v hr
  induction hr with
  | refl => intro _; exact hstart
  | step e hr2 hie hm ih =>
    rename_i w
    intro _
    have hwlt : w < g.size := by
      rcases hie.2 with hh | hh
      · rw [← hh]
        exact (hwf.2.1 e hie.1).1
      · rw [← hh]
        exact (hwf.2.1 e hie.1).2.1
    exact hclosed w hwlt (ih hwlt) e hie hm

theorem getLastQ_append_right (l1 l2 : List α) (h : l2 ≠ []) :
    (l1 ++ l2).getLast? = l2.getLast? := by
  rw [List.getLast?_append]
  have hs : l2.getLast?.isSome := List.getLast?_isSome.mpr h
  cases h2 : l2.getLast? with
  | none =>
    rw [h2] at hs
    cases hs
  | some x => rfl

theorem mem_of_getLastQ (l : List α) (a : α) (h : l.getLast? = some a) : a ∈ l := by
  induction l with
  | nil => cases h
  | cons b t ih =>
    cases t with
    | nil =>
      have : b = a := by simpa using h
      simp [this]
    | cons c t2 =>
      rw [List.getLast?_cons_cons] at h
      exact List.mem_cons_of_mem b (ih h)

/-- The DFS loop invariant: array lengths, write-once parent edges tied to
the visited set, reachability soundness, stack/post bookkeeping, masked
closedness of finished vertices, parents living deeper in the stack, posted
subtrees being complete, and the post list already in post-order. -/
def DfsInv (g : PlanarGraph) (mask : List Bool) (start : ℕ)
    (stack : List ℕ) (pe : List ℤ) (used : List Bool) (post : List ℕ) : Prop :=
  pe.length = g.size ∧
  used.length = g.size ∧
  stack.Nodup ∧
  (∀ v ∈ stack, v < g.size ∧ getN used v false = true) ∧
  getN pe start (-1) = -1 ∧
  getN used start false = true ∧
  (∀ v, v < g.size → v ≠ start → (getN used v false = true ↔ getN pe v (-1) ≠ -1)) ∧
  (∀ v, v < g.size → getN pe v (-1) ≠ -1 → ∃ e, getN pe v (-1) = Int.ofNat e ∧
      getN mask e false = true ∧ incidentIdx g.edges e v) ∧
  (∀ v, v < g.size → getN used v false = true → ReachM g.edges mask start v) ∧
  post.Nodup ∧
  (∀ v ∈ post, v < g.size ∧ getN used v false = true ∧ v ≠ start) ∧
  (∀ v ∈ post, v ∉ stack) ∧
  (∀ v, v < g.size → getN used v false = true → v ∈ stack ∨ v ∈ post) ∧
  (∀ v, v < g.size → getN used v false = true → v ∈ stack ∨
      (∀ e, incidentIdx g.edges e v → getN mask e false = true →
        getN used (oppositeAt g.edges e v) false = true)) ∧
  (∀ c p, parentStep g.edges pe c p → getN used p false = true) ∧
  (∀ a ∈ post, ∀ w, parentStep g.edges pe w a → w ∈ post) ∧
  (∀ j, ∀ hj : j < stack.length, ∀ p, parentStep g.edges pe (stack.get ⟨j, hj⟩) p →
      ∃ i, ∃ hi : i < stack.length, j < i ∧ stack.get ⟨i, hi⟩ = p) ∧
  List.Pairwise (fun a b => ¬ IsDescOf g.edges pe b a) post

/-- What `traverse_graph_via_post_order_dfs` guarantees: the parent-edge
array marks `-1` exactly at the start vertex and the unreached vertices,
records a mask-enabled incident edge everywhere else, and the callback list
enumerates the reached non-root vertices once each, descendants always
before ancestors. -/
def DfsOut (g : PlanarGraph) (mask : List Bool) (start : ℕ)
    (res : List ℤ × List ℕ) : Prop :=
  res.1.length = g.size ∧
  getN res.1 start (-1) = -1 ∧
  (∀ v, v < g.size → v ≠ start → (getN res.1 v (-1) ≠ -1 ↔ v ∈ res.2)) ∧
  res.2.Nodup ∧
  (∀ v, v < g.size → getN res.1 v (-1) ≠ -1 → ∃ e, getN res.1 v (-1) = Int.ofNat e ∧
      getN mask e false = true ∧ incidentIdx g.edges e v) ∧
  (∀ v, v < g.size → (ReachM g.edges mask start v ↔ (v = start ∨ v ∈ res.2))) ∧
  List.Pairwise (fun a b => ¬ IsDescOf g.edges res.1 b a) res.2

theorem dfs_conclusions (g : PlanarGraph) (hwf : WF g) (mask : List Bool) (start : ℕ)
    (pe : List ℤ) (used : List Bool) (post : List ℕ)
    (hpelen : pe.length = g.size)
    (hstart_pe : getN pe start (-1) = -1)
    (hstart_used : getN used start false = true)
    (hpe_used : ∀ v, v < g.size → v ≠ start →
      (getN used v false = true ↔ getN pe v (-1) ≠ -1))
    (hpe_valid : ∀ v, v < g.size → getN pe v (-1) ≠ -1 → ∃ e,
      getN pe v (-1) = Int.ofNat e ∧ getN mask e false = true ∧ incidentIdx g.edges e v)
    (hreach : ∀ v, v < g.size → getN used v false = true → ReachM g.edges mask start v)
    (hpostnd : post.Nodup)
    (hpostmem : ∀ v ∈ post, v < g.size ∧ getN used v false = true ∧ v ≠ start)
    (hcover2 : ∀ v, v < g.size → getN used v false = true → v = start ∨ v ∈ post)
    (hclosedAll : ∀ v, v < g.size → getN used v false = true →
      ∀ e, incidentIdx g.edges e v → getN mask e false = true →
        getN used (oppositeAt g.edges e v) false = true)
    (hpw : List.Pairwise (fun a b => ¬ IsDescOf g.edges pe b a) post) :
    DfsOut g mask start (pe, post) ∧ start ∉ post := by
  refine ⟨⟨hpelen, hstart_pe, ?_, hpostnd, hpe_valid, ?_, hpw⟩, ?_⟩
  · intro v hv hvs
    constructor
    · intro hne
      have hu : getN used v false = true := (hpe_used v hv hvs).mpr hne
      rcases hcover2 v hv hu with hh | hh
      · exact absurd hh hvs
      · exact hh
    · intro hmem
      exact (hpe_used v hv hvs).mp (hpostmem v hmem).2.1
  · intro v hv
    constructor
    · intro hr
      have hu := reachM_used g hwf mask used hclosedAll start hstart_used v hr hv
      exact hcover2 v hv hu
    · intro hh
      rcases hh with hh | hh
      · subst hh
        exact ReachM.refl v
      · exact hreach v hv (hpostmem v hh).2.1
  · intro hc
    exact (hpostmem start hc).2.2 rfl

theorem dfsLoop_spec (g : PlanarGraph) (hwf : WF g) (mask : List Bool) (start : ℕ) :
    ∀ (fuel : ℕ) (stack : List ℕ) (pe : List ℤ) (used : List Bool) (post : List ℕ),
      DfsInv g mask start stack pe used post →
      (stack ≠ [] → stack.getLast? = some start) →
      2 * (g.size - used.count true) + stack.length ≤ fuel →
      DfsOut g mask start (dfsLoop g mask fuel stack pe used post) ∧
      start ∉ (dfsLoop g mask fuel stack pe used post).2 := by
  intro fuel
  induction fuel with
  | zero =>
    intro stack pe used post hinv hbot hfuel
    obtain ⟨i1, i2, i3, i4, i5, i6, i7, i8, i9, i10, i11, i12, i13, i14, i15, i16, i17, i18⟩ :=
      hinv
    exfalso
    have hstack : stack = [] := List.eq_nil_of_length_eq_zero (by omega)
    subst hstack
    have hstart_lt : start < g.size := by
      by_contra hc
      rw [getN_of_le used start false (by omega)] at i6
      cases i6
    rcases i13 start hstart_lt i6 with hh | hh
    · simp at hh
    · exact (i11 start hh).2.2 rfl
  | succ n ih =>
    intro stack pe used post hinv hbot hfuel
    obtain ⟨i1, i2, i3, i4, i5, i6, i7, i8, i9, i10, i11, i12, i13, i14, i15, i16, i17, i18⟩ :=
      hinv
    cases stack with
    | nil =>
      exfalso
      have hstart_lt : start < g.size := by
        by_contra hc
        rw [getN_of_le used start false (by omega)] at i6
        cases i6
      rcases i13 start hstart_lt i6 with hh | hh
      · simp at hh
      · exact (i11 start hh).2.2 rfl
    | cons vertex rest =>
      have hvlt : vertex < g.size := (i4 vertex (by simp)).1
      have hvu : getN used vertex false = true := (i4 vertex (by simp)).2
      obtain ⟨⟨hlnd, hlinc, hlcov, hlch⟩, _⟩ := hwf.2.2 vertex hvlt
      have hunfold : dfsLoop g mask (n + 1) (vertex :: rest) pe used post =
          if (dfsScan g mask vertex (g.incList vertex)
              (pe, used, vertex :: rest, false)).2.2.2 = true then
            dfsLoop g mask n
              (dfsScan g mask vertex (g.incList vertex) (pe, used, vertex :: rest, false)).2.2.1
              (dfsScan g mask vertex (g.incList vertex) (pe, used, vertex :: rest, false)).1
              (dfsScan g mask vertex (g.incList vertex) (pe, used, vertex :: rest, false)).2.1
              post
          else dfsLoop g mask n rest pe used
            (if getN pe vertex (-1) = -1 then post else post ++ [vertex]) := rfl
      obtain ⟨news, s1, s2, s3, s4, s5, s6, s7, s8, s9, s10, s11, s12⟩ :=
        dfsScan_spec g hwf mask vertex (g.incList vertex) pe used (vertex :: rest) false
          hlinc i1 i2
      set SC := dfsScan g mask vertex (g.incList vertex) (pe, used, vertex :: rest, false)
        with hSC
      by_cases hadd : SC.2.2.2 = true
      · -- at least one fresh vertex was pushed
        rw [hunfold, if_pos hadd]
        have hknil : news ≠ [] := (s10.mp hadd).resolve_left (by simp)
        have hparent_news : ∀ w ∈ news, ∀ p, parentStep g.edges SC.1 w p → p = vertex := by
          intro w hw p hp
          obtain ⟨e, _, _, hie2, hwo, hpe2⟩ := s9 w hw
          rw [hp.2, hpe2, toNat_ofNat_eq, hwo,
            oppositeAt_invol _ _ _ hie2 (hwf.2.1 e hie2.1).2.2]
        have hdisjno : ∀ x ∈ news, x ∉ vertex :: rest := by
          intro x hx hmem
          have h1 := (i4 x hmem).2
          rw [s5 x hx] at h1
          cases h1
        have hinv2 : DfsInv g mask start SC.2.2.1 SC.1 SC.2.1 post := by
          refine ⟨by rw [s2, i1], by rw [s3, i2], ?_, ?_, ?_, s4 _ |>.mpr (Or.inl i6), ?_,
            ?_, ?_, i10, ?_, ?_, ?_, ?_, ?_, ?_, ?_, ?_⟩
          · rw [s1, List.nodup_append]
            exact ⟨s7, i3, hdisjno⟩
          · intro v hv
            rw [s1] at hv
            rcases List.mem_append.mp hv with hh | hh
            · exact ⟨s6 v hh, (s4 v).mpr (Or.inr hh)⟩
            · exact ⟨(i4 v hh).1, (s4 v).mpr (Or.inl (i4 v hh).2)⟩
          · have hnost : start ∉ news := by
              intro hc
              rw [s5 start hc] at i6
              cases i6
            rw [s8 start hnost]
            exact i5
          · intro v hv hvs
            by_cases hvn : v ∈ news
            · obtain ⟨e, _, _, _, _, hpe2⟩ := s9 v hvn
              refine iff_of_true ((s4 v).mpr (Or.inr hvn)) ?_
              rw [hpe2]
              exact ofNat_ne_neg_one e
            · rw [s8 v hvn]
              constructor
              · intro hh
                rcases (s4 v).mp hh with h2 | h2
                · exact (i7 v hv hvs).mp h2
                · exact absurd h2 hvn
              · intro hh
                exact (s4 v).mpr (Or.inl ((i7 v hv hvs).mpr hh))
          · intro v hv hne
            by_cases hvn : v ∈ news
            · obtain ⟨e, _, hm, hie2, hwo, hpe2⟩ := s9 v hvn
              refine ⟨e, hpe2, hm, ?_⟩
              rw [hwo]
              exact incidentIdx_opposite _ _ _ hie2
            · rw [s8 v hvn] at hne ⊢
              exact i8 v hv hne
          · intro v hv hu
            rcases (s4 v).mp hu with h2 | h2
            · exact i9 v hv h2
            · obtain ⟨e, _, hm, hie2, hwo, _⟩ := s9 v h2
              rw [hwo]
              exact ReachM.step e (i9 vertex hvlt hvu) hie2 hm
          · intro v hv
            exact ⟨(i11 v hv).1, (s4 v).mpr (Or.inl (i11 v hv).2.1), (i11 v hv).2.2⟩
          · intro v hv
            rw [s1]
            intro hc
            rcases List.mem_append.mp hc with hh | hh
            · have h1 := (i11 v hv).2.1
              rw [s5 v hh] at h1
              cases h1
            · exact (i12 v hv) hh
          · intro v hv hu
            rcases (s4 v).mp hu with h2 | h2
            · rcases i13 v hv h2 with hh | hh
              · refine Or.inl ?_
                rw [s1]
                exact List.mem_append.mpr (Or.inr hh)
              · exact Or.inr hh
            · refine Or.inl ?_
              rw [s1]
              exact List.mem_append.mpr (Or.inl h2)
          · intro v hv hu
            rcases (s4 v).mp hu with h2 | h2
            · rcases i14 v hv h2 with hh | hh
              · refine Or.inl ?_
                rw [s1]
                exact List.mem_append.mpr (Or.inr hh)
              · refine Or.inr ?_
                intro e hie hm
                exact (s4 _).mpr (Or.inl (hh e hie hm))
            · refine Or.inl ?_
              rw [s1]
              exact List.mem_append.mpr (Or.inl h2)
          · intro c p hp
            by_cases hcn : c ∈ news
            · rw [hparent_news c hcn p hp]
              exact (s4 vertex).mpr (Or.inl hvu)
            · have hp' : parentStep g.edges pe c p := by
                obtain ⟨hne, hpp⟩ := hp
                rw [s8 c hcn] at hne hpp
                exact ⟨hne, hpp⟩
              exact (s4 p).mpr (Or.inl (i15 c p hp'))
          · intro a ha w hp
            by_cases hwn : w ∈ news
            · exfalso
              have hav := hparent_news w hwn a hp
              exact (i12 a ha) (by rw [hav]; simp)
            · have hp' : parentStep g.edges pe w a := by
                obtain ⟨hne, hpp⟩ := hp
                rw [s8 w hwn] at hne hpp
                exact ⟨hne, hpp⟩
              exact i16 a ha w hp'
          · intro j hj p hp
            have hlen2 : SC.2.2.1.length = news.length + (rest.length + 1) := by
              rw [s1]
              simp
            by_cases hjn : j < news.length
            · have helem : SC.2.2.1.get ⟨j, hj⟩ = news.get ⟨j, hjn⟩ := by
                simp only [List.get_eq_getElem, s1]
                exact List.getElem_append_left hjn
              have hwmem : SC.2.2.1.get ⟨j, hj⟩ ∈ news := by
                rw [helem]
                exact List.get_mem _ _ _
              have hpv := hparent_news _ hwmem p hp
              refine ⟨news.length, by omega, by omega, ?_⟩
              rw [hpv]
              simp only [List.get_eq_getElem, s1]
              rw [List.getElem_append_right (by omega)]
              simp
            · have hjge : news.length ≤ j := by omega
              have hjold : j - news.length < (vertex :: rest).length := by
                simp only [List.length_cons]
                rw [hlen2] at hj
                omega
              have helem : SC.2.2.1.get ⟨j, hj⟩ =
                  (vertex :: rest).get ⟨j - news.length, hjold⟩ := by
                simp only [List.get_eq_getElem, s1]
                exact List.getElem_append_right hjge
              have hwused : getN used (SC.2.2.1.get ⟨j, hj⟩) false = true := by
                rw [helem]
                exact (i4 _ (List.get_mem _ _ _)).2
              have hwnon : SC.2.2.1.get ⟨j, hj⟩ ∉ news := by
                intro hc
                rw [s5 _ hc] at hwused
                cases hwused
              have hp' : parentStep g.edges pe ((vertex :: rest).get ⟨j - news.length, hjold⟩)
                  p := by
                obtain ⟨hne, hpp⟩ := hp
                rw [helem] at hne hpp
                rw [s8 _ (helem ▸ hwnon)] at hne hpp
                exact ⟨hne, hpp⟩
              obtain ⟨i2x, hi2, hgt, heq⟩ := i17 (j - news.length) hjold p hp'
              refine ⟨i2x + news.length, by rw [hlen2]; simp only [List.length_cons] at hi2; omega,
                by omega, ?_⟩
              have hcalc : SC.2.2.1.get ⟨i2x + news.length,
                  by rw [hlen2]; simp only [List.length_cons] at hi2; omega⟩ =
                  (vertex :: rest).get ⟨i2x, hi2⟩ := by
                simp only [List.get_eq_getElem, s1]
                rw [List.getElem_append_right (by omega)]
                congr 1
                omega
              rw [hcalc]
              exact heq
          · refine List.Pairwise.imp_of_mem ?_ i18
            intro a b ha hb hnd hdesc
            refine hnd (IsDescOf_stable g.edges pe SC.1 used ?_ i15 b a (i11 b hb).2.1 hdesc)
            intro v hv
            refine s8 v ?_
            intro hc
            rw [s5 v hc] at hv
            cases hv
        have hbot2 : SC.2.2.1 ≠ [] → SC.2.2.1.getLast? = some start := by
          intro _
          rw [s1, getLastQ_append_right news (vertex :: rest) (by simp)]
          exact hbot (by simp)
        have hmeas2 : 2 * (g.size - SC.2.1.count true) + SC.2.2.1.length ≤ n := by
          have hc1 : SC.2.1.count true = used.count true + news.length := s11
          have hc2 : SC.2.1.count true ≤ g.size := by
            have := count_true_le SC.2.1
            rw [s3, i2] at this
            exact this
          have hl2 : SC.2.2.1.length = news.length + (rest.length + 1) := by
            rw [s1]
            simp
          have hk1 : 1 ≤ news.length := by
            cases news with
            | nil => exact absurd rfl hknil
            | cons a t => simp
          simp only [List.length_cons] at hfuel
          omega
        exact ih SC.2.2.1 SC.1 SC.2.1 post hinv2 hbot2 hmeas2
      · -- nothing new: the top vertex is finished and popped
        have hnews_nil : news = [] := by
          by_contra hc
          exact hadd (s10.mpr (Or.inr hc))
        subst hnews_nil
        have hclosedV : ∀ e, incidentIdx g.edges e vertex → getN mask e false = true →
            getN used (oppositeAt g.edges e vertex) false = true := by
          intro e hie hm
          exact (s12.resolve_right (fun hc => hc rfl)) e (hlcov e hie.1 hie) hm
        rw [hunfold, if_neg hadd]
        by_cases hvs : vertex = start
        · subst hvs
          have hrest_nil : rest = [] := by
            by_contra hc
            have hlast := hbot (by simp)
            have h5 : (vertex :: rest).getLast? = rest.getLast? :=
              getLastQ_append_right [vertex] rest hc
            rw [h5] at hlast
            exact (List.nodup_cons.mp i3).1 (mem_of_getLastQ rest vertex hlast)
          subst hrest_nil
          rw [if_pos i5]
          have hres : dfsLoop g mask n [] pe used post = (pe, post) := by
            cases n <;> rfl
          rw [hres]
          apply dfs_conclusions g hwf mask vertex pe used post i1 i5 i6 i7 i8 i9 i10 i11
          · intro v hv hu
            rcases i13 v hv hu with hh | hh
            · exact Or.inl (by simpa using hh)
            · exact Or.inr hh
          · intro v hv hu e hie hm
            rcases i14 v hv hu with hh | hh
            · have hveq : v = vertex := by simpa using hh
              subst hveq
              exact hclosedV e hie hm
            · exact hh e hie hm
          · exact i18
        · have hpevne : ¬ getN pe vertex (-1) = -1 := (i7 vertex hvlt hvs).mp hvu
          rw [if_neg hpevne]
          have hvnotpost : vertex ∉ post := fun hc => (i12 vertex hc) (by simp)
          have hvnotrest : vertex ∉ rest := (List.nodup_cons.mp i3).1
          have hinv2 : DfsInv g mask start rest pe used (post ++ [vertex]) := by
            refine ⟨i1, i2, (List.nodup_cons.mp i3).2, fun v hv => i4 v (by simp [hv]),
              i5, i6, i7, i8, i9, ?_, ?_, ?_, ?_, ?_, i15, ?_, ?_, ?_⟩
            · rw [List.nodup_append]
              refine ⟨i10, by simp, ?_⟩
              intro x hx hxs
              have hxe : x = vertex := by simpa using hxs
              subst hxe
              exact hvnotpost hx
            · intro v hv
              rcases List.mem_append.mp hv with hh | hh
              · exact i11 v hh
              · have hve : v = vertex := by simpa using hh
                subst hve
                exact ⟨hvlt, hvu, hvs⟩
            · intro v hv
              rcases List.mem_append.mp hv with hh | hh
              · exact fun hc => (i12 v hh) (by simp [hc])
              · have hve : v = vertex := by simpa using hh
                subst hve
                exact hvnotrest
            · intro v hv hu
              rcases i13 v hv hu with hh | hh
              · rcases List.mem_cons.mp hh with h2 | h2
                · subst h2
                  exact Or.inr (List.mem_append.mpr (Or.inr (by simp)))
                · exact Or.inl h2
              · exact Or.inr (List.mem_append.mpr (Or.inl hh))
            · intro v hv hu
              rcases i14 v hv hu with hh | hh
              · rcases List.mem_cons.mp hh with h2 | h2
                · subst h2
                  exact Or.inr hclosedV
                · exact Or.inl h2
              · exact Or.inr hh
            · intro a ha w hp
              rcases List.mem_append.mp ha with hh | hh
              · exact List.mem_append.mpr (Or.inl (i16 a hh w hp))
              · have hae : a = vertex := by simpa using hh
                rw [hae] at hp
                have hwlt : w < g.size := by
                  have := pe_lt_of_ne pe w hp.1
                  omega
                have hwns : w ≠ start := by
                  intro hc
                  subst hc
                  exact hp.1 i5
                have hwu : getN used w false = true := (i7 w hwlt hwns).mpr hp.1
                rcases i13 w hwlt hwu with h3 | h3
                · rcases List.mem_cons.mp h3 with h4 | h4
                  · exfalso
                    obtain ⟨e, heq, _, hiev⟩ := i8 w hwlt hp.1
                    have hop := oppositeAt_ne g hwf w e hiev
                    have h6 := hp.2
                    rw [heq, toNat_ofNat_eq] at h6
                    rw [← h4] at h6
                    exact hop h6.symm
                  · exfalso
                    obtain ⟨⟨j, hjr⟩, hjw⟩ := List.mem_iff_get.mp h4
                    have hjold : j + 1 < (vertex :: rest).length := by
                      simp only [List.length_cons]
                      omega
                    have hget : (vertex :: rest).get ⟨j + 1, hjold⟩ = w := hjw
                    obtain ⟨i2x, hi2, hgt, heqi⟩ :=
                      i17 (j + 1) hjold vertex (by rw [hget]; exact hp)
                    have h0 : (vertex :: rest).get ⟨0, by simp⟩ = vertex := rfl
                    have hinj := (List.Nodup.get_inj_iff i3).mp (heqi.trans h0.symm)
                    have hi0 : i2x = 0 := by
                      have := congrArg Fin.val hinj
                      simpa using this
                    omega
                · exact List.mem_append.mpr (Or.inl h3)
            · intro j hj p hp
              have hjold : j + 1 < (vertex :: rest).length := by
                simp only [List.length_cons]
                omega
              have hget : (vertex :: rest).get ⟨j + 1, hjold⟩ = rest.get ⟨j, hj⟩ := rfl
              obtain ⟨i2x, hi2, hgt, heqi⟩ := i17 (j + 1) hjold p (by rw [hget]; exact hp)
              obtain ⟨k, rfl⟩ : ∃ k, i2x = k + 1 := ⟨i2x - 1, by omega⟩
              have hk : k < rest.length := by
                simp only [List.length_cons] at hi2
                omega
              refine ⟨k, hk, by omega, ?_⟩
              have hgg : (vertex :: rest).get ⟨k + 1, hi2⟩ = rest.get ⟨k, hk⟩ := rfl
              rw [← hgg]
              exact heqi
            · rw [List.pairwise_append]
              refine ⟨i18, by simp, ?_⟩
              intro a ha b hb hdesc
              have hbe : b = vertex := by simpa using hb
              subst hbe
              exact hvnotpost (desc_in_post g.edges pe post i16 b a ha hdesc)
          have hbot2 : rest ≠ [] → rest.getLast? = some start := by
            intro hc
            have hlast := hbot (by simp)
            have h5 : (vertex :: rest).getLast? = rest.getLast? :=
              getLastQ_append_right [vertex] rest hc
            rw [h5] at hlast
            exact hlast
          have hmeas2 : 2 * (g.size - used.count true) + rest.length ≤ n := by
            simp only [List.length_cons] at hfuel
            omega
          exact ih rest pe used (post ++ [vertex]) hinv2 hbot2 hmeas2

theorem traverse_dfs_spec (g : PlanarGraph) (hwf : WF g) (mask : List Bool) (start : ℕ)
    (hstart : start < g.size) :
    DfsOut g mask start (traverse_graph_via_post_order_dfs start g mask) ∧
    start ∉ (traverse_graph_via_post_order_dfs start g mask).2 := by
  unfold traverse_graph_via_post_order_dfs
  have hpe0 : ∀ c, getN (List.replicate g.size (-1 : ℤ)) c (-1) = -1 := by
    intro c
    by_cases hc : c < g.size
    · exact getN_replicate _ _ _ _ hc
    · exact getN_of_le _ _ _ (by simpa using not_lt.mp hc)
  have hu0 : ∀ v, getN (setN (List.replicate g.size false) start true) v false = true →
      v = start := by
    intro v hv
    by_contra hne
    rw [getN_setN_ne _ _ _ _ _ hne] at hv
    by_cases hvlt : v < g.size
    · rw [getN_replicate _ _ _ _ hvlt] at hv
      cases hv
    · rw [getN_of_le _ _ _ (by simpa using not_lt.mp hvlt)] at hv
      cases hv
  have hstart_used : getN (setN (List.replicate g.size false) start true) start false
      = true := by
    rw [getN_setN_eq _ _ _ _ (by simpa using hstart)]
  apply dfsLoop_spec g hwf mask start (2 * g.size) [start] _ _ []
  · refine ⟨by simp, by simp, by simp, ?_, hpe0 start, hstart_used, ?_, ?_, ?_,
      by simp, by simp, by simp, ?_, ?_, ?_, by simp, ?_, by simp⟩
    · intro v hv
      have hv0 : v = start := by simpa using hv
      subst hv0
      exact ⟨hstart, hstart_used⟩
    · intro v hv hvs
      refine iff_of_false ?_ ?_
      · intro hc
        exact hvs (hu0 v hc)
      · intro hc
        exact hc (hpe0 v)
    · intro v _ hne
      exact absurd (hpe0 v) hne
    · intro v hv hu
      rw [hu0 v hu]
      exact ReachM.refl start
    · intro v hv hu
      exact Or.inl (by simp [hu0 v hu])
    · intro v hv hu
      exact Or.inl (by simp [hu0 v hu])
    · intro c p hp
      exact absurd (hpe0 c) hp.1
    · intro j hj p hp
      exfalso
      have hj0 : j = 0 := by simpa using hj
      subst hj0
      exact hp.1 (hpe0 _)
  · intro _
    rfl
  · have hcnt0 : List.count true (List.replicate g.size false) = 0 := by
      rw [List.count_replicate]
      simp
    have hcount : (setN (List.replicate g.size false) start true).count true = 1 := by
      rw [count_setN_true _ _ (by simpa using hstart)
        (by rw [getN_replicate _ _ _ _ hstart]), hcnt0]
    rw [hcount]
    simp only [List.length_cons, List.length_nil]
    omega

theorem mod_add_left_cancel (L p i j : ℕ) (hi : i < L) (hj : j < L)
    (h : (p + i) % L = (p + j) % L) : i = j := by
  have h2 : i % L = j % L := Nat.ModEq.add_left_cancel' p h
  rw [Nat.mod_eq_of_lt hi, Nat.mod_eq_of_lt hj] at h2
  exact h2

/-- A concrete well-formed one-edge graph used as a witness input. -/
def wgraph : PlanarGraph :=
  ⟨[1/2, 1/2], [0, 0], [⟨0, 1, 0, 0, 0, 0⟩]⟩

theorem generate_random_graph_WF (choices : ℕ → ℕ) (costDraws : ℕ → ℚ)
    (randomCosts : Bool) (size : ℕ) (density : ℚ)
    (triangulate : PlanarGraph → PlanarGraph) (shuffle : List Bool → List Bool)
    (hsz : 2 ≤ size) (hchall : ∀ i, i < size - 2 → choices i < i + 2)
    (htri : ∀ h, WF h → WF (triangulate h)) (g : PlanarGraph)
    (hok : generate_random_graph choices costDraws randomCosts size density
      triangulate shuffle = Except.ok g) :
    WF g := by
  unfold generate_random_graph at hok
  rw [generateRandomTree_eq choices costDraws randomCosts size (by omega)] at hok
  simp only [Except.map] at hok
  have hg : g = normalize_vertex_costs (remove_double_edges
      ((construct_subgraph (triangulate (treeGraphOf choices costDraws randomCosts size))
        (List.replicate (triangulate (treeGraphOf choices costDraws randomCosts size)).size
          true)
        (shuffle (randomEdgesMask density
          (triangulate (treeGraphOf choices costDraws randomCosts size)).edges_count))).2.2)) := by
    cases hok
    rfl
  subst hg
  apply WF_normalize
  apply WF_remove_double_edges
  exact (construct_subgraph_main _ _ _
    (htri _ (generateRandomTree_spec choices costDraws randomCosts size hsz hchall).1)
    (by simp)).1

/-! ### The claims -/

/-- C2: for every surviving vertex, the cyclic order of the subgraph's
surviving incident edges (under the remapped indices) is exactly the
subsequence of that vertex's cyclic incident-edge order in the original
graph restricted to the surviving edges — equality on the nose, hence in
particular up to rotation. -/
theorem C2_subgraph_cyclic_order (g : PlanarGraph) (vmask emask : List Bool) (hwf : WF g)
    (hvm : vmask.length = g.size) (v : ℕ) (hv : v < g.size)
    (hkept : getN vmask v false = true) :
    (construct_subgraph g vmask emask).2.2.incList (nvOf vmask v) =
      (g.incList v).filterMap
        (fun e => if getN (construct_subgraph g vmask emask).2.1 e (-1) = -1 then none
          else some (getN (construct_subgraph g vmask emask).2.1 e (-1)).toNat) := by
  have hmain := (construct_subgraph_main g vmask emask hwf hvm).2.1 v hv hkept
  have hEq : (construct_subgraph g vmask emask).2.1 = emapOf g vmask emask := rfl
  rw [hmain.1, hEq]
  unfold SNof survivors
  rw [List.map_filterMap]
  apply List.filterMap_congr
  intro e _
  by_cases hc : getN (emapOf g vmask emask) e (-1) = -1
  · rw [if_pos hc, if_pos hc]
    rfl
  · rw [if_neg hc, if_neg hc]
    rfl

/-- C2 witness at a concrete graph and masks. -/
theorem C2_subgraph_cyclic_order_witness :
    WF wgraph ∧ ([true, true] : List Bool).length = wgraph.size ∧ (0 : ℕ) < wgraph.size ∧
    getN [true, true] 0 false = true ∧
    (construct_subgraph wgraph [true, true] [true]).2.2.incList (nvOf [true, true] 0) =
      (wgraph.incList 0).filterMap
        (fun e => if getN (construct_subgraph wgraph [true, true] [true]).2.1 e (-1) = -1
          then none
          else some (getN (construct_subgraph wgraph [true, true] [true]).2.1 e (-1)).toNat) :=
  ⟨by decide, by decide, by decide, by decide,
    C2_subgraph_cyclic_order wgraph [true, true] [true] (by decide) (by decide) 0 (by decide)
      (by decide)⟩

/-- C5: an edge survives exactly when its mask entry is true and both its
endpoints survive the vertex mask; the returned maps are `-1` exactly at
dropped entries, injective on kept entries, and their kept values fill the
dense range `[0, new_count)` in order. -/
theorem C5_maps_injective_dense (g : PlanarGraph) (vmask emask : List Bool)
    (hvm : vmask.length = g.size) :
    (∀ e, e < g.edges.length →
      (getN (construct_subgraph g vmask emask).2.1 e (-1) ≠ -1 ↔
        (getN emask e false = true ∧
          getN vmask (endpoint1 g.edges e) false = true ∧
          getN vmask (endpoint2 g.edges e) false = true))) ∧
    (∀ v, v < g.size → (getN (construct_subgraph g vmask emask).1 v (-1) = -1 ↔
        getN vmask v false = false)) ∧
    (∀ u v, u < g.size → v < g.size →
      getN (construct_subgraph g vmask emask).1 u (-1) ≠ -1 →
      getN (construct_subgraph g vmask emask).1 u (-1) =
        getN (construct_subgraph g vmask emask).1 v (-1) → u = v) ∧
    (∀ d e, d < g.edges.length → e < g.edges.length →
      getN (construct_subgraph g vmask emask).2.1 d (-1) ≠ -1 →
      getN (construct_subgraph g vmask emask).2.1 d (-1) =
        getN (construct_subgraph g vmask emask).2.1 e (-1) → d = e) ∧
    keptVals (construct_subgraph g vmask emask).1 =
      (List.range (vmask.count true)).map Int.ofNat ∧
    keptVals (construct_subgraph g vmask emask).2.1 =
      (List.range ((edgeKeepList g vmask emask).count true)).map Int.ofNat := by
  have hvm1 : (construct_subgraph g vmask emask).1 = buildMapB vmask := rfl
  have hem1 : (construct_subgraph g vmask emask).2.1 =
      buildMapB (edgeKeepList g vmask emask) := rfl
  refine ⟨?_, ?_, ?_, ?_, ?_, ?_⟩
  · intro e he
    rw [hem1, getN_buildMapB _ _ (by simpa using he), getN_edgeKeepList _ _ _ _ he]
    by_cases hk : keepEdge g vmask emask e = true
    · rw [if_pos hk]
      have hm := keepEdge_masks g vmask emask e hk
      exact iff_of_true (ofNat_ne_neg_one _) ⟨hm.2.2, hm.1, hm.2.1⟩
    · rw [if_neg hk]
      refine iff_of_false (fun hc => hc rfl) ?_
      rintro ⟨h1, h2, h3⟩
      exact hk (by unfold keepEdge; rw [h1, h2, h3]; rfl)
  · intro v hv
    rw [hvm1, getN_buildMapB _ _ (by rw [hvm]; exact hv)]
    by_cases hb : getN vmask v false = true
    · rw [if_pos hb]
      exact iff_of_false (ofNat_ne_neg_one _) (by rw [hb]; exact fun hc => Bool.noConfusion hc)
    · have hb' : getN vmask v false = false := by rwa [Bool.not_eq_true] at hb
      rw [if_neg hb]
      exact iff_of_true rfl hb'
  · intro u v hu hv hne heq
    rw [hvm1] at hne heq
    exact buildMapB_inj vmask u v (by rw [hvm]; exact hu) (by rw [hvm]; exact hv) hne heq
  · intro d e hd he hne heq
    rw [hem1] at hne heq
    exact buildMapB_inj _ d e (by simpa using hd) (by simpa using he) hne heq
  · rw [hvm1]
    exact keptVals_buildMapB vmask
  · rw [hem1]
    exact keptVals_buildMapB _

/-- C5 witness at a concrete graph and masks. -/
theorem C5_maps_injective_dense_witness :
    ([true, false] : List Bool).length = wgraph.size ∧
    ((∀ e, e < wgraph.edges.length →
      (getN (construct_subgraph wgraph [true, false] [true]).2.1 e (-1) ≠ -1 ↔
        (getN [true] e false = true ∧
          getN [true, false] (endpoint1 wgraph.edges e) false = true ∧
          getN [true, false] (endpoint2 wgraph.edges e) false = true))) ∧
    (∀ v, v < wgraph.size → (getN (construct_subgraph wgraph [true, false] [true]).1 v (-1)
        = -1 ↔ getN [true, false] v false = false)) ∧
    (∀ u v, u < wgraph.size → v < wgraph.size →
      getN (construct_subgraph wgraph [true, false] [true]).1 u (-1) ≠ -1 →
      getN (construct_subgraph wgraph [true, false] [true]).1 u (-1) =
        getN (construct_subgraph wgraph [true, false] [true]).1 v (-1) → u = v) ∧
    (∀ d e, d < wgraph.edges.length → e < wgraph.edges.length →
      getN (construct_subgraph wgraph [true, false] [true]).2.1 d (-1) ≠ -1 →
      getN (construct_subgraph wgraph [true, false] [true]).2.1 d (-1) =
        getN (construct_subgraph wgraph [true, false] [true]).2.1 e (-1) → d = e) ∧
    keptVals (construct_subgraph wgraph [true, false] [true]).1 =
      (List.range (([true, false] : List Bool).count true)).map Int.ofNat ∧
    keptVals (construct_subgraph wgraph [true, false] [true]).2.1 =
      (List.range ((edgeKeepList wgraph [true, false] [true]).count true)).map Int.ofNat) :=
  ⟨by decide, C5_maps_injective_dense wgraph [true, false] [true] (by decide)⟩

/-- C7: for `size < 2` the generator fails at once with the runtime error
and no graph of any kind is returned. -/
theorem C7_random_tree_min_size (choices : ℕ → ℕ) (costDraws : ℕ → ℚ)
    (randomCosts : Bool) (size : ℕ) (h : size < 2) :
    generateRandomTree choices costDraws randomCosts size =
      Except.error "The minimum size of 2 is allowed." ∧
    ∀ g : PlanarGraph, generateRandomTree choices costDraws randomCosts size ≠
      Except.ok g := by
  refine ⟨generateRandomTree_err choices costDraws randomCosts size h, ?_⟩
  intro g hc
  rw [generateRandomTree_err choices costDraws randomCosts size h] at hc
  cases hc

/-- C7 witness at size 1. -/
theorem C7_random_tree_min_size_witness :
    (1 : ℕ) < 2 ∧
    (generateRandomTree (fun _ => 0) (fun _ => 0) false 1 =
        Except.error "The minimum size of 2 is allowed." ∧
      ∀ g : PlanarGraph, generateRandomTree (fun _ => 0) (fun _ => 0) false 1 ≠
        Except.ok g) :=
  ⟨by decide, C7_random_tree_min_size (fun _ => 0) (fun _ => 0) false 1 (by decide)⟩

/-- C8: the clone has the same vertex count, edge count, vertex-cost array
and the same multiset of edge endpoint pairs as the original graph. -/
theorem C8_clone_graph_equal (g : PlanarGraph) (hwf : WF g) :
    (clone_graph g).size = g.size ∧
    (clone_graph g).edges.length = g.edges.length ∧
    (clone_graph g).vertex_costs = g.vertex_costs ∧
    Multiset.ofList ((List.range (clone_graph g).edges.length).map
      (fun e => (endpoint1 (clone_graph g).edges e, endpoint2 (clone_graph g).edges e))) =
    Multiset.ofList ((List.range g.edges.length).map
      (fun e => (endpoint1 g.edges e, endpoint2 g.edges e))) := by
  obtain ⟨hc, hs, hl, hep⟩ := clone_graph_parts g hwf
  refine ⟨hs, hl, hc, ?_⟩
  rw [hl]
  congr 1
  apply List.map_congr_left
  intro e he
  have h2 := hep e (List.mem_range.mp he)
  rw [h2.1, h2.2]

/-- C8 witness at a concrete graph. -/
theorem C8_clone_graph_equal_witness :
    WF wgraph ∧
    ((clone_graph wgraph).size = wgraph.size ∧
      (clone_graph wgraph).edges.length = wgraph.edges.length ∧
      (clone_graph wgraph).vertex_costs = wgraph.vertex_costs ∧
      Multiset.ofList ((List.range (clone_graph wgraph).edges.length).map
        (fun e => (endpoint1 (clone_graph wgraph).edges e,
          endpoint2 (clone_graph wgraph).edges e))) =
      Multiset.ofList ((List.range wgraph.edges.length).map
        (fun e => (endpoint1 wgraph.edges e, endpoint2 wgraph.edges e)))) :=
  ⟨by decide, C8_clone_graph_equal wgraph (by decide)⟩

/-- C10: a vertex kept by the vertex mask whose incident edges all fail the
edge filter is still part of the subgraph: its map entry is its new index,
its cost is carried over, and its example-incident-edge is `-1`. -/
theorem C10_isolated_kept_vertex (g : PlanarGraph) (vmask emask : List Bool) (hwf : WF g)
    (hvm : vmask.length = g.size) (v : ℕ) (hv : v < g.size)
    (hkept : getN vmask v false = true)
    (hiso : ∀ e, e < g.edges.length → incidentIdx g.edges e v →
      keepEdge g vmask emask e = false) :
    getN (construct_subgraph g vmask emask).1 v (-1) = Int.ofNat (nvOf vmask v) ∧
    nvOf vmask v < (construct_subgraph g vmask emask).2.2.size ∧
    getN (construct_subgraph g vmask emask).2.2.vertex_costs (nvOf vmask v) 0 =
      getN g.vertex_costs v 0 ∧
    exampleAt (construct_subgraph g vmask emask).2.2 (nvOf vmask v) = -1 := by
  have hvl : v < vmask.length := by rw [hvm]; exact hv
  have hSNnil : SNof g vmask emask v = [] := by
    have h1 : survivors (emapOf g vmask emask) (g.incList v) = [] := by
      unfold survivors
      rw [List.filterMap_eq_nil]
      intro e hein
      have hie : incidentIdx g.edges e v := (hwf.2.2 v hv).1.2.1 e hein
      have hmap : getN (emapOf g vmask emask) e (-1) = -1 := by
        unfold emapOf
        rw [getN_edgeMap g vmask emask e hie.1]
        rw [if_neg (show ¬ keepEdge g vmask emask e = true from by
          rw [hiso e hie.1 hie]; decide)]
      rw [if_pos hmap]
    unfold SNof
    rw [h1]
    rfl
  have hmain := (construct_subgraph_main g vmask emask hwf hvm).2.1 v hv hkept
  refine ⟨?_, ?_, ?_, ?_⟩
  · show getN (buildMapB vmask) v (-1) = _
    rw [getN_buildMapB _ _ hvl, if_pos hkept]
    exact congrArg Int.ofNat (nvOf_eq_count vmask v hvl hkept).symm
  · have hlt := nvOf_lt vmask v hvl hkept
    have hsz : (construct_subgraph g vmask emask).2.2.size = vmask.count true := by
      show (maskFilter g.vertex_costs vmask).length = _
      exact maskFilter_length _ _ (by rw [hvm]; rfl)
    rw [hsz]
    exact hlt
  · show getN (maskFilter g.vertex_costs vmask) (nvOf vmask v) 0 = _
    rw [nvOf_eq_count vmask v hvl hkept]
    exact maskFilter_getN g.vertex_costs vmask (by rw [hvm]; rfl) v hvl hkept 0
  · rw [hmain.2, if_pos hSNnil]

/-- C10 witness: a kept vertex with its only incident edge dropped. -/
theorem C10_isolated_kept_vertex_witness :
    WF wgraph ∧ ([true, true] : List Bool).length = wgraph.size ∧ (0 : ℕ) < wgraph.size ∧
    getN [true, true] 0 false = true ∧
    (∀ e, e < wgraph.edges.length → incidentIdx wgraph.edges e 0 →
      keepEdge wgraph [true, true] [false] e = false) ∧
    (getN (construct_subgraph wgraph [true, true] [false]).1 0 (-1) =
        Int.ofNat (nvOf [true, true] 0) ∧
      nvOf [true, true] 0 < (construct_subgraph wgraph [true, true] [false]).2.2.size ∧
      getN (construct_subgraph wgraph [true, true] [false]).2.2.vertex_costs
        (nvOf [true, true] 0) 0 = getN wgraph.vertex_costs 0 0 ∧
      exampleAt (construct_subgraph wgraph [true, true] [false]).2.2
        (nvOf [true, true] 0) = -1) := by
  have hiso : ∀ e, e < wgraph.edges.length → incidentIdx wgraph.edges e 0 →
      keepEdge wgraph [true, true] [false] e = false := by
    intro e he _
    have h1 : wgraph.edges.length = 1 := rfl
    have h0 : e = 0 := by omega
    subst h0
    decide
  exact ⟨by decide, by decide, by decide, by decide, hiso,
    C10_isolated_kept_vertex wgraph [true, true] [false] (by decide) (by decide) 0
      (by decide) (by decide) hiso⟩

theorem getN_nodup_inj (l : List ℕ) (hnd : l.Nodup) (i j : ℕ) (hi : i < l.length)
    (hj : j < l.length) (h : getN l i 0 = getN l j 0) : i = j := by
  rw [getN_eq_getElem _ _ _ hi, getN_eq_getElem _ _ _ hj] at h
  have h2 : l.get ⟨i, hi⟩ = l.get ⟨j, hj⟩ := by simpa [List.get_eq_getElem] using h
  exact congrArg Fin.val ((List.Nodup.get_inj_iff hnd).mp h2)

/-- C4 (amended): with an all-false subgraph mask and an all-true (on edge
indices) possible-incidences mask, the walker started at an incident pair
never terminates — its stop flag is false at every fuel, because the
opposite vertex of the current edge can never equal the start vertex —
while its first degree-1 yields are exactly the degree-1 other edges
incident to the start vertex, pairwise distinct and all different from the
start edge. -/
theorem C4_boundary_walker (g : PlanarGraph) (sub poss : List Bool)
    (startV startE : ℕ) (hwf : WF g)
    (hsub : ∀ e, getN sub e false = false)
    (hposs : ∀ e, e < g.edges.length → getN poss e false = true)
    (hv : startV < g.size) (hie : incidentIdx g.edges startE startV) :
    (∀ fuel, (iterate_subgraph_incidence_indices g sub poss startV startE fuel
        (walkerInit g startV startE)).2 = false) ∧
    (iterate_subgraph_incidence_indices g sub poss startV startE
        ((g.incList startV).length - 1) (walkerInit g startV startE)).1.length =
      (g.incList startV).length - 1 ∧
    (∀ e ∈ (iterate_subgraph_incidence_indices g sub poss startV startE
        ((g.incList startV).length - 1) (walkerInit g startV startE)).1,
      incidentIdx g.edges e startV ∧ e ≠ startE) ∧
    (iterate_subgraph_incidence_indices g sub poss startV startE
        ((g.incList startV).length - 1) (walkerInit g startV startE)).1.Nodup := by
  obtain ⟨⟨hnd, hmem, hcov, hch⟩, _⟩ := hwf.2.2 startV hv
  have hmemE : startE ∈ g.incList startV := hcov startE hie.1 hie
  have hne : g.incList startV ≠ [] := List.ne_nil_of_mem hmemE
  have hlen : 0 < (g.incList startV).length := List.length_pos.mpr hne
  obtain ⟨p, hp, hpe⟩ := mem_exists_getN _ startE hmemE
  have hceInc : incidentIdx g.edges (getNextAt g.edges startE startV) startV :=
    next_incident g hwf startV startE hv hie
  have hinit : walkerInit g startV startE =
      (startV, getNextAt g.edges startE startV,
        oppositeAt g.edges (getNextAt g.edges startE startV) startV) := rfl
  have hrun := walker_run g hwf sub poss startV startE hsub hposs hv
  have hceq : getNextAt g.edges startE startV =
      getN (g.incList startV) ((p + 1) % (g.incList startV).length) 0 := by
    rw [← hpe]
    exact hch p hp
  have hstep : ∀ i, (stepTo g.edges startV)^[i] (getNextAt g.edges startE startV) =
      getN (g.incList startV) ((p + 1 + i) % (g.incList startV).length) 0 := by
    intro i
    rw [hceq, iterate_stepTo_from g.edges startV _ hne hch _ (Nat.mod_lt _ hlen) i,
      Nat.mod_add_mod]
  have hyld : (iterate_subgraph_incidence_indices g sub poss startV startE
      ((g.incList startV).length - 1) (walkerInit g startV startE)).1 =
      (List.range ((g.incList startV).length - 1)).map
        (fun i => getN (g.incList startV)
          ((p + 1 + i) % (g.incList startV).length) 0) := by
    rw [hinit, (hrun _ _ hceInc).2]
    apply List.map_congr_left
    intro i _
    exact hstep i
  refine ⟨?_, ?_, ?_, ?_⟩
  · intro fuel
    rw [hinit]
    exact (hrun fuel _ hceInc).1
  · rw [hyld]
    simp
  · intro e he
    rw [hyld] at he
    obtain ⟨i, hi, hie2⟩ := List.mem_map.mp he
    have hiL : i < (g.incList startV).length - 1 := List.mem_range.mp hi
    have hidx : (p + 1 + i) % (g.incList startV).length < (g.incList startV).length :=
      Nat.mod_lt _ hlen
    refine ⟨hie2 ▸ hmem _ (getN_mem _ _ _ hidx), ?_⟩
    intro hc
    rw [← hie2, ← hpe] at hc
    have h2 := getN_nodup_inj _ hnd _ _ hidx hp hc
    have h3 : (p + (1 + i)) % (g.incList startV).length =
        (p + 0) % (g.incList startV).length := by
      rw [Nat.add_zero, Nat.mod_eq_of_lt hp, ← h2]
      congr 1
      omega
    have h4 := mod_add_left_cancel _ p (1 + i) 0 (by omega) hlen h3
    omega
  · rw [hyld]
    apply List.Nodup.map_on ?_ (List.nodup_range _)
    intro i hi j hj hfij
    have hiL : i < (g.incList startV).length - 1 := List.mem_range.mp hi
    have hjL : j < (g.incList startV).length - 1 := List.mem_range.mp hj
    have h2 := getN_nodup_inj _ hnd _ _ (Nat.mod_lt _ hlen) (Nat.mod_lt _ hlen) hfij
    exact mod_add_left_cancel _ (p + 1) i j (by omega) (by omega) h2

/-- C4 witness: the amended behaviour at a concrete one-edge graph. -/
theorem C4_boundary_walker_witness :
    WF wgraph ∧ (∀ e, getN ([false] : List Bool) e false = false) ∧
    (∀ e, e < wgraph.edges.length → getN ([true] : List Bool) e false = true) ∧
    (0 : ℕ) < wgraph.size ∧ incidentIdx wgraph.edges 0 0 ∧
    ((∀ fuel, (iterate_subgraph_incidence_indices wgraph [false] [true] 0 0 fuel
        (walkerInit wgraph 0 0)).2 = false) ∧
      (iterate_subgraph_incidence_indices wgraph [false] [true] 0 0
          ((wgraph.incList 0).length - 1) (walkerInit wgraph 0 0)).1.length =
        (wgraph.incList 0).length - 1 ∧
      (∀ e ∈ (iterate_subgraph_incidence_indices wgraph [false] [true] 0 0
          ((wgraph.incList 0).length - 1) (walkerInit wgraph 0 0)).1,
        incidentIdx wgraph.edges e 0 ∧ e ≠ 0) ∧
      (iterate_subgraph_incidence_indices wgraph [false] [true] 0 0
          ((wgraph.incList 0).length - 1) (walkerInit wgraph 0 0)).1.Nodup) := by
  have hsub : ∀ e, getN ([false] : List Bool) e false = false := by
    intro e
    cases e with
    | zero => rfl
    | succ n => cases n <;> rfl
  exact ⟨by decide, hsub, by decide, by decide,by decide,
    C4_boundary_walker wgraph [false] [true] 0 0 (by decide) hsub (by decide) (by decide)
      (by decide)⟩

/-- C4 counterexample: the walk of the claim does not terminate.  On a
well-formed one-edge graph with the all-false subgraph mask and all-true
possible-incidences mask, started at the incident pair (edge 0, vertex 0),
the stop flag is false at every fuel: the state is stuck at current vertex
0, current edge 0, opposite vertex 1, and the stopping condition demands
the opposite vertex be the start vertex 0. -/
theorem C4_boundary_walker_cex :
    WF wgraph ∧ incidentIdx wgraph.edges 0 0 ∧
    ∀ fuel, (iterate_subgraph_incidence_indices wgraph [false] [true] 0 0 fuel
      (walkerInit wgraph 0 0)).2 = false := by
  refine ⟨by decide, by decide, ?_⟩
  have hfix : ∀ fuel, (iterate_subgraph_incidence_indices wgraph [false] [true] 0 0 fuel
      ((0 : ℕ), (0 : ℕ), (1 : ℕ))).2 = false := by
    intro fuel
    induction fuel with
    | zero => rfl
    | succ n ih =>
      rw [show iterate_subgraph_incidence_indices wgraph [false] [true] 0 0 (n + 1)
          ((0 : ℕ), (0 : ℕ), (1 : ℕ)) =
        ((walkerNext wgraph [false] [true] ((0 : ℕ), (0 : ℕ), (1 : ℕ))).2 ++
          (iterate_subgraph_incidence_indices wgraph [false] [true] 0 0 n
            (walkerNext wgraph [false] [true] ((0 : ℕ), (0 : ℕ), (1 : ℕ))).1).1,
          (iterate_subgraph_incidence_indices wgraph [false] [true] 0 0 n
            (walkerNext wgraph [false] [true] ((0 : ℕ), (0 : ℕ), (1 : ℕ))).1).2)
        from by rw [iterate_subgraph_incidence_indices, if_neg (by decide)]]
      rw [show (walkerNext wgraph [false] [true] ((0 : ℕ), (0 : ℕ), (1 : ℕ))).1 =
        ((0 : ℕ), (0 : ℕ), (1 : ℕ)) from by decide]
      exact ih
  have hinit : walkerInit wgraph 0 0 = ((0 : ℕ), (0 : ℕ), (1 : ℕ)) := by decide
  intro fuel
  rw [hinit]
  exact hfix fuel

/-- C3 (amended): for every density and triangulated edge count, and for
every shuffle that permutes its input, the boolean edge mask built by the
random-graph generator contains exactly `edges_to_leave_count density E`
true entries, and that count is `int(density * E)` — the truncation (floor,
for nonnegative density) of `density * E`, not its rounding. -/
theorem C3_random_edge_mask (density : ℚ) (E : ℕ)
    (shuffle : List Bool → List Bool) (hperm : ∀ l, (shuffle l).Perm l) :
    (shuffle (randomEdgesMask density E)).count true = edges_to_leave_count density E ∧
    edges_to_leave_count density E = (⌊density * (E : ℚ)⌋).toNat := by
  refine ⟨?_, rfl⟩
  rw [List.Perm.count_eq (hperm _)]
  exact randomEdgesMask_count density E

/-- C3 witness with the identity shuffle. -/
theorem C3_random_edge_mask_witness :
    (∀ l : List Bool, (id l).Perm l) ∧
    ((id (randomEdgesMask (1/2) 3)).count true = edges_to_leave_count (1/2) 3 ∧
      edges_to_leave_count (1/2) 3 = (⌊(1/2 : ℚ) * ((3 : ℕ) : ℚ)⌋).toNat) :=
  ⟨fun l => List.Perm.refl l, C3_random_edge_mask (1/2) 3 id (fun l => List.Perm.refl l)⟩

/-- C3 counterexample: at density 1/2 with 3 triangulated edges the mask
keeps `int(1.5) = 1` edge, not `round(1.5) = 2` as claimed. -/
theorem C3_random_edge_mask_cex :
    (randomEdgesMask (1/2) 3).count true ≠ (round ((1/2 : ℚ) * 3)).toNat := by
  have hfl : ⌊(1/2 : ℚ) * 3⌋ = 1 := by
    rw [Int.floor_eq_iff]
    norm_num
  have hcast : (((3 : ℕ) : ℚ)) = 3 := by norm_num
  have h1 : (randomEdgesMask (1/2) 3).count true = 1 := by
    rw [randomEdgesMask_count]
    unfold edges_to_leave_count
    rw [hcast, hfl]
    rfl
  have h2 : round ((1/2 : ℚ) * 3) = 2 := by norm_num [round_eq]
  rw [h1, h2]
  decide

/-- C6: for every admissible vertex-attachment choice sequence,
`generate_random_tree(n, false)` with `n ≥ 2` returns a graph with exactly
`n - 1` edges and `n` vertices, colored with the single BFS color 0 by
`color_connected_components` (so it is connected), whose every vertex cost
is `1 / n`. -/
theorem C6_random_tree_properties (choices : ℕ → ℕ) (costDraws : ℕ → ℚ) (n : ℕ)
    (hn : 2 ≤ n) (hch : ∀ i, i < n - 2 → choices i < i + 2) :
    ∃ g, generateRandomTree choices costDraws false n = Except.ok g ∧
      g.edges.length = n - 1 ∧
      g.size = n ∧
      color_connected_components g = List.replicate n (0 : ℤ) ∧
      ∀ v, v < n → getN g.vertex_costs v 0 = 1 / (n : ℚ) := by
  obtain ⟨hwf, hlen, _, hreach⟩ := generateRandomTree_spec choices costDraws false n hn hch
  have hsz := treeGraphOf_size choices costDraws false n
  refine ⟨treeGraphOf choices costDraws false n,
    generateRandomTree_eq choices costDraws false n (by omega), hlen, hsz, ?_, ?_⟩
  · have hcol := color_connected_components_connected
      (treeGraphOf choices costDraws false n) hwf (by rw [hsz]; omega)
      (fun v hv => hreach v (by rwa [hsz] at hv))
    rw [hsz] at hcol
    exact hcol
  · intro v hv
    show getN (treeCostsOf costDraws false n) v 0 = 1 / (n : ℚ)
    have hform : treeCostsOf costDraws false n =
        (List.replicate n (1 : ℚ)).map
          (fun c => c / (List.replicate n (1 : ℚ)).sum) := rfl
    rw [hform, List.map_replicate, getN_replicate _ _ _ _ hv, List.sum_replicate,
      nsmul_eq_mul, mul_one]

/-- C6 witness at n = 2. -/
theorem C6_random_tree_properties_witness :
    (2 : ℕ) ≤ 2 ∧ (∀ i, i < 2 - 2 → (fun _ => 0 : ℕ → ℕ) i < i + 2) ∧
    (∃ g, generateRandomTree (fun _ => 0) (fun _ => 0) false 2 = Except.ok g ∧
      g.edges.length = 2 - 1 ∧ g.size = 2 ∧
      color_connected_components g = List.replicate 2 (0 : ℤ) ∧
      ∀ v, v < 2 → getN g.vertex_costs v 0 = 1 / ((2 : ℕ) : ℚ)) :=
  ⟨by decide, fun i hi => absurd hi (by omega),
    C6_random_tree_properties (fun _ => 0) (fun _ => 0) 2 (by decide)
      (fun i hi => absurd hi (by omega))⟩

/-- C9: the post-order DFS returns a parent-edge array of the right length
recording a mask-enabled incident edge for every reached non-root vertex
and `-1` at the start vertex and every unreached vertex; its callback list
contains exactly the reached non-root vertices, each once, and in
post-order: no vertex appears before one of its DFS descendants has
appeared (equivalently, every later entry is not a descendant of an earlier
one is false — descendants always precede ancestors). -/
theorem C9_post_order_dfs (g : PlanarGraph) (mask : List Bool) (start : ℕ)
    (hwf : WF g) (hstart : start < g.size) :
    (traverse_graph_via_post_order_dfs start g mask).1.length = g.size ∧
    getN (traverse_graph_via_post_order_dfs start g mask).1 start (-1) = -1 ∧
    start ∉ (traverse_graph_via_post_order_dfs start g mask).2 ∧
    (∀ v, v < g.size → v ≠ start →
      (getN (traverse_graph_via_post_order_dfs start g mask).1 v (-1) ≠ -1 ↔
        v ∈ (traverse_graph_via_post_order_dfs start g mask).2)) ∧
    (traverse_graph_via_post_order_dfs start g mask).2.Nodup ∧
    (∀ v, v < g.size →
      getN (traverse_graph_via_post_order_dfs start g mask).1 v (-1) ≠ -1 →
      ∃ e, getN (traverse_graph_via_post_order_dfs start g mask).1 v (-1) = Int.ofNat e ∧
        getN mask e false = true ∧ incidentIdx g.edges e v) ∧
    (∀ v, v < g.size → (ReachM g.edges mask start v ↔
      (v = start ∨ v ∈ (traverse_graph_via_post_order_dfs start g mask).2))) ∧
    List.Pairwise (fun a b => ¬ IsDescOf g.edges
      (traverse_graph_via_post_order_dfs start g mask).1 b a)
      (traverse_graph_via_post_order_dfs start g mask).2 := by
  obtain ⟨⟨h1, h2, h3, h4, h5, h6, h7⟩, h8⟩ := traverse_dfs_spec g hwf mask start hstart
  exact ⟨h1, h2, h8, h3, h4, h5, h6, h7⟩

/-- C9 witness at a concrete one-edge graph. -/
theorem C9_post_order_dfs_witness :
    WF wgraph ∧ (0 : ℕ) < wgraph.size ∧
    ((traverse_graph_via_post_order_dfs 0 wgraph [true]).1.length = wgraph.size ∧
    getN (traverse_graph_via_post_order_dfs 0 wgraph [true]).1 0 (-1) = -1 ∧
    0 ∉ (traverse_graph_via_post_order_dfs 0 wgraph [true]).2 ∧
    (∀ v, v < wgraph.size → v ≠ 0 →
      (getN (traverse_graph_via_post_order_dfs 0 wgraph [true]).1 v (-1) ≠ -1 ↔
        v ∈ (traverse_graph_via_post_order_dfs 0 wgraph [true]).2)) ∧
    (traverse_graph_via_post_order_dfs 0 wgraph [true]).2.Nodup ∧
    (∀ v, v < wgraph.size →
      getN (traverse_graph_via_post_order_dfs 0 wgraph [true]).1 v (-1) ≠ -1 →
      ∃ e, getN (traverse_graph_via_post_order_dfs 0 wgraph [true]).1 v (-1) =
          Int.ofNat e ∧
        getN [true] e false = true ∧ incidentIdx wgraph.edges e v) ∧
    (∀ v, v < wgraph.size → (ReachM wgraph.edges [true] 0 v ↔
      (v = 0 ∨ v ∈ (traverse_graph_via_post_order_dfs 0 wgraph [true]).2))) ∧
    List.Pairwise (fun a b => ¬ IsDescOf wgraph.edges
      (traverse_graph_via_post_order_dfs 0 wgraph [true]).1 b a)
      (traverse_graph_via_post_order_dfs 0 wgraph [true]).2) :=
  ⟨by decide, by decide, C9_post_order_dfs wgraph [true] 0 (by decide) (by decide)⟩

/-- The concrete graph produced by `generate_random_graph` on a size-2 tree
with density 0 and identity triangulation and shuffle. -/
def rgWitnessGraph : PlanarGraph :=
  normalize_vertex_costs (remove_double_edges
    ((construct_subgraph (treeGraphOf (fun _ => 0) (fun _ => 0) false 2)
      (List.replicate (treeGraphOf (fun _ => 0) (fun _ => 0) false 2).size true)
      (randomEdgesMask 0
        (treeGraphOf (fun _ => 0) (fun _ => 0) false 2).edges_count)).2.2))

/-- C1: every graph produced by any of the five constructors — subgraph
construction, cloning, construction from ordered adjacencies, the random
tree generator and the random graph generator — satisfies the rotation
invariant: from every vertex with a nonnegative example-incident-edge
index, the `next`-pointer walk returns to the example edge after exactly
`degree` steps, never earlier, and every edge on the way is incident to the
vertex. -/
theorem C1_rotation_invariant_constructors :
    (∀ g vmask emask, WF g → vmask.length = g.size →
      rotationInvariant (construct_subgraph g vmask emask).2.2) ∧
    (∀ g, WF g → rotationInvariant (clone_graph g)) ∧
    (∀ adjs, ValidAdj adjs → rotationInvariant (construct_from_ordered_adjacencies adjs)) ∧
    (∀ (choices : ℕ → ℕ) (costDraws : ℕ → ℚ) (randomCosts : Bool) (size : ℕ)
        (g : PlanarGraph), 2 ≤ size →
      (∀ i, i < size - 2 → choices i < i + 2) →
      generateRandomTree choices costDraws randomCosts size = Except.ok g →
      rotationInvariant g) ∧
    (∀ (choices : ℕ → ℕ) (costDraws : ℕ → ℚ) (randomCosts : Bool) (size : ℕ)
        (density : ℚ) (triangulate : PlanarGraph → PlanarGraph)
        (shuffle : List Bool → List Bool) (g : PlanarGraph), 2 ≤ size →
      (∀ i, i < size - 2 → choices i < i + 2) →
      (∀ h, WF h → WF (triangulate h)) →
      generate_random_graph choices costDraws randomCosts size density triangulate
        shuffle = Except.ok g →
      rotationInvariant g) := by
  refine ⟨?_, ?_, ?_, ?_, ?_⟩
  · intro g vmask emask hwf hvm
    exact rotationInvariant_of_WF _ (construct_subgraph_main g vmask emask hwf hvm).1
  · intro g hwf
    exact rotationInvariant_of_WF _
      (construct_subgraph_main g (List.replicate g.size true)
        (List.replicate g.edges_count true) hwf (by simp)).1
  · intro adjs hva
    exact rotationInvariant_of_WF _ (cfoa_main adjs hva).1
  · intro choices costDraws randomCosts size g hsz hch hok
    rw [generateRandomTree_eq choices costDraws randomCosts size (by omega)] at hok
    cases hok
    exact rotationInvariant_of_WF _
      (generateRandomTree_spec choices costDraws randomCosts size hsz hch).1
  · intro choices costDraws randomCosts size density triangulate shuffle g hsz hch htri hok
    exact rotationInvariant_of_WF _
      (generate_random_graph_WF choices costDraws randomCosts size density triangulate
        shuffle hsz hch htri g hok)

/-- C1 witness: one concrete graph per constructor. -/
theorem C1_rotation_invariant_constructors_witness :
    WF wgraph ∧ ([true, true] : List Bool).length = wgraph.size ∧
    ValidAdj [[1], [0]] ∧
    generateRandomTree (fun _ => 0) (fun _ => 0) false 2 =
      Except.ok (treeGraphOf (fun _ => 0) (fun _ => 0) false 2) ∧
    generate_random_graph (fun _ => 0) (fun _ => 0) false 2 0 id id =
      Except.ok rgWitnessGraph ∧
    rotationInvariant (construct_subgraph wgraph [true, true] [true]).2.2 ∧
    rotationInvariant (clone_graph wgraph) ∧
    rotationInvariant (construct_from_ordered_adjacencies [[1], [0]]) ∧
    rotationInvariant (treeGraphOf (fun _ => 0) (fun _ => 0) false 2) ∧
    rotationInvariant rgWitnessGraph :=
  ⟨by decide, by decide, by decide, rfl, rfl,
    C1_rotation_invariant_constructors.1 wgraph [true, true] [true] (by decide) (by decide),
    C1_rotation_invariant_constructors.2.1 wgraph (by decide),
    C1_rotation_invariant_constructors.2.2.1 [[1], [0]] (by decide),
    C1_rotation_invariant_constructors.2.2.2.1 (fun _ => 0) (fun _ => 0) false 2 _
      (by decide) (fun i hi => absurd hi (by omega)) rfl,
    C1_rotation_invariant_constructors.2.2.2.2 (fun _ => 0) (fun _ => 0) false 2 0 id id _
      (by decide) (fun i hi => absurd hi (by omega)) (fun _ hw => hw) rfl⟩

end PlanSep
